import Mathlib

/-!
# libecl `parser.c` : a shallow embedding of the tokenizer engine

The C functions of `devel/libutil/src/parser.c` are rendered as Lean functions.

* A `char *` is a `List Char` holding the bytes in memory; every read at or
  beyond the end of the list yields the terminator `NUL`.  A list without `NUL`
  is exactly the content of a C string.
* A pointer `&buffer[position]` is the suffix `buffer.drop position`.
* `util_abort` is the outcome `none` (helpers) or `Outcome.abort` (loops).
* The `while` loops over a position are driven by a fuel counter, started at
  `strlen buffer + 1`; running out of fuel is a separate outcome, never
  produced by the entry points (`parser_tokenize_buffer_fuel`,
  `parser_strip_buffer_fuel`).
* A `FILE *` is the list of the bytes of the file with a position.  `fgetc` gives an
  `Int`, the byte or `EOF`; a `char` is signed, so the bytes from 128 on compare as
  negative numbers and `EOF` converts to the byte 255.
* The loop of `parser_fseek_string` is driven by a fuel counter as well; there its
  outcome `out_of_fuel` can be produced, for a loop that does not end, and
  `undefined` stands for a read through a `NULL` pointer.
-/

namespace ParserC

/-! ## Characters and C strings -/

/-- The terminator of a C string. -/
def NUL : Char := Char.ofNat 0

/-- The macro `PARSER_ESCAPE_CHAR`, a backslash. -/
def PARSER_ESCAPE_CHAR : Char := Char.ofNat 92

/-- The C string stored at a pointer: the characters before the first `NUL`. -/
def cstr : List Char → List Char
  | [] => []
  | c :: cs => if c = NUL then [] else c :: cstr cs

/-- Library function `strlen`. -/
def strlen (s : List Char) : Nat := (cstr s).length

/-- The read `buffer[i]`. -/
def charAt (buffer : List Char) (i : Nat) : Char := buffer.getD i NUL

/-- Library function `strchr(set, c) != NULL`: the terminator of `set` is part of
the searched string, so `NUL` is always found. -/
def strchr_found (set : List Char) (c : Char) : Bool :=
  decide (c = NUL) || decide (c ∈ cstr set)

/-- Library function `strspn`: the length of the longest initial segment of `s`
made of characters of `accept`. -/
def strspn : List Char → List Char → Nat
  | [], _ => 0
  | c :: cs, accept =>
    if c ≠ NUL ∧ c ∈ cstr accept then strspn cs accept + 1 else 0

/-- Library function `strncmp(a, b, n) == 0`: the first `n` characters agree, the
comparison stopping at a common terminator. -/
def strncmp_eq : List Char → List Char → Nat → Bool
  | _, _, 0 => true
  | a, b, n + 1 =>
    if charAt a 0 ≠ charAt b 0 then false
    else if charAt a 0 = NUL then true
    else strncmp_eq a.tail b.tail n

/-! ## The configuration -/

/-- The struct `parser_struct`; a `NULL` field is `none`. -/
structure parser_struct where
  splitters : Option (List Char)
  specials : Option (List Char)
  delete_set : Option (List Char)
  quoters : Option (List Char)
  comment_start : Option (List Char)
  comment_end : Option (List Char)
deriving DecidableEq, Repr

/-- Function `parser_alloc`; `none` is `util_abort`.  `util_alloc_string_copy`
copies the C string of its argument. -/
def parser_alloc (splitters quoters specials delete_set comment_start comment_end :
    Option (List Char)) : Option parser_struct :=
  if splitters.any (fun s => strlen s == 0) then none
  else if quoters.any (fun s => strlen s == 0) then none
  else if specials.any (fun s => strlen s == 0) then none
  else if comment_start.any (fun s => strlen s == 0) then none
  else if comment_end.any (fun s => strlen s == 0) then none
  else if comment_start.isNone ∧ comment_end.isSome then none
  else if comment_start.isSome ∧ comment_end.isNone then none
  else some
    { splitters := splitters.map cstr
      specials := specials.map cstr
      delete_set := delete_set.map cstr
      quoters := quoters.map cstr
      comment_start := comment_start.map cstr
      comment_end := comment_end.map cstr }

/-! ## Character classification -/

/-- Function `is_escape`. -/
def is_escape (c : Char) : Bool := decide (c = PARSER_ESCAPE_CHAR)

/-- Function `length_of_initial_splitters`. -/
def length_of_initial_splitters (buffer_position : List Char) (parser : parser_struct) : Nat :=
  match parser.splitters with
  | none => 0
  | some splitters => strspn buffer_position splitters

/-- Function `in_set`. -/
def in_set (c : Char) (set : Option (List Char)) : Bool :=
  match set with
  | none => false
  | some s => strchr_found s c

/-- Function `is_splitters`. -/
def is_splitters (c : Char) (parser : parser_struct) : Bool := in_set c parser.splitters

/-- Function `is_special`. -/
def is_special (c : Char) (parser : parser_struct) : Bool := in_set c parser.specials

/-- Function `is_in_quoters`. -/
def is_in_quoters (c : Char) (parser : parser_struct) : Bool := in_set c parser.quoters

/-- Function `is_in_delete_set`. -/
def is_in_delete_set (c : Char) (parser : parser_struct) : Bool := in_set c parser.delete_set

/-! ## Lengths of quotations, comments, normal runs and delete runs -/

/-- The `while` loop of `length_of_quotation`.  The list argument is
`&buffer[length]`, so its head is `current`; the result is the final
`(length, current)`. -/
def length_of_quotation_loop (target : Char) : List Char → Nat → Bool → Nat × Char
  | [], length, _ => (length, NUL)
  | current :: rest, length, escaped =>
    if current ≠ NUL ∧ ¬(current = target ∧ escaped = false) then
      length_of_quotation_loop target rest (length + 1) (is_escape current)
    else (length, current)

/-- Function `length_of_quotation`; `none` is the `util_abort` of an unterminated
quotation. -/
def length_of_quotation (buffer : List Char) : Option Nat :=
  let target := charAt buffer 0
  let r := length_of_quotation_loop target (buffer.drop 1) 1 false
  let length := r.1 + 1
  if r.2 = NUL then none else some length

/-- The `while` loop of `length_of_comment`, entered in a comment.  The list
argument is `&buffer_position[length]`. -/
def length_of_comment_loop (comment_end : List Char) : List Char → Nat → Nat
  | [], length => length
  | c :: rest, length =>
    if c = NUL then length
    else if strncmp_eq (c :: rest) comment_end (strlen comment_end) then
      length + strlen comment_end
    else length_of_comment_loop comment_end rest (length + 1)

/-- Function `length_of_comment`. -/
def length_of_comment (buffer_position : List Char) (parser : parser_struct) : Nat :=
  match parser.comment_start, parser.comment_end with
  | some comment_start, some comment_end =>
    let len_comment_start := strlen comment_start
    if strncmp_eq buffer_position comment_start len_comment_start then
      length_of_comment_loop comment_end (buffer_position.drop len_comment_start)
        len_comment_start
    else 0
  | _, _ => 0

/-- Modelled from the spec: `util_string_replace_inplace(&token, expr, subs)` of
`util.c`, which is not part of the sources at hand.  Every occurrence of `expr`
met in a left to right scan is replaced with `subs`, the scan resuming behind the
replaced text; nothing else is changed.  The counter is the number of characters of
a matched occurrence that are still to be passed over. -/
def util_string_replace_inplace (expr subs : List Char) : List Char → Nat → List Char
  | [], _ => []
  | _ :: cs, skip + 1 => util_string_replace_inplace expr subs cs skip
  | c :: cs, 0 =>
    if expr ≠ [] ∧ expr.isPrefixOf (c :: cs) then
      subs ++ util_string_replace_inplace expr subs cs (expr.length - 1)
    else c :: util_string_replace_inplace expr subs cs 0

/-- Function `alloc_quoted_token`, called with the length of the quotation at
`buffer`.  With `strip_quote_marks` the token is `buffer[1 .. length-2]`, in which
the escape character is then removed in front of every escaped quote character. -/
def alloc_quoted_token (buffer : List Char) (length : Nat) (strip_quote_marks : Bool) :
    List Char :=
  if !strip_quote_marks then buffer.take length
  else
    util_string_replace_inplace [PARSER_ESCAPE_CHAR, charAt buffer 0] [charAt buffer 0]
      ((buffer.drop 1).take (length - 2)) 0

/-- The `while` loop of `length_of_normal_non_splitters`.  The list argument is
`&buffer[length]`, whose head is `current`. -/
def length_of_normal_non_splitters_loop (parser : parser_struct) : List Char → Nat → Nat
  | [], length => length
  | current :: rest, length =>
    if current = NUL then length
    else if is_splitters (charAt rest 0) parser then length + 1
    else if is_special (charAt rest 0) parser then length + 1
    else if is_in_quoters (charAt rest 0) parser then length + 1
    else if length_of_comment rest parser > 0 then length + 1
    else length_of_normal_non_splitters_loop parser rest (length + 1)

/-- Function `length_of_normal_non_splitters`. -/
def length_of_normal_non_splitters (buffer : List Char) (parser : parser_struct) : Nat :=
  length_of_normal_non_splitters_loop parser buffer 0

/-- The `while` loop of `length_of_delete`; the list argument is `&buffer[length]`. -/
def length_of_delete_loop (parser : parser_struct) : List Char → Nat → Nat
  | [], length => length
  | current :: rest, length =>
    if is_in_delete_set current parser ∧ current ≠ NUL then
      length_of_delete_loop parser rest (length + 1)
    else length

/-- Function `length_of_delete`. -/
def length_of_delete (buffer : List Char) (parser : parser_struct) : Nat :=
  length_of_delete_loop parser buffer 0

/-! ## The buffer tokenizer -/

/-- The outcome of a loop run. -/
inductive Outcome (α : Type) where
  | ok (a : α)
  | abort
  | out_of_fuel
deriving DecidableEq, Repr

/-- Apply a function to the value of a finished run. -/
def Outcome.map {α β : Type} (f : α → β) : Outcome α → Outcome β
  | .ok a => .ok (f a)
  | .abort => .abort
  | .out_of_fuel => .out_of_fuel

/-- The token built from a normal run of `length` characters at `here`: the
characters of the delete set are left out. -/
def normal_token (here : List Char) (length : Nat) (parser : parser_struct) : List Char :=
  match parser.delete_set with
  | none => here.take length
  | some _ => (here.take length).filter (fun c => !is_in_delete_set c parser)

/-- One pass through the body of the `while` loop of `parser_tokenize_buffer`,
entered with `position < buffer_size`; the result is the new position and token
list, `none` when the pass ends in `util_abort`. -/
def tokenize_body (parser : parser_struct) (buffer : List Char) (strip_quote_marks : Bool)
    (position : Nat) (tokens : List (List Char)) : Option (Nat × List (List Char)) :=
  let here := buffer.drop position
  let splitters_length := length_of_initial_splitters here parser
  if splitters_length > 0 then some (position + splitters_length, tokens)
  else
    let comment_length := length_of_comment here parser
    if comment_length > 0 then some (position + comment_length, tokens)
    else
      let delete_length := length_of_delete here parser
      if delete_length > 0 then some (position + delete_length, tokens)
      else if is_special (charAt buffer position) parser then
        some (position + 1, tokens ++ [[charAt buffer position]])
      else if is_in_quoters (charAt buffer position) parser then
        match length_of_quotation here with
        | none => none
        | some length =>
          some (position + length, tokens ++ [alloc_quoted_token here length strip_quote_marks])
      else
        let length := length_of_normal_non_splitters here parser
        let token := normal_token here length parser
        if token.length > 0 then some (position + length, tokens ++ [token])
        else some (position + length, tokens)

/-- The `while (position < buffer_size)` loop of `parser_tokenize_buffer`. -/
def tokenize_loop (parser : parser_struct) (buffer : List Char) (strip_quote_marks : Bool) :
    Nat → Nat → List (List Char) → Outcome (List (List Char))
  | 0, _, _ => .out_of_fuel
  | fuel + 1, position, tokens =>
    if position < strlen buffer then
      match tokenize_body parser buffer strip_quote_marks position tokens with
      | none => .abort
      | some (position, tokens) => tokenize_loop parser buffer strip_quote_marks fuel position tokens
    else .ok tokens

/-- Function `parser_tokenize_buffer`. -/
def parser_tokenize_buffer (parser : parser_struct) (buffer : List Char)
    (strip_quote_marks : Bool) : Outcome (List (List Char)) :=
  tokenize_loop parser buffer strip_quote_marks (strlen buffer + 1) 0 []

/-! ## The buffer stripper -/

/-- One pass through the body of the `while` loop of `parser_strip_buffer` at
`src_position`; `target` holds the `target_position` characters written so far.  The
token that the quotation branch allocates and frees plays no part. -/
def strip_body (parser : parser_struct) (src : List Char) (src_position : Nat)
    (target : List Char) : Option (Nat × List Char) :=
  let here := src.drop src_position
  let comment_length := length_of_comment here parser
  if comment_length > 0 then some (src_position + comment_length, target)
  else
    let delete_length := length_of_delete here parser
    if delete_length > 0 then some (src_position + delete_length, target)
    else if is_in_quoters (charAt src src_position) parser then
      match length_of_quotation here with
      | none => none
      | some length => some (src_position + length, target ++ here.take length)
    else some (src_position + 1, target ++ [charAt src src_position])

/-- The `while (src_position < strlen(src))` loop of `parser_strip_buffer`. -/
def strip_loop (parser : parser_struct) (src : List Char) :
    Nat → Nat → List Char → Outcome (List Char)
  | 0, _, _ => .out_of_fuel
  | fuel + 1, src_position, target =>
    if src_position < strlen src then
      match strip_body parser src src_position target with
      | none => .abort
      | some (src_position, target) => strip_loop parser src fuel src_position target
    else .ok target

/-- Function `parser_strip_buffer`: the result is the new content of the buffer. -/
def parser_strip_buffer (parser : parser_struct) (buffer : List Char) : Outcome (List Char) :=
  strip_loop parser buffer (strlen buffer + 1) 0 []

/-! ## Streams -/

/-- A stream opened for reading: the bytes of the file and the position indicator. -/
structure FILE where
  content : List Char
  pos : Nat
deriving DecidableEq, Repr

/-- The value `EOF`. -/
def EOF : Int := -1

/-- Library function `fgetc`: the byte at the position as a non-negative `int`, the
position moving on by one; `EOF` at the end of the file, the position staying. -/
def fgetc (stream : FILE) : Int × FILE :=
  match stream.content[stream.pos]? with
  | some c => ((c.toNat : Int), { stream with pos := stream.pos + 1 })
  | none => (EOF, stream)

/-- Library function `ftell`. -/
def ftell (stream : FILE) : Nat := stream.pos

/-- Library function `fseek(stream, offset, SEEK_SET)`. -/
def fseek_set (stream : FILE) (offset : Nat) : FILE := { stream with pos := offset }

/-- Library function `fseek(stream, 0, SEEK_END)`. -/
def fseek_end (stream : FILE) : FILE := { stream with pos := stream.content.length }

/-- Library function `fseek(stream, offset, SEEK_CUR)`; a seek to a negative position
fails and leaves the position as it is. -/
def fseek_cur (stream : FILE) (offset : Int) : FILE :=
  if (stream.pos : Int) + offset < 0 then stream
  else { stream with pos := ((stream.pos : Int) + offset).toNat }

/-- The conversion `(char) c` of a value that `fgetc` has returned: the byte itself, and
the byte 255 for `EOF`. -/
def int_to_char (c : Int) : Char := if c = EOF then Char.ofNat 255 else Char.ofNat c.toNat

/-- The promotion of a `char` to `int` in a comparison; `char` is a signed byte, so the
bytes from 128 on are negative. -/
def char_to_int (c : Char) : Int :=
  if 128 ≤ c.toNat ∧ c.toNat < 256 then (c.toNat : Int) - 256 else (c.toNat : Int)

/-- Library function `strstr(haystack, needle) != NULL`. -/
def strstr_found (haystack needle : List Char) : Bool :=
  (List.range (strlen haystack + 1)).any
    (fun k => (cstr needle).isPrefixOf ((cstr haystack).drop k))

/-- The `do ... while` loop of `fseek_quote_end`; the list argument holds the bytes from the
position on.  The result is `c == quoter` and the position. -/
def fseek_quote_end_loop (quoter : Char) : List Char → Nat → Bool × Nat
  | [], pos => (decide (EOF = char_to_int quoter), pos)
  | c :: rest, pos =>
    if (c.toNat : Int) ≠ char_to_int quoter then fseek_quote_end_loop quoter rest (pos + 1)
    else (true, pos + 1)

/-- Function `fseek_quote_end`. -/
def fseek_quote_end (quoter : Char) (stream : FILE) : Bool × FILE :=
  let r := fseek_quote_end_loop quoter (stream.content.drop stream.pos) stream.pos
  (r.1, { stream with pos := r.2 })

/-- The `for` loop of `fgetc_while_equal` over the characters of `string`: the stream
behind the characters read when all were equal, `none` at the first one that differs. -/
def fgetc_while_equal_loop : List Char → FILE → Option FILE
  | [], stream => some stream
  | s :: ss, stream =>
    if (fgetc stream).1 ≠ char_to_int s then none
    else fgetc_while_equal_loop ss (fgetc stream).2

/-- Function `fgetc_while_equal`. -/
def fgetc_while_equal (stream : FILE) (string : List Char) : Bool × FILE :=
  let current_pos := ftell stream
  match fgetc_while_equal_loop (cstr string) stream with
  | some stream' => (true, stream')
  | none => (false, fseek_set stream current_pos)

/-- The index of the first occurrence of `pat` in a text. -/
def first_occurrence (pat : List Char) : List Char → Option Nat
  | [] => if pat.isPrefixOf [] then some 0 else none
  | c :: rest =>
    if pat.isPrefixOf (c :: rest) then some 0 else (first_occurrence pat rest).map (· + 1)

/-- Modelled from the spec: `util_fseek_string(stream, string, skip_string)` of `util.c`,
which is not part of the sources at hand.  It is the seek of the spec without quotations
and comments: the stream is searched from its position on for the first occurrence of
`string`; when there is one the result is true and the position is the first character of
the occurrence, or the character behind the occurrence with `skip_string`; when there is
none the result is false and the position is the one on entry. -/
def util_fseek_string (stream : FILE) (string : List Char) (skip_string : Bool) :
    Bool × FILE :=
  match first_occurrence (cstr string) (stream.content.drop stream.pos) with
  | some k =>
    (true, { stream with pos := stream.pos + k + (if skip_string then strlen string else 0) })
  | none => (false, stream)

/-- The outcome of a seek: a result with the stream, `util_abort`, the undefined
behaviour of a `NULL` pointer handed on or read through, or no fuel left. -/
inductive SeekOutcome where
  | done (found : Bool) (stream : FILE)
  | abort
  | undefined
  | out_of_fuel
deriving DecidableEq, Repr

/-- The test `c == string[0]` with, when it holds, the call
`fgetc_while_equal(stream, &string[1])` behind it: whether `string` has been read, and the
stream afterwards. -/
def match_at (c : Int) (stream : FILE) (string : List Char) : Bool × FILE :=
  if c = char_to_int (charAt string 0) then fgetc_while_equal stream (string.drop 1)
  else (false, stream)

/-- The `do ... while (cont)` loop of `parser_fseek_string`; `done` carries `string_found`
and the stream at the end of the loop.  The warnings, with the line number taken by
`util_get_current_linenr` after a seek back, are left out: a seek to the end of the file
follows each of them. -/
def parser_fseek_string_loop (parser : parser_struct) (comment_start string : List Char)
    (skip_string : Bool) : Nat → FILE → SeekOutcome
  | 0, _ => .out_of_fuel
  | fuel + 1, stream0 =>
    let c := (fgetc stream0).1
    let stream := (fgetc stream0).2
    if is_in_quoters (int_to_char c) parser then
      let quote_start_pos := ftell stream
      let q := fseek_quote_end (int_to_char c) stream
      if !q.1 then
        parser_fseek_string_loop parser comment_start string skip_string fuel
          (fseek_end (fseek_set q.2 quote_start_pos))
      else parser_fseek_string_loop parser comment_start string skip_string fuel q.2
    else
      let r := match_at c stream comment_start
      if r.1 then
        let comment_start_pos := ftell r.2 - strlen comment_start
        match parser.comment_end with
        | none => .undefined
        | some comment_end =>
          let u := util_fseek_string r.2 comment_end skip_string
          if !u.1 then
            parser_fseek_string_loop parser comment_start string skip_string fuel
              (fseek_end (fseek_set u.2 comment_start_pos))
          else parser_fseek_string_loop parser comment_start string skip_string fuel u.2
      else
        let e := match_at c r.2 string
        if e.1 then .done true e.2
        else if c = EOF then .done false e.2
        else parser_fseek_string_loop parser comment_start string skip_string fuel e.2

/-- Function `parser_fseek_string`, with the fuel of its loop as an argument.  A
configuration without `comment_start` hands `NULL` to `strstr`. -/
def parser_fseek_string_fuel (fuel : Nat) (parser : parser_struct) (stream : FILE)
    (string : List Char) (skip_string : Bool) : SeekOutcome :=
  let initial_pos := ftell stream
  match parser.comment_start with
  | none => .undefined
  | some comment_start =>
    if strstr_found string comment_start then .abort
    else
      match parser_fseek_string_loop parser comment_start string skip_string fuel stream with
      | .done true stream' =>
        if !skip_string then .done true (fseek_cur stream' (-(strlen string : Int)))
        else .done true stream'
      | .done false stream' => .done false (fseek_set stream' initial_pos)
      | other => other

/-- Function `parser_fseek_string`: one pass of the loop for every byte left in the
stream and one for the end of the file. -/
def parser_fseek_string (parser : parser_struct) (stream : FILE) (string : List Char)
    (skip_string : Bool) : SeekOutcome :=
  parser_fseek_string_fuel (stream.content.length - stream.pos + 1) parser stream string
    skip_string

/-! ## Definitions used in the statements -/

/-- The configuration whose only class is the single splitter character `c`. -/
def single_splitter_config (c : Char) : parser_struct :=
  { splitters := some [c], specials := none, delete_set := none, quoters := none,
    comment_start := none, comment_end := none }

/-- Classic splitting, after the spec's words: the buffer is split at every occurrence
of `c` and the empty fields are discarded. -/
def split_discard_empty (c : Char) (b : List Char) : List (List Char) :=
  (b.splitOn c).filter (fun f => decide (f ≠ []))

/-- The closing rule of a quotation, after the spec's words: the character at index
`i`, from 1 on, is the quote character `buffer[0]` and the character right before it
is not the escape character. -/
def closes_quotation (buffer : List Char) (i : Nat) : Prop :=
  1 ≤ i ∧ charAt buffer i = charAt buffer 0 ∧ charAt buffer (i - 1) ≠ PARSER_ESCAPE_CHAR

instance (buffer : List Char) (i : Nat) : Decidable (closes_quotation buffer i) := by
  unfold closes_quotation
  infer_instance

/-- The position `k` of `rest` ends the loop of `length_of_quotation` entered with
`escaped`: it holds `target` and is not escaped. -/
def loop_closes (target : Char) (rest : List Char) (escaped : Bool) (k : Nat) : Prop :=
  charAt rest k = target ∧
    (k = 0 → escaped = false) ∧ (0 < k → charAt rest (k - 1) ≠ PARSER_ESCAPE_CHAR)

/-- The unescaped content of a quotation, after the spec's words: every occurrence of
the two characters escape, `q` is replaced with `q`, nothing else is changed. -/
def unescape_quote (q : Char) : List Char → List Char
  | [] => []
  | [c] => [c]
  | c :: d :: rest =>
    if c = PARSER_ESCAPE_CHAR ∧ d = q then q :: unescape_quote q rest
    else c :: unescape_quote q (d :: rest)

/-- The configuration with the double quote as the sole quoter and nothing else. -/
def sole_quoter_config : parser_struct :=
  { splitters := none, specials := none, delete_set := none, quoters := some ['"'],
    comment_start := none, comment_end := none }

/-- No quoter character of the buffer is directly followed by the same character: the
buffer holds no empty quotation. -/
def no_empty_quotation (cfg : parser_struct) (b : List Char) : Prop :=
  ∀ i, i + 1 < b.length → is_in_quoters (charAt b i) cfg = true →
    charAt b (i + 1) ≠ charAt b i

/-- The configuration with the escape character as the sole quoter and nothing else. -/
def escape_quoter_config : parser_struct :=
  { splitters := none, specials := none, delete_set := none,
    quoters := some [PARSER_ESCAPE_CHAR], comment_start := none, comment_end := none }

/-- The string `pat` occurs in `text` at the index `k`. -/
def occurs_at (pat text : List Char) (k : Nat) : Bool := pat.isPrefixOf (text.drop k)

/-- A configuration with the double quote as quoter and comments from `#` to the end of
the line. -/
def hash_comment_config : parser_struct :=
  { splitters := none, specials := none, delete_set := none, quoters := some ['"'],
    comment_start := some ['#'], comment_end := some ['\n'] }

/-- A configuration in which the double quote is both a quoter and a delete character. -/
def quote_delete_config : parser_struct :=
  { splitters := none, specials := none, delete_set := some ['"'], quoters := some ['"'],
    comment_start := none, comment_end := none }

/-- A configuration in which the double quote is both a quoter and the comment start. -/
def quote_comment_config : parser_struct :=
  { splitters := none, specials := none, delete_set := none, quoters := some ['"'],
    comment_start := some ['"'], comment_end := some ['\n'] }

/-- The configuration with `comment_start` and `comment_end` unset and everything else as
in `cfg`. -/
def without_comments (cfg : parser_struct) : parser_struct :=
  { cfg with comment_start := none, comment_end := none }

/-- A character that no normal run goes over: a splitter, a special or a quoter. -/
def is_boundary (c : Char) (cfg : parser_struct) : Bool :=
  is_splitters c cfg || is_special c cfg || is_in_quoters c cfg

/-- The classes of the configuration are kept apart where the stripper and the tokenizer
would read a character differently: no quoter is a splitter or a special, no delete
character is a splitter, and the comment start is a non-empty C string that begins with
neither a splitter nor a delete character. -/
def classes_separated (cfg : parser_struct) : Prop :=
  (∀ c ∈ cfg.quoters.getD [], is_splitters c cfg = false ∧ is_special c cfg = false) ∧
    (∀ c ∈ cfg.delete_set.getD [], is_splitters c cfg = false) ∧
    (∀ cs, cfg.comment_start = some cs →
      NUL ∉ cs ∧ cs ≠ [] ∧ is_splitters (charAt cs 0) cfg = false ∧
        is_in_delete_set (charAt cs 0) cfg = false)

/-- The `while (position < buffer_size)` loop of `parser_tokenize_buffer` once more, on
`here = &buffer[position]`, looking for two words that the stripper joins: `word_behind`
says that the last thing passed, comments and runs of delete characters apart, was a normal
run.  The result is true when a normal run begins in that state. -/
def words_joined_loop (parser : parser_struct) : Nat → List Char → Bool → Bool
  | 0, _, _ => false
  | fuel + 1, here, word_behind =>
    if strlen here = 0 then false
    else
      let splitters_length := length_of_initial_splitters here parser
      if splitters_length > 0 then
        words_joined_loop parser fuel (here.drop splitters_length) false
      else
        let comment_length := length_of_comment here parser
        if comment_length > 0 then
          words_joined_loop parser fuel (here.drop comment_length) word_behind
        else
          let delete_length := length_of_delete here parser
          if delete_length > 0 then
            words_joined_loop parser fuel (here.drop delete_length) word_behind
          else if is_special (charAt here 0) parser then
            words_joined_loop parser fuel (here.drop 1) false
          else if is_in_quoters (charAt here 0) parser then
            match length_of_quotation here with
            | none => false
            | some length => words_joined_loop parser fuel (here.drop length) false
          else if word_behind then true
          else
            words_joined_loop parser fuel
              (here.drop (length_of_normal_non_splitters here parser)) true

/-- Somewhere in the buffer two normal runs of the tokenizer have nothing but comments and
runs of delete characters between them: the tokenizer reads two words there, and the
stripper leaves their characters side by side. -/
def words_joined (parser : parser_struct) (buffer : List Char) : Bool :=
  words_joined_loop parser (strlen buffer + 1) buffer false

/-- The characters of `w`, followed by `rest` in the buffer, go on a normal run: none is a
splitter, a special or a quoter, and no comment starts at any of them. -/
def all_plain (cfg : parser_struct) : List Char → List Char → Prop
  | [], _ => True
  | c :: v, rest =>
    is_boundary c cfg = false ∧ length_of_comment (c :: v ++ rest) cfg = 0 ∧ all_plain cfg v rest

/-- The configuration of the spec's example: the blank splits, `=` is special, the double
quote quotes, comments run from `#` to the end of the line. -/
def spec_config : parser_struct :=
  { splitters := some [' '], specials := some ['='], delete_set := none, quoters := some ['"'],
    comment_start := some ['#'], comment_end := some ['\n'] }

/-- A configuration in which the double quote is both a special and a quoter. -/
def special_quoter_config : parser_struct :=
  { splitters := none, specials := some ['"'], delete_set := none, quoters := some ['"'],
    comment_start := none, comment_end := none }

/-- A configuration in which `#` belongs to every class and starts the comments. -/
def all_classes_config : parser_struct :=
  { splitters := some ['#'], specials := some ['#'], delete_set := some ['#'],
    quoters := some ['#'], comment_start := some ['#'], comment_end := some ['\n'] }

/-- The configuration with the blank as splitter and `x` as delete character. -/
def delete_x_config : parser_struct :=
  { splitters := some [' '], specials := none, delete_set := some ['x'], quoters := none,
    comment_start := none, comment_end := none }

/-- A configuration without quoters and comments whose classes overlap: `=` is a special
and a delete character, `x` is a special and a splitter. -/
def overlap_config : parser_struct :=
  { splitters := some [' ', 'x'], specials := some ['=', 'x'], delete_set := some ['='],
    quoters := none, comment_start := none, comment_end := none }

/-- The `while (position < buffer_size)` loop of `parser_tokenize_buffer` once more, with
the position at the end of the scan and the number of passes through the body as the
result. -/
def tokenize_scan (parser : parser_struct) (buffer : List Char) (strip_quote_marks : Bool) :
    Nat → Nat → List (List Char) → Nat → Outcome (Nat × Nat)
  | 0, _, _, _ => .out_of_fuel
  | fuel + 1, position, tokens, passes =>
    if position < strlen buffer then
      match tokenize_body parser buffer strip_quote_marks position tokens with
      | none => .abort
      | some (position, tokens) =>
        tokenize_scan parser buffer strip_quote_marks fuel position tokens (passes + 1)
    else .ok (position, passes)

/-- The index arithmetic of one pass through the body of the `while` loop of
`parser_strip_buffer`: the new `src_position` and `target_position`.  The `memcpy` of the
quotation branch writes `target[target_position .. target_position + length - 1]`, the last
branch writes `target[target_position]`. -/
def strip_body_positions (parser : parser_struct) (src : List Char)
    (src_position target_position : Nat) : Option (Nat × Nat) :=
  let here := src.drop src_position
  let comment_length := length_of_comment here parser
  if comment_length > 0 then some (src_position + comment_length, target_position)
  else
    let delete_length := length_of_delete here parser
    if delete_length > 0 then some (src_position + delete_length, target_position)
    else if is_in_quoters (charAt src src_position) parser then
      match length_of_quotation here with
      | none => none
      | some length => some (src_position + length, target_position + length)
    else some (src_position + 1, target_position + 1)

/-- The `while (src_position < strlen(src))` loop of `parser_strip_buffer` once more, with
the pairs (`src_position`, `target_position`) at the head of each pass and at the end of the
loop, where `target[target_position]` is set to the terminator, as the result. -/
def strip_scan (parser : parser_struct) (src : List Char) :
    Nat → Nat → Nat → Outcome (List (Nat × Nat))
  | 0, _, _ => .out_of_fuel
  | fuel + 1, src_position, target_position =>
    if src_position < strlen src then
      match strip_body_positions parser src src_position target_position with
      | none => .abort
      | some (s, t) =>
        (strip_scan parser src fuel s t).map
          (fun trace => (src_position, target_position) :: trace)
    else .ok [(src_position, target_position)]

/-- The configuration of the spec's example with the double quote a splitter as well. -/
def quoter_splitter_config : parser_struct :=
  { splitters := some [' ', '"'], specials := some ['='], delete_set := none,
    quoters := some ['"'], comment_start := some ['#'], comment_end := some ['\n'] }

/-- The configuration of the spec's example with the double quote a special as well. -/
def quoter_special_config : parser_struct :=
  { splitters := some [' '], specials := some ['=', '"'], delete_set := none,
    quoters := some ['"'], comment_start := some ['#'], comment_end := some ['\n'] }

/-- The configuration of the spec's example with `x` both a splitter and a delete
character. -/
def delete_splitter_config : parser_struct :=
  { splitters := some [' ', 'x'], specials := some ['='], delete_set := some ['x'],
    quoters := some ['"'], comment_start := some ['#'], comment_end := some ['\n'] }

/-- The configuration of the spec's example with `#`, the comment start, a splitter as
well. -/
def comment_splitter_config : parser_struct :=
  { splitters := some [' ', '#'], specials := some ['='], delete_set := none,
    quoters := some ['"'], comment_start := some ['#'], comment_end := some ['\n'] }

/-- The configuration of the spec's example with comments from `#!` to the end of the line
and `#` a delete character. -/
def comment_delete_config : parser_struct :=
  { splitters := some [' '], specials := some ['='], delete_set := some ['#'],
    quoters := some ['"'], comment_start := some ['#', '!'], comment_end := some ['\n'] }

/-! ## Basic facts on C strings -/

theorem cstr_eq_self {s : List Char} (h : NUL ∉ s) : cstr s = s := by
  induction s with
  | nil => rfl
  | cons c cs ih =>
    have hc : c ≠ NUL := fun e => h (by simp [e])
    have hcs : NUL ∉ cs := fun e => h (by simp [e])
    simp [cstr, hc, ih hcs]

theorem strlen_eq_length {s : List Char} (h : NUL ∉ s) : strlen s = s.length := by
  simp [strlen, cstr_eq_self h]

theorem not_mem_drop {s : List Char} (h : NUL ∉ s) (k : Nat) : NUL ∉ s.drop k :=
  fun e => h (List.mem_of_mem_drop e)

theorem charAt_drop (b : List Char) (k i : Nat) : charAt (b.drop k) i = charAt b (k + i) := by
  simp [charAt]

theorem charAt_cons_zero (c : Char) (cs : List Char) : charAt (c :: cs) 0 = c := rfl

/-! ## Progress of the length functions -/

theorem length_of_quotation_loop_ge (target : Char) (rest : List Char) (length : Nat)
    (escaped : Bool) : length ≤ (length_of_quotation_loop target rest length escaped).1 := by
  induction rest generalizing length escaped with
  | nil => simp [length_of_quotation_loop]
  | cons c cs ih =>
    unfold length_of_quotation_loop
    split
    · exact Nat.le_trans (Nat.le_succ _) (ih _ _)
    · exact Nat.le_refl _

theorem length_of_quotation_ge {buffer : List Char} {n : Nat}
    (h : length_of_quotation buffer = some n) : 2 ≤ n := by
  unfold length_of_quotation at h
  simp only at h
  split at h
  · cases h
  · cases h
    have := length_of_quotation_loop_ge (charAt buffer 0) (buffer.drop 1) 1 false
    omega

theorem length_of_normal_non_splitters_loop_pos (parser : parser_struct) (c : Char)
    (rest : List Char) (length : Nat) (hc : c ≠ NUL) :
    length < length_of_normal_non_splitters_loop parser (c :: rest) length := by
  induction rest generalizing c length with
  | nil =>
    unfold length_of_normal_non_splitters_loop
    simp only [hc, if_false]
    repeat' split
    all_goals simp [length_of_normal_non_splitters_loop]
  | cons d ds ih =>
    unfold length_of_normal_non_splitters_loop
    simp only [hc, if_false]
    repeat' split
    all_goals first
      | omega
      | (by_cases hd : d = NUL
         · subst hd; simp [length_of_normal_non_splitters_loop]
         · exact Nat.lt_trans (Nat.lt_succ_self _) (ih d (length + 1) hd))

theorem length_of_normal_non_splitters_pos (parser : parser_struct) {here : List Char}
    (h : NUL ∉ here) (hne : here ≠ []) : 0 < length_of_normal_non_splitters here parser := by
  cases here with
  | nil => exact absurd rfl hne
  | cons c cs =>
    exact length_of_normal_non_splitters_loop_pos parser c cs 0 (fun e => h (by simp [e]))

/-! ## The tokenizer loop: shifting, accumulation, fuel -/

theorem tokenize_body_shift (p : parser_struct) (b : List Char) (s : Bool) (k pos : Nat)
    (toks : List (List Char)) :
    tokenize_body p b s (k + pos) toks =
      (tokenize_body p (b.drop k) s pos toks).map (fun r => (k + r.1, r.2)) := by
  simp only [tokenize_body, List.drop_drop, charAt_drop]
  repeat' split
  all_goals simp_all [Nat.add_assoc]

theorem tokenize_body_acc (p : parser_struct) (b : List Char) (s : Bool) (pos : Nat)
    (t0 toks : List (List Char)) :
    tokenize_body p b s pos (t0 ++ toks) =
      (tokenize_body p b s pos toks).map (fun r => (r.1, t0 ++ r.2)) := by
  simp only [tokenize_body]
  repeat' split
  all_goals simp_all [List.append_assoc]

theorem tokenize_body_progress (p : parser_struct) (b : List Char) (s : Bool) (pos : Nat)
    (toks : List (List Char)) (r : Nat × List (List Char)) (hb : NUL ∉ b)
    (hpos : pos < b.length) (h : tokenize_body p b s pos toks = some r) : pos < r.1 := by
  have hne : b.drop pos ≠ [] := by
    intro e
    have := congrArg List.length e
    simp at this
    omega
  have hn := length_of_normal_non_splitters_pos p (not_mem_drop hb pos) hne
  simp only [tokenize_body] at h
  repeat' split at h
  all_goals first
    | (cases h; done)
    | (cases h; show pos < pos + _; omega)
    | (rename_i hq; cases h; have := length_of_quotation_ge hq; show pos < pos + _; omega)

theorem Outcome.map_map {α β γ : Type} (f : α → β) (g : β → γ) (o : Outcome α) :
    (o.map f).map g = o.map (fun a => g (f a)) := by
  cases o <;> rfl

theorem Outcome.map_id_fun {α : Type} (f : α → α) (hf : ∀ a, f a = a) (o : Outcome α) :
    o.map f = o := by
  cases o <;> simp [Outcome.map, hf]

theorem tokenize_loop_fuel (p : parser_struct) (b : List Char) (s : Bool) (hb : NUL ∉ b)
    (f1 f2 pos : Nat) (toks : List (List Char)) (h1 : b.length - pos < f1)
    (h2 : b.length - pos < f2) :
    tokenize_loop p b s f1 pos toks = tokenize_loop p b s f2 pos toks := by
  induction f1 generalizing f2 pos toks with
  | zero => omega
  | succ f1 ih =>
    cases f2 with
    | zero => omega
    | succ f2 =>
      unfold tokenize_loop
      rw [strlen_eq_length hb]
      by_cases hpos : pos < b.length
      · simp only [hpos, if_true]
        cases hbody : tokenize_body p b s pos toks with
        | none => rfl
        | some r =>
          have hprog := tokenize_body_progress p b s pos toks r hb hpos hbody
          exact ih f2 r.1 r.2 (by omega) (by omega)
      · simp only [hpos, if_false]

theorem tokenize_loop_shift (p : parser_struct) (b : List Char) (s : Bool) (hb : NUL ∉ b)
    (fuel k pos : Nat) (toks : List (List Char)) :
    tokenize_loop p b s fuel (k + pos) toks = tokenize_loop p (b.drop k) s fuel pos toks := by
  induction fuel generalizing pos toks with
  | zero => rfl
  | succ fuel ih =>
    unfold tokenize_loop
    rw [strlen_eq_length hb, strlen_eq_length (not_mem_drop hb k), tokenize_body_shift,
      List.length_drop]
    by_cases hpos : pos < b.length - k
    · have hpos2 : k + pos < b.length := by omega
      simp only [hpos, hpos2, if_true]
      cases tokenize_body p (b.drop k) s pos toks with
      | none => rfl
      | some r => exact ih r.1 r.2
    · have hpos2 : ¬ k + pos < b.length := by omega
      simp only [hpos, hpos2, if_false]

theorem tokenize_loop_acc (p : parser_struct) (b : List Char) (s : Bool) (fuel pos : Nat)
    (t0 toks : List (List Char)) :
    tokenize_loop p b s fuel pos (t0 ++ toks) =
      (tokenize_loop p b s fuel pos toks).map (fun t => t0 ++ t) := by
  induction fuel generalizing pos toks with
  | zero => rfl
  | succ fuel ih =>
    unfold tokenize_loop
    rw [tokenize_body_acc]
    split
    · cases tokenize_body p b s pos toks with
      | none => rfl
      | some r => exact ih r.1 r.2
    · rfl

/-- The tokenizer never runs out of fuel. -/
theorem parser_tokenize_buffer_fuel (p : parser_struct) (b : List Char) (s : Bool)
    (hb : NUL ∉ b) : parser_tokenize_buffer p b s ≠ Outcome.out_of_fuel := by
  have key : ∀ (fuel pos : Nat) (toks : List (List Char)), b.length - pos < fuel →
      tokenize_loop p b s fuel pos toks ≠ Outcome.out_of_fuel := by
    intro fuel
    induction fuel with
    | zero => intro pos toks h; omega
    | succ fuel ih =>
      intro pos toks h
      unfold tokenize_loop
      rw [strlen_eq_length hb]
      by_cases hpos : pos < b.length
      · simp only [hpos, if_true]
        cases hbody : tokenize_body p b s pos toks with
        | none => simp
        | some r =>
          have hprog := tokenize_body_progress p b s pos toks r hb hpos hbody
          exact ih r.1 r.2 (by omega)
      · simp [hpos]
  exact key _ _ _ (by rw [strlen_eq_length hb]; omega)

/-- Unfolding of the tokenizer: the first pass of the loop, then the tokenizer on what
is left of the buffer. -/
theorem parser_tokenize_buffer_unfold (p : parser_struct) (b : List Char) (s : Bool)
    (hb : NUL ∉ b) (hne : b ≠ []) :
    parser_tokenize_buffer p b s =
      match tokenize_body p b s 0 [] with
      | none => Outcome.abort
      | some r => (parser_tokenize_buffer p (b.drop r.1) s).map (fun t => r.2 ++ t) := by
  have hlen : 0 < b.length := List.length_pos.mpr hne
  unfold parser_tokenize_buffer
  rw [strlen_eq_length hb, tokenize_loop, strlen_eq_length hb]
  simp only [hlen, if_true]
  cases hbody : tokenize_body p b s 0 [] with
  | none => rfl
  | some r =>
    have hprog := tokenize_body_progress p b s 0 [] r hb hlen hbody
    show tokenize_loop p b s b.length r.1 r.2 = _
    have e1 := tokenize_loop_shift p b s hb b.length r.1 0 r.2
    rw [Nat.add_zero] at e1
    rw [e1]
    show _ = Outcome.map _ (tokenize_loop p (b.drop r.1) s (strlen (b.drop r.1) + 1) 0 [])
    rw [strlen_eq_length (not_mem_drop hb r.1)]
    have e2 := tokenize_loop_acc p (b.drop r.1) s b.length 0 r.2 []
    rw [List.append_nil] at e2
    rw [e2]
    show Outcome.map _ _ = Outcome.map _ _
    congr 1
    apply tokenize_loop_fuel p (b.drop r.1) s (not_mem_drop hb r.1)
    · simp; omega
    · simp

theorem parser_tokenize_buffer_nil (p : parser_struct) (s : Bool) :
    parser_tokenize_buffer p [] s = Outcome.ok [] := by
  rfl

/-! ## The stripper loop: shifting, accumulation, fuel -/

theorem strip_body_shift (p : parser_struct) (b : List Char) (k pos : Nat) (tgt : List Char) :
    strip_body p b (k + pos) tgt =
      (strip_body p (b.drop k) pos tgt).map (fun r => (k + r.1, r.2)) := by
  simp only [strip_body, List.drop_drop, charAt_drop]
  repeat' split
  all_goals simp_all [Nat.add_assoc]

theorem strip_body_acc (p : parser_struct) (b : List Char) (pos : Nat) (t0 tgt : List Char) :
    strip_body p b pos (t0 ++ tgt) =
      (strip_body p b pos tgt).map (fun r => (r.1, t0 ++ r.2)) := by
  simp only [strip_body]
  repeat' split
  all_goals simp_all [List.append_assoc]

theorem strip_body_progress (p : parser_struct) (b : List Char) (pos : Nat) (tgt : List Char)
    (r : Nat × List Char) (h : strip_body p b pos tgt = some r) : pos < r.1 := by
  simp only [strip_body] at h
  repeat' split at h
  all_goals first
    | (cases h; done)
    | (cases h; show pos < pos + _; omega)
    | (rename_i hq; cases h; have := length_of_quotation_ge hq; show pos < pos + _; omega)

theorem strip_loop_fuel (p : parser_struct) (b : List Char) (hb : NUL ∉ b)
    (f1 f2 pos : Nat) (tgt : List Char) (h1 : b.length - pos < f1)
    (h2 : b.length - pos < f2) :
    strip_loop p b f1 pos tgt = strip_loop p b f2 pos tgt := by
  induction f1 generalizing f2 pos tgt with
  | zero => omega
  | succ f1 ih =>
    cases f2 with
    | zero => omega
    | succ f2 =>
      unfold strip_loop
      rw [strlen_eq_length hb]
      by_cases hpos : pos < b.length
      · simp only [hpos, if_true]
        cases hbody : strip_body p b pos tgt with
        | none => rfl
        | some r =>
          have hprog := strip_body_progress p b pos tgt r hbody
          exact ih f2 r.1 r.2 (by omega) (by omega)
      · simp only [hpos, if_false]

theorem strip_loop_shift (p : parser_struct) (b : List Char) (hb : NUL ∉ b)
    (fuel k pos : Nat) (tgt : List Char) :
    strip_loop p b fuel (k + pos) tgt = strip_loop p (b.drop k) fuel pos tgt := by
  induction fuel generalizing pos tgt with
  | zero => rfl
  | succ fuel ih =>
    unfold strip_loop
    rw [strlen_eq_length hb, strlen_eq_length (not_mem_drop hb k), strip_body_shift,
      List.length_drop]
    by_cases hpos : pos < b.length - k
    · have hpos2 : k + pos < b.length := by omega
      simp only [hpos, hpos2, if_true]
      cases strip_body p (b.drop k) pos tgt with
      | none => rfl
      | some r => exact ih r.1 r.2
    · have hpos2 : ¬ k + pos < b.length := by omega
      simp only [hpos, hpos2, if_false]

theorem strip_loop_acc (p : parser_struct) (b : List Char) (fuel pos : Nat)
    (t0 tgt : List Char) :
    strip_loop p b fuel pos (t0 ++ tgt) =
      (strip_loop p b fuel pos tgt).map (fun t => t0 ++ t) := by
  induction fuel generalizing pos tgt with
  | zero => rfl
  | succ fuel ih =>
    unfold strip_loop
    rw [strip_body_acc]
    split
    · cases strip_body p b pos tgt with
      | none => rfl
      | some r => exact ih r.1 r.2
    · rfl

/-- The stripper never runs out of fuel. -/
theorem parser_strip_buffer_fuel (p : parser_struct) (b : List Char) (hb : NUL ∉ b) :
    parser_strip_buffer p b ≠ Outcome.out_of_fuel := by
  have key : ∀ (fuel pos : Nat) (tgt : List Char), b.length - pos < fuel →
      strip_loop p b fuel pos tgt ≠ Outcome.out_of_fuel := by
    intro fuel
    induction fuel with
    | zero => intro pos tgt h; omega
    | succ fuel ih =>
      intro pos tgt h
      unfold strip_loop
      rw [strlen_eq_length hb]
      by_cases hpos : pos < b.length
      · simp only [hpos, if_true]
        cases hbody : strip_body p b pos tgt with
        | none => simp
        | some r =>
          have hprog := strip_body_progress p b pos tgt r hbody
          exact ih r.1 r.2 (by omega)
      · simp [hpos]
  exact key _ _ _ (by rw [strlen_eq_length hb]; omega)

/-- Unfolding of the stripper: the first pass of the loop, then the stripper on what is
left of the buffer. -/
theorem parser_strip_buffer_unfold (p : parser_struct) (b : List Char) (hb : NUL ∉ b)
    (hne : b ≠ []) :
    parser_strip_buffer p b =
      match strip_body p b 0 [] with
      | none => Outcome.abort
      | some r => (parser_strip_buffer p (b.drop r.1)).map (fun t => r.2 ++ t) := by
  have hlen : 0 < b.length := List.length_pos.mpr hne
  unfold parser_strip_buffer
  rw [strlen_eq_length hb, strip_loop, strlen_eq_length hb]
  simp only [hlen, if_true]
  cases hbody : strip_body p b 0 [] with
  | none => rfl
  | some r =>
    have hprog := strip_body_progress p b 0 [] r hbody
    show strip_loop p b b.length r.1 r.2 = _
    have e1 := strip_loop_shift p b hb b.length r.1 0 r.2
    rw [Nat.add_zero] at e1
    rw [e1]
    show _ = Outcome.map _ (strip_loop p (b.drop r.1) (strlen (b.drop r.1) + 1) 0 [])
    rw [strlen_eq_length (not_mem_drop hb r.1)]
    have e2 := strip_loop_acc p (b.drop r.1) b.length 0 r.2 []
    rw [List.append_nil] at e2
    rw [e2]
    show Outcome.map _ _ = Outcome.map _ _
    congr 1
    apply strip_loop_fuel p (b.drop r.1) (not_mem_drop hb r.1)
    · simp; omega
    · simp

theorem parser_strip_buffer_nil (p : parser_struct) : parser_strip_buffer p [] = Outcome.ok [] := by
  rfl

/-! ## C1 : a single splitter character -/

theorem parser_alloc_single_splitter {c : Char} {cfg : parser_struct}
    (h : parser_alloc (some [c]) none none none none none = some cfg) :
    c ≠ NUL ∧ cfg = single_splitter_config c := by
  by_cases hc : c = NUL
  · subst hc
    simp [parser_alloc, strlen, cstr] at h
  · refine ⟨hc, ?_⟩
    simp [parser_alloc, strlen, cstr, hc] at h
    rw [← h]
    rfl

theorem split_discard_empty_nil (c : Char) : split_discard_empty c [] = [] := by
  simp [split_discard_empty, List.splitOn, List.splitOnP_nil]

theorem split_discard_empty_cons_self (c : Char) (xs : List Char) :
    split_discard_empty c (c :: xs) = split_discard_empty c xs := by
  simp [split_discard_empty, List.splitOn, List.splitOnP_cons]

theorem split_discard_empty_run (c : Char) (w rest : List Char) (hw : c ∉ w) (hne : w ≠ [])
    (hrest : rest = [] ∨ ∃ as, rest = c :: as) :
    split_discard_empty c (w ++ rest) = w :: split_discard_empty c rest := by
  have hp : ∀ x ∈ w, ¬ ((fun y => y == c) x = true) := by
    intro x hx e
    simp at e
    exact hw (e ▸ hx)
  rcases hrest with rfl | ⟨as, rfl⟩
  · rw [List.append_nil, split_discard_empty_nil]
    simp [split_discard_empty, List.splitOn, List.splitOnP_eq_single _ _ hp, hne]
  · rw [split_discard_empty_cons_self]
    simp [split_discard_empty, List.splitOn, List.splitOnP_first _ _ hp c (by simp) as, hne]

theorem split_discard_empty_strspn (c : Char) (hc : c ≠ NUL) (b : List Char) :
    split_discard_empty c (b.drop (strspn b [c])) = split_discard_empty c b := by
  induction b with
  | nil => rfl
  | cons x xs ih =>
    by_cases hx : x = c
    · subst hx
      simp [strspn, cstr, hc, ih, split_discard_empty_cons_self]
    · have hx2 : ¬ (x ≠ NUL ∧ x ∈ cstr [c]) := by
        simp [cstr, hc, hx]
      rw [strspn, if_neg hx2]
      rfl

theorem single_splitter_normal_run (c : Char) (hc : c ≠ NUL) (xs : List Char) (x : Char)
    (n : Nat) (hx : x ≠ c) (hx0 : x ≠ NUL) (hxs : NUL ∉ xs) :
    ∃ w rest, x :: xs = w ++ rest ∧
      n + w.length = length_of_normal_non_splitters_loop (single_splitter_config c) (x :: xs) n ∧
      w ≠ [] ∧ c ∉ w ∧ (rest = [] ∨ ∃ as, rest = c :: as) := by
  induction xs generalizing x n with
  | nil =>
    refine ⟨[x], [], rfl, ?_, by simp, by simpa using Ne.symm hx, Or.inl rfl⟩
    simp [length_of_normal_non_splitters_loop, hx0, is_splitters, single_splitter_config,
      in_set, strchr_found, charAt]
  | cons d ds ih =>
    have hd0 : d ≠ NUL := fun e => hxs (by simp [e])
    have hds : NUL ∉ ds := fun e => hxs (by simp [e])
    by_cases hd : d = c
    · subst hd
      refine ⟨[x], d :: ds, rfl, ?_, by simp, by simpa using Ne.symm hx, Or.inr ⟨ds, rfl⟩⟩
      simp [length_of_normal_non_splitters_loop, hx0, is_splitters, single_splitter_config,
        in_set, strchr_found, charAt, cstr, hc]
    · obtain ⟨w, rest, e, hl, hne, hcw, hr⟩ := ih d (n + 1) hd hd0 hds
      refine ⟨x :: w, rest, by rw [e]; rfl, ?_, by simp, ?_, hr⟩
      · rw [length_of_normal_non_splitters_loop]
        simp only [hx0, if_false]
        have h1 : is_splitters (charAt (d :: ds) 0) (single_splitter_config c) = false := by
          simp [is_splitters, single_splitter_config, in_set, strchr_found, charAt, cstr, hc,
            hd, hd0]
        have h2 : is_special (charAt (d :: ds) 0) (single_splitter_config c) = false := rfl
        have h3 : is_in_quoters (charAt (d :: ds) 0) (single_splitter_config c) = false := rfl
        have h4 : length_of_comment (d :: ds) (single_splitter_config c) = 0 := rfl
        simp only [h1, h2, h3, h4]
        simp only [List.length_cons] at hl ⊢
        rw [← hl]
        simp
        omega
      · simp [hcw, Ne.symm hx]

/-- C1: for a configuration made of the single splitter character `c` and nothing else,
the tokens of a buffer are its fields between the occurrences of `c`, the empty fields
left out, whatever `strip_quote_marks` is. -/
theorem tokenize_single_splitter_eq_split (c : Char) (cfg : parser_struct)
    (buffer : List Char) (strip_quote_marks : Bool)
    (hcfg : parser_alloc (some [c]) none none none none none = some cfg) (hb : NUL ∉ buffer) :
    parser_tokenize_buffer cfg buffer strip_quote_marks =
      Outcome.ok (split_discard_empty c buffer) := by
  rename' strip_quote_marks => s, buffer => b
  obtain ⟨hc, rfl⟩ := parser_alloc_single_splitter hcfg
  generalize hn : b.length = n
  induction n using Nat.strong_induction_on generalizing b with
  | _ n ih =>
    cases b with
    | nil => rfl
    | cons x xs =>
      have hx0 : x ≠ NUL := fun e => hb (by simp [e])
      have hxs : NUL ∉ xs := fun e => hb (by simp [e])
      rw [parser_tokenize_buffer_unfold _ _ _ hb (by simp)]
      by_cases hx : x = c
      · subst hx
        have hk : 0 < strspn (x :: xs) [x] := by simp [strspn, cstr, hc]
        have hbody : tokenize_body (single_splitter_config x) (x :: xs) s 0 [] =
            some (strspn (x :: xs) [x], []) := by
          simp [tokenize_body, length_of_initial_splitters, single_splitter_config, hk]
        rw [hbody]
        simp only
        rw [ih _ (by subst hn; simp; omega) _ (not_mem_drop hb _) rfl,
          split_discard_empty_strspn x hc]
        rfl
      · obtain ⟨w, rest, e, hl, hne, hcw, hr⟩ := single_splitter_normal_run c hc xs x 0 hx hx0 hxs
        have hk : strspn (x :: xs) [c] = 0 := by
          simp [strspn, cstr, hc, hx]
        have hw : 0 < w.length := List.length_pos.mpr hne
        have hbody : tokenize_body (single_splitter_config c) (x :: xs) s 0 [] =
            some (w.length, [w]) := by
          have h1 : length_of_initial_splitters (x :: xs) (single_splitter_config c) = 0 := hk
          have h2 : length_of_comment (x :: xs) (single_splitter_config c) = 0 := rfl
          have h3 : length_of_delete (x :: xs) (single_splitter_config c) = 0 := rfl
          have h4 : is_special (charAt (x :: xs) 0) (single_splitter_config c) = false := rfl
          have h5 : is_in_quoters (charAt (x :: xs) 0) (single_splitter_config c) = false := rfl
          have h6 : length_of_normal_non_splitters (x :: xs) (single_splitter_config c) =
              w.length := by
            rw [length_of_normal_non_splitters, ← hl]; simp
          have h7 : normal_token (x :: xs) w.length (single_splitter_config c) = w := by
            simp [normal_token, single_splitter_config, e]
          simp [tokenize_body, h1, h2, h3, h4, h5, h6, h7, hw]
        rw [hbody]
        simp only
        have hdrop : (x :: xs).drop w.length = rest := by simp [e]
        have hrest0 : NUL ∉ rest := by rw [← hdrop]; exact not_mem_drop hb _
        rw [hdrop, ih rest.length (by subst hn; rw [e]; simp; omega) rest hrest0 rfl, e,
          split_discard_empty_run c w rest hcw hne hr]
        rfl

theorem tokenize_single_splitter_eq_split_witness :
    parser_tokenize_buffer (single_splitter_config ' ') "  ab  c d ".toList true =
      Outcome.ok ["ab".toList, "c".toList, "d".toList] :=
  tokenize_single_splitter_eq_split ' ' (single_splitter_config ' ') "  ab  c d ".toList true
    (by decide) (by decide)

/-! ## C3 : the closing rule of a quotation -/

theorem length_of_quotation_loop_spec (target : Char) (rest : List Char)
    (hrest : NUL ∉ rest) (length : Nat) (escaped : Bool) :
    (∃ k, k < rest.length ∧ loop_closes target rest escaped k ∧
        (∀ j, j < k → ¬ loop_closes target rest escaped j) ∧
        length_of_quotation_loop target rest length escaped = (length + k, target)) ∨
      ((∀ j, j < rest.length → ¬ loop_closes target rest escaped j) ∧
        length_of_quotation_loop target rest length escaped = (length + rest.length, NUL)) := by
  induction rest generalizing length escaped with
  | nil =>
    right
    exact ⟨fun j hj => absurd hj (Nat.not_lt_zero _), rfl⟩
  | cons c cs ih =>
    have hc : c ≠ NUL := fun e => hrest (by simp [e])
    have hcs : NUL ∉ cs := fun e => hrest (by simp [e])
    by_cases h0 : c = target ∧ escaped = false
    · left
      refine ⟨0, by simp, ⟨by simpa [charAt] using h0.1, fun _ => h0.2, fun h => absurd h (Nat.lt_irrefl 0)⟩,
        fun j hj => absurd hj (Nat.not_lt_zero _), ?_⟩
      simp [length_of_quotation_loop, h0]
    · have hstep : length_of_quotation_loop target (c :: cs) length escaped =
          length_of_quotation_loop target cs (length + 1) (is_escape c) := by
        rw [length_of_quotation_loop]
        simp only [ne_eq, hc, not_false_eq_true, h0, and_self, if_true]
      have hshift : ∀ j, loop_closes target (c :: cs) escaped (j + 1) ↔
          loop_closes target cs (is_escape c) j := by
        intro j
        unfold loop_closes
        cases j with
        | zero => simp [charAt, is_escape]
        | succ j => simp [charAt]
      have hzero : ¬ loop_closes target (c :: cs) escaped 0 := by
        intro h
        exact h0 ⟨by simpa [charAt] using h.1, h.2.1 rfl⟩
      rcases ih hcs (length + 1) (is_escape c) with ⟨k, hk, hcl, hmin, hres⟩ | ⟨hno, hres⟩
      · left
        refine ⟨k + 1, by simp; omega, (hshift k).mpr hcl, ?_, ?_⟩
        · intro j hj
          cases j with
          | zero => exact hzero
          | succ j => exact fun h => hmin j (by omega) ((hshift j).mp h)
        · rw [hstep, hres]
          congr 1
          omega
      · right
        refine ⟨?_, ?_⟩
        · intro j hj
          cases j with
          | zero => exact hzero
          | succ j => exact fun h => hno j (by simpa using hj) ((hshift j).mp h)
        · rw [hstep, hres]
          congr 1
          simp
          omega

theorem loop_closes_iff (q : Char) (rest : List Char) (k : Nat)
    (hq : q ≠ PARSER_ESCAPE_CHAR) :
    loop_closes q rest false k ↔ closes_quotation (q :: rest) (k + 1) := by
  unfold loop_closes closes_quotation
  cases k with
  | zero => simp [charAt, hq]
  | succ k => simp [charAt]

/-- The result of `length_of_quotation` on a buffer opened by `q`: either the first
closing position, or the abort of an unterminated quotation. -/
theorem length_of_quotation_spec (q : Char) (rest : List Char) (hq0 : q ≠ NUL)
    (hrest : NUL ∉ rest) :
    (∃ k, k < rest.length ∧ loop_closes q rest false k ∧
        (∀ j, j < k → ¬ loop_closes q rest false j) ∧
        length_of_quotation (q :: rest) = some (k + 2)) ∨
      ((∀ j, j < rest.length → ¬ loop_closes q rest false j) ∧
        length_of_quotation (q :: rest) = none) := by
  rcases length_of_quotation_loop_spec q rest hrest 1 false with
    ⟨k, hk, hcl, hmin, hres⟩ | ⟨hno, hres⟩
  · left
    refine ⟨k, hk, hcl, hmin, ?_⟩
    have hres2 : length_of_quotation_loop q rest 1 false = (1 + k, q) := hres
    simp only [length_of_quotation, charAt, List.getD_cons_zero, List.drop_one, List.tail_cons,
      hres2, hq0, if_false]
    congr 1
    omega
  · right
    refine ⟨hno, ?_⟩
    have hres2 : length_of_quotation_loop q rest 1 false = (1 + rest.length, NUL) := hres
    simp only [length_of_quotation, charAt, List.getD_cons_zero, List.drop_one, List.tail_cons,
      hres2, if_true]

/-- C3: a buffer opened by a quote character `q` other than the escape character has the
quotation length `i + 1`, `i` being the least index from 1 on that holds `q` behind a
character that is not the escape character.  Only that one character is looked at: in
`"a\\"b"` the middle quote is behind two escape characters and does not close, the
length is 7. -/
theorem length_of_quotation_lookback :
    (∀ (buffer : List Char) (i : Nat), NUL ∉ buffer → buffer ≠ [] →
      charAt buffer 0 ≠ PARSER_ESCAPE_CHAR → closes_quotation buffer i →
      (∀ j, j < i → ¬ closes_quotation buffer j) →
      length_of_quotation buffer = some (i + 1)) ∧
    length_of_quotation
      ['"', 'a', PARSER_ESCAPE_CHAR, PARSER_ESCAPE_CHAR, '"', 'b', '"'] = some 7 := by
  refine ⟨?_, by decide⟩
  intro b i hb hne hq hi hmin
  cases b with
  | nil => exact absurd rfl hne
  | cons q rest =>
    have hq0 : q ≠ NUL := fun e => hb (by simp [e])
    have hrest : NUL ∉ rest := fun e => hb (by simp [e])
    have hq1 : q ≠ PARSER_ESCAPE_CHAR := hq
    obtain ⟨i, rfl⟩ : ∃ k, i = k + 1 := ⟨i - 1, by have := hi.1; omega⟩
    have hcl : loop_closes q rest false i := (loop_closes_iff q rest i hq1).mpr hi
    have hlt : i < rest.length := by
      by_contra hge
      have : charAt rest i = NUL := by
        simp [charAt, List.getElem?_eq_none (Nat.le_of_not_lt hge)]
      exact hq0 (hcl.1 ▸ this)
    rcases length_of_quotation_spec q rest hq0 hrest with ⟨k, hk, hclk, hmink, hres⟩ | ⟨hno, _⟩
    · have hki : k = i := by
        rcases Nat.lt_trichotomy k i with h | h | h
        · exact absurd ((loop_closes_iff q rest k hq1).mp hclk) (hmin (k + 1) (by omega))
        · exact h
        · exact absurd hcl (hmink i h)
      subst hki
      exact hres
    · exact absurd hcl (hno i hlt)

theorem length_of_quotation_lookback_witness :
    closes_quotation ['"', 'a', PARSER_ESCAPE_CHAR, PARSER_ESCAPE_CHAR, '"', 'b', '"', 'c'] 6 ∧
    length_of_quotation
      ['"', 'a', PARSER_ESCAPE_CHAR, PARSER_ESCAPE_CHAR, '"', 'b', '"', 'c'] = some (6 + 1) :=
  ⟨by decide,
    length_of_quotation_lookback.1
      ['"', 'a', PARSER_ESCAPE_CHAR, PARSER_ESCAPE_CHAR, '"', 'b', '"', 'c'] 6
      (by decide) (by decide) (by decide) (by decide) (by decide)⟩

/-! ## The passes of the two loops at the head of a buffer -/

theorem length_of_initial_splitters_cons (cfg : parser_struct) (c : Char) (cs : List Char)
    (h : is_splitters c cfg = false) : length_of_initial_splitters (c :: cs) cfg = 0 := by
  unfold length_of_initial_splitters
  unfold is_splitters in_set at h
  cases hs : cfg.splitters with
  | none => rfl
  | some sp =>
    rw [hs] at h
    simp only [strchr_found, Bool.or_eq_false_iff, decide_eq_false_iff_not] at h
    simp [strspn, h.2]

theorem length_of_delete_cons (cfg : parser_struct) (c : Char) (cs : List Char)
    (h : is_in_delete_set c cfg = false) : length_of_delete (c :: cs) cfg = 0 := by
  simp [length_of_delete, length_of_delete_loop, h]

/-- The pass of the tokenizer over a quotation at the head of the buffer. -/
theorem tokenize_quote (cfg : parser_struct) (q : Char) (xs : List Char) (s : Bool)
    (hb : NUL ∉ q :: xs) (hsp : is_splitters q cfg = false)
    (hcm : length_of_comment (q :: xs) cfg = 0) (hdel : is_in_delete_set q cfg = false)
    (hspc : is_special q cfg = false) (hqu : is_in_quoters q cfg = true) :
    parser_tokenize_buffer cfg (q :: xs) s =
      match length_of_quotation (q :: xs) with
      | none => Outcome.abort
      | some n =>
        (parser_tokenize_buffer cfg ((q :: xs).drop n) s).map
          (fun t => alloc_quoted_token (q :: xs) n s :: t) := by
  rw [parser_tokenize_buffer_unfold cfg _ s hb (by simp)]
  simp only [tokenize_body, List.drop_zero, length_of_initial_splitters_cons cfg q xs hsp, hcm,
    length_of_delete_cons cfg q xs hdel, charAt_cons_zero, hspc, hqu, gt_iff_lt,
    Nat.lt_irrefl, if_false, if_true, Nat.zero_add, List.nil_append, Bool.false_eq_true]
  cases length_of_quotation (q :: xs) <;> rfl

/-- The pass of the stripper over a quotation at the head of the buffer. -/
theorem strip_quote (cfg : parser_struct) (q : Char) (xs : List Char)
    (hb : NUL ∉ q :: xs) (hcm : length_of_comment (q :: xs) cfg = 0)
    (hdel : is_in_delete_set q cfg = false) (hqu : is_in_quoters q cfg = true) :
    parser_strip_buffer cfg (q :: xs) =
      match length_of_quotation (q :: xs) with
      | none => Outcome.abort
      | some n =>
        (parser_strip_buffer cfg ((q :: xs).drop n)).map (fun t => (q :: xs).take n ++ t) := by
  rw [parser_strip_buffer_unfold cfg _ hb (by simp)]
  simp only [strip_body, List.drop_zero, hcm, length_of_delete_cons cfg q xs hdel,
    charAt_cons_zero, hqu, gt_iff_lt, Nat.lt_irrefl, if_false, if_true, Nat.zero_add,
    List.nil_append]
  cases length_of_quotation (q :: xs) <;> rfl

theorem length_of_quotation_loop_append (target : Char) (xs ys : List Char) (length : Nat)
    (escaped : Bool) (L : Nat) (cur : Char) (hcur : cur ≠ NUL)
    (h : length_of_quotation_loop target xs length escaped = (L, cur)) :
    length_of_quotation_loop target (xs ++ ys) length escaped = (L, cur) := by
  induction xs generalizing length escaped with
  | nil =>
    simp [length_of_quotation_loop] at h
    exact absurd h.2.symm hcur
  | cons c cs ih =>
    rw [List.cons_append, length_of_quotation_loop]
    rw [length_of_quotation_loop] at h
    split
    · rename_i hc
      rw [if_pos hc] at h
      exact ih _ _ h
    · rename_i hc
      rw [if_neg hc] at h
      exact h

/-- A quotation closed inside `s` has the same length in every buffer that `s` begins. -/
theorem length_of_quotation_append (s tail : List Char) (n : Nat) (hne : s ≠ [])
    (h : length_of_quotation s = some n) : length_of_quotation (s ++ tail) = some n := by
  cases s with
  | nil => exact absurd rfl hne
  | cons q xs =>
    simp only [length_of_quotation, charAt, List.getD_cons_zero, List.drop_one, List.tail_cons,
      List.cons_append] at h ⊢
    split at h
    · cases h
    · rename_i hcur
      have := length_of_quotation_loop_append q xs tail 1 false _ _ hcur rfl
      rw [this, if_neg hcur]
      exact h

/-! ## C4 : the token of a quotation -/

theorem replace_escaped_quote (q : Char) (inner : List Char) :
    util_string_replace_inplace [PARSER_ESCAPE_CHAR, q] [q] inner 0 = unescape_quote q inner := by
  generalize h : inner.length = n
  induction n using Nat.strong_induction_on generalizing inner with
  | _ n ih =>
    match inner, h with
    | [], _ => rfl
    | [c], _ =>
      simp [util_string_replace_inplace, unescape_quote, List.isPrefixOf]
    | c :: d :: rest, h =>
      by_cases hcd : c = PARSER_ESCAPE_CHAR ∧ d = q
      · obtain ⟨rfl, rfl⟩ := hcd
        have := ih rest.length (by subst h; simp; omega) rest rfl
        simp [util_string_replace_inplace, unescape_quote, List.isPrefixOf, this]
      · have := ih (d :: rest).length (by subst h; simp) (d :: rest) rfl
        have hcd2 : ¬ (PARSER_ESCAPE_CHAR = c ∧ q = d) := fun e => hcd ⟨e.1.symm, e.2.symm⟩
        rw [util_string_replace_inplace, unescape_quote, if_neg hcd, this]
        simp [List.isPrefixOf, hcd2]

theorem alloc_quoted_token_span (q : Char) (inner tail : List Char) (s : Bool) :
    alloc_quoted_token (q :: inner ++ q :: tail) (inner.length + 2) s =
      if s then unescape_quote q inner else q :: inner ++ [q] := by
  cases s with
  | false =>
    simp [alloc_quoted_token, List.take_append_eq_append_take]
  | true =>
    simp [alloc_quoted_token, charAt, replace_escaped_quote, List.take_append_eq_append_take]

/-- C4: a terminated quoted span `q inner q` that the tokenizer meets in its quotation
branch gives one token, then the tokens of the tail.  The token is the span itself when
`strip_quote_marks` is false; when it is true, the token is `inner` with every escaped
quote character replaced by the bare quote character. -/
theorem quoted_span_token (cfg : parser_struct) (q : Char) (inner tail : List Char)
    (strip_quote_marks : Bool) (hb : NUL ∉ q :: inner ++ q :: tail)
    (hsp : is_splitters q cfg = false)
    (hcm : length_of_comment (q :: inner ++ q :: tail) cfg = 0)
    (hdel : is_in_delete_set q cfg = false) (hspc : is_special q cfg = false)
    (hqu : is_in_quoters q cfg = true)
    (hspan : length_of_quotation (q :: inner ++ [q]) = some (inner.length + 2)) :
    parser_tokenize_buffer cfg (q :: inner ++ q :: tail) strip_quote_marks =
      (parser_tokenize_buffer cfg tail strip_quote_marks).map
        (fun t => (if strip_quote_marks then unescape_quote q inner else q :: inner ++ [q]) :: t) := by
  have hlen : length_of_quotation (q :: inner ++ q :: tail) = some (inner.length + 2) := by
    have := length_of_quotation_append (q :: inner ++ [q]) tail _ (by simp) hspan
    simpa using this
  have hdrop : (q :: inner ++ q :: tail).drop (inner.length + 2) = tail := by
    have : q :: inner ++ q :: tail = (q :: inner ++ [q]) ++ tail := by simp
    rw [this, List.drop_left' (by simp)]
  have htok := tokenize_quote cfg q (inner ++ q :: tail) strip_quote_marks hb hsp hcm hdel hspc hqu
  rw [List.cons_append] at hlen hdrop
  rw [List.cons_append, htok, hlen]
  simp only
  rw [hdrop, ← List.cons_append, alloc_quoted_token_span]

theorem quoted_span_token_witness :
    parser_tokenize_buffer sole_quoter_config ['"', 'a', PARSER_ESCAPE_CHAR, '"', 'b', '"'] true =
        Outcome.ok [['a', '"', 'b']] ∧
      parser_tokenize_buffer sole_quoter_config ['"', 'a', PARSER_ESCAPE_CHAR, '"', 'b', '"'] false =
        Outcome.ok [['"', 'a', PARSER_ESCAPE_CHAR, '"', 'b', '"']] :=
  ⟨quoted_span_token sole_quoter_config '"' ['a', PARSER_ESCAPE_CHAR, '"', 'b'] [] true
      (by decide) (by decide) (by decide) (by decide) (by decide) (by decide) (by decide),
    quoted_span_token sole_quoter_config '"' ['a', PARSER_ESCAPE_CHAR, '"', 'b'] [] false
      (by decide) (by decide) (by decide) (by decide) (by decide) (by decide) (by decide)⟩

/-! ## C2 : empty tokens -/

theorem length_of_quotation_loop_lt (target : Char) (rest : List Char) (length : Nat)
    (escaped : Bool) (L : Nat) (cur : Char) (hcur : cur ≠ NUL)
    (h : length_of_quotation_loop target rest length escaped = (L, cur)) :
    L < length + rest.length := by
  induction rest generalizing length escaped with
  | nil =>
    simp [length_of_quotation_loop] at h
    exact absurd h.2.symm hcur
  | cons c cs ih =>
    rw [length_of_quotation_loop] at h
    split at h
    · have := ih _ _ h
      simp
      omega
    · cases h
      simp

theorem length_of_quotation_le {b : List Char} {n : Nat} (h : length_of_quotation b = some n) :
    n ≤ b.length := by
  simp only [length_of_quotation] at h
  split at h
  · cases h
  · rename_i hcur
    cases h
    have := length_of_quotation_loop_lt (charAt b 0) (b.drop 1) 1 false _ _ hcur rfl
    simp only [List.length_drop] at this
    have hge := length_of_quotation_loop_ge (charAt b 0) (b.drop 1) 1 false
    omega

theorem length_of_quotation_two {b : List Char} (h : length_of_quotation b = some 2) :
    charAt b 1 = charAt b 0 := by
  cases b with
  | nil => simp [length_of_quotation, length_of_quotation_loop, charAt] at h
  | cons q rest =>
    cases rest with
    | nil => simp [length_of_quotation, length_of_quotation_loop, charAt] at h
    | cons c cs =>
      simp only [length_of_quotation, charAt, List.getD_cons_zero, List.drop_one, List.tail_cons,
        length_of_quotation_loop] at h
      split at h
      · have := length_of_quotation_loop_ge q cs (1 + 1) (is_escape c)
        split at h
        · cases h
        · have := Option.some.inj h
          omega
      · rename_i hc
        simp only at h
        split at h
        · cases h
        · rename_i hc0
          have : c = q := by
            by_contra hne
            exact hc ⟨hc0, fun e => hne e.1⟩
          simp [charAt, this]

theorem replace_ne_nil (expr subs l : List Char) (hs : subs ≠ []) (hl : l ≠ []) :
    util_string_replace_inplace expr subs l 0 ≠ [] := by
  cases l with
  | nil => exact absurd rfl hl
  | cons c cs =>
    rw [util_string_replace_inplace]
    split
    · simp [hs]
    · simp

theorem tokenize_body_nonempty (cfg : parser_struct) (b : List Char) (s : Bool)
    (r : Nat × List (List Char))
    (hq : s = false ∨ (1 < b.length → is_in_quoters (charAt b 0) cfg = true →
      charAt b 1 ≠ charAt b 0))
    (h : tokenize_body cfg b s 0 [] = some r) : [] ∉ r.2 := by
  simp only [tokenize_body, List.drop_zero, Nat.zero_add, List.nil_append] at h
  split at h
  · cases h; simp
  split at h
  · cases h; simp
  split at h
  · cases h; simp
  split at h
  · cases h; simp
  split at h
  · rename_i hqu
    split at h
    · cases h
    · rename_i n hn
      cases h
      have h2 := length_of_quotation_ge hn
      have hle := length_of_quotation_le hn
      simp only [List.mem_singleton]
      intro e
      cases s with
      | false =>
        simp only [alloc_quoted_token, Bool.not_false, if_true] at e
        have := congrArg List.length e
        simp at this
        omega
      | true =>
        have hadj := hq.resolve_left (by simp) (by omega) hqu
        have hn3 : 3 ≤ n := by
          by_contra hlt
          have : n = 2 := by omega
          subst this
          exact hadj (length_of_quotation_two hn)
        simp only [alloc_quoted_token, Bool.not_true, Bool.false_eq_true, if_false] at e
        refine replace_ne_nil _ _ _ (by simp) ?_ e.symm
        intro e2
        have := congrArg List.length e2
        simp at this
        omega
  · split at h
    · rename_i hlen
      cases h
      simp only [List.mem_singleton]
      intro e
      rw [← e] at hlen
      simp at hlen
    · cases h; simp

theorem Outcome.map_eq_ok {α β : Type} {f : α → β} {o : Outcome α} {y : β}
    (h : o.map f = Outcome.ok y) : ∃ x, o = Outcome.ok x ∧ y = f x := by
  cases o with
  | ok a => exact ⟨a, rfl, by simpa [Outcome.map] using h.symm⟩
  | abort => cases h
  | out_of_fuel => cases h

theorem no_empty_quotation_drop (cfg : parser_struct) (b : List Char) (k : Nat)
    (h : no_empty_quotation cfg b) : no_empty_quotation cfg (b.drop k) := by
  intro i hi hqu
  rw [charAt_drop] at hqu ⊢
  rw [charAt_drop]
  simp at hi
  exact h (k + i) (by omega) hqu

/-- Where the tokenizer keeps to its comment `We do not insert empty tokens`: no returned
token is empty when `strip_quote_marks` is false, and none is empty either when no quoter
character of the buffer is directly followed by the same character. -/
theorem no_empty_token (cfg : parser_struct) (strip_quote_marks : Bool) (buffer : List Char)
    (tokens : List (List Char)) (hb : NUL ∉ buffer)
    (hq : strip_quote_marks = false ∨ no_empty_quotation cfg buffer)
    (h : parser_tokenize_buffer cfg buffer strip_quote_marks = Outcome.ok tokens) :
    [] ∉ tokens := by
  rename' strip_quote_marks => s, buffer => b
  generalize hn : b.length = n
  induction n using Nat.strong_induction_on generalizing b tokens with
  | _ n ih =>
    by_cases hne : b = []
    · subst hne
      rw [parser_tokenize_buffer_nil] at h
      cases h
      simp
    · rw [parser_tokenize_buffer_unfold cfg b s hb hne] at h
      cases hbody : tokenize_body cfg b s 0 [] with
      | none =>
        rw [hbody] at h
        cases h
      | some r =>
        rw [hbody] at h
        obtain ⟨t, ht, rfl⟩ := Outcome.map_eq_ok h
        have hprog := tokenize_body_progress cfg b s 0 [] r hb (List.length_pos.mpr hne) hbody
        have hlen : 0 < b.length := List.length_pos.mpr hne
        have h1 : [] ∉ r.2 := by
          refine tokenize_body_nonempty cfg b s r ?_ hbody
          rcases hq with hq | hq
          · exact Or.inl hq
          · exact Or.inr (fun h1 h2 => hq 0 (by omega) h2)
        have h2 : [] ∉ t := by
          refine ih (b.drop r.1).length (by subst hn; simp; omega) (b.drop r.1) t
            (not_mem_drop hb _) ?_ ht rfl
          rcases hq with hq | hq
          · exact Or.inl hq
          · exact Or.inr (no_empty_quotation_drop cfg b r.1 hq)
        simp only [List.mem_append, not_or]
        exact ⟨h1, h2⟩

theorem no_empty_token_witness :
    parser_tokenize_buffer sole_quoter_config ['"', '"', 'a'] false = Outcome.ok [['"', '"'], ['a']] ∧
      [] ∉ [['"', '"'], ['a']] :=
  ⟨by decide,
    no_empty_token sole_quoter_config false ['"', '"', 'a'] [['"', '"'], ['a']] (by decide)
      (Or.inl rfl) (by decide)⟩

/-- C2 at the input the code gets wrong: the guard `token_length > 0`, with the comment
`We do not insert empty tokens`, is in the branch of the normal runs only.  With the double
quote as the sole quoter, the buffer `""` read with `strip_quote_marks` gives one token,
the empty string; in the configuration of the spec's example `a "" b` gives the tokens
`a`, the empty string and `b`.  Without `strip_quote_marks` the token is `""`. -/
theorem empty_quotation_gives_empty_token :
    parser_alloc none (some ['"']) none none none none = some sole_quoter_config ∧
      parser_tokenize_buffer sole_quoter_config ['"', '"'] true = Outcome.ok [[]] ∧
      [] ∈ [([] : List Char)] ∧
      parser_tokenize_buffer sole_quoter_config ['"', '"'] false = Outcome.ok [['"', '"']] ∧
      parser_tokenize_buffer spec_config ['a', ' ', '"', '"', ' ', 'b'] true =
        Outcome.ok [['a'], [], ['b']] ∧
      parser_tokenize_buffer spec_config ['a', ' ', '"', '"', ' ', 'b'] false =
        Outcome.ok [['a'], ['"', '"'], ['b']] := by
  decide

/-! ## C5 : construction of a configuration -/

/-- C5 at the input the code gets wrong: an empty `delete_set` is accepted, although
an empty string is refused for each of the other five arguments. -/
theorem parser_alloc_empty_delete_set :
    parser_alloc none none none (some []) none none =
        some { splitters := none, specials := none, delete_set := some [], quoters := none,
               comment_start := none, comment_end := none } ∧
      parser_alloc (some []) none none none none none = none ∧
      parser_alloc none (some []) none none none none = none ∧
      parser_alloc none none (some []) none none none = none ∧
      parser_alloc none none none none (some []) (some ['x']) = none ∧
      parser_alloc none none none none (some ['x']) (some []) = none := by
  decide

/-- The configurations `parser_alloc` accepts: the five checked arguments are not empty
when given and the comment delimiters come together; `delete_set` is not looked at. -/
theorem parser_alloc_isSome_iff (splitters quoters specials delete_set comment_start
    comment_end : Option (List Char)) :
    (parser_alloc splitters quoters specials delete_set comment_start comment_end).isSome ↔
      ((∀ s, splitters = some s → strlen s ≠ 0) ∧ (∀ s, quoters = some s → strlen s ≠ 0) ∧
        (∀ s, specials = some s → strlen s ≠ 0) ∧
        (∀ s, comment_start = some s → strlen s ≠ 0) ∧
        (∀ s, comment_end = some s → strlen s ≠ 0) ∧
        (comment_start.isSome ↔ comment_end.isSome)) := by
  unfold parser_alloc
  cases splitters <;> cases quoters <;> cases specials <;> cases comment_start <;>
    cases comment_end <;> simp <;> (repeat' split) <;> simp_all

/-! ## C9 : unterminated quotations -/

theorem length_of_quotation_none_of_not_closes (q : Char) (body : List Char)
    (hb : NUL ∉ q :: body) (hq : q ≠ PARSER_ESCAPE_CHAR)
    (hno : ∀ i, ¬ closes_quotation (q :: body) i) : length_of_quotation (q :: body) = none := by
  have hq0 : q ≠ NUL := fun e => hb (by simp [e])
  have hbody : NUL ∉ body := fun e => hb (by simp [e])
  rcases length_of_quotation_spec q body hq0 hbody with ⟨k, _, hcl, _, _⟩ | ⟨_, hres⟩
  · exact absurd ((loop_closes_iff q body k hq).mp hcl) (hno (k + 1))
  · exact hres

/-- C9, as the code has it: a buffer opened by a quoter `q` other than the escape
character, which reaches the quotation branch and in which no later `q` stands behind a
character that is not the escape character, makes `parser_tokenize_buffer` abort for both
values of `strip_quote_marks` and makes `parser_strip_buffer` abort. -/
theorem unterminated_quotation_aborts (cfg : parser_struct) (q : Char) (body : List Char)
    (hb : NUL ∉ q :: body) (hq : q ≠ PARSER_ESCAPE_CHAR)
    (hqu : is_in_quoters q cfg = true) (hsp : is_splitters q cfg = false)
    (hspc : is_special q cfg = false) (hdel : is_in_delete_set q cfg = false)
    (hcm : length_of_comment (q :: body) cfg = 0)
    (hno : ∀ i, ¬ closes_quotation (q :: body) i) :
    (∀ strip_quote_marks, parser_tokenize_buffer cfg (q :: body) strip_quote_marks =
        Outcome.abort) ∧
      parser_strip_buffer cfg (q :: body) = Outcome.abort := by
  have hlen := length_of_quotation_none_of_not_closes q body hb hq hno
  constructor
  · intro s
    rw [tokenize_quote cfg q body s hb hsp hcm hdel hspc hqu, hlen]
  · rw [strip_quote cfg q body hb hcm hdel hqu, hlen]

theorem not_closes_of_no_quote (q : Char) (body : List Char) (hq0 : q ≠ NUL)
    (h : q ∉ body) (i : Nat) : ¬ closes_quotation (q :: body) i := by
  intro hcl
  obtain ⟨h1, h2, _⟩ := hcl
  obtain ⟨k, rfl⟩ : ∃ k, i = k + 1 := ⟨i - 1, by omega⟩
  simp only [charAt, List.getD_cons_succ, List.getD_cons_zero] at h2
  by_cases hk : k < body.length
  · apply h
    rw [← h2]
    simp [List.getD_eq_getElem?_getD, List.getElem?_eq_getElem hk, List.getElem_mem]
  · apply hq0
    rw [← h2]
    simp [List.getD_eq_getElem?_getD, List.getElem?_eq_none (Nat.le_of_not_lt hk)]

theorem unterminated_quotation_aborts_witness :
    (∀ strip_quote_marks,
        parser_tokenize_buffer sole_quoter_config ['"', 'a', 'b'] strip_quote_marks =
          Outcome.abort) ∧
      parser_strip_buffer sole_quoter_config ['"', 'a', 'b'] = Outcome.abort :=
  unterminated_quotation_aborts sole_quoter_config '"' ['a', 'b'] (by decide) (by decide)
    (by decide) (by decide) (by decide) (by decide) (by decide)
    (not_closes_of_no_quote '"' ['a', 'b'] (by decide) (by decide))

/-- C9 fails as stated when the quoter is the escape character itself: in the buffer of
two escape characters the second stands behind an escape character, yet it closes the
quotation, and neither the tokenizer nor the stripper aborts. -/
theorem escape_quoter_terminates :
    parser_alloc none (some [PARSER_ESCAPE_CHAR]) none none none none =
        some escape_quoter_config ∧
      is_in_quoters PARSER_ESCAPE_CHAR escape_quoter_config = true ∧
      is_splitters PARSER_ESCAPE_CHAR escape_quoter_config = false ∧
      is_special PARSER_ESCAPE_CHAR escape_quoter_config = false ∧
      is_in_delete_set PARSER_ESCAPE_CHAR escape_quoter_config = false ∧
      length_of_comment [PARSER_ESCAPE_CHAR, PARSER_ESCAPE_CHAR] escape_quoter_config = 0 ∧
      (∀ i, ¬ closes_quotation [PARSER_ESCAPE_CHAR, PARSER_ESCAPE_CHAR] i) ∧
      parser_tokenize_buffer escape_quoter_config [PARSER_ESCAPE_CHAR, PARSER_ESCAPE_CHAR] false =
        Outcome.ok [[PARSER_ESCAPE_CHAR, PARSER_ESCAPE_CHAR]] ∧
      parser_tokenize_buffer escape_quoter_config [PARSER_ESCAPE_CHAR, PARSER_ESCAPE_CHAR] true =
        Outcome.ok [[]] ∧
      parser_strip_buffer escape_quoter_config [PARSER_ESCAPE_CHAR, PARSER_ESCAPE_CHAR] =
        Outcome.ok [PARSER_ESCAPE_CHAR, PARSER_ESCAPE_CHAR] := by
  refine ⟨by decide, by decide, by decide, by decide, by decide, by decide, ?_, by decide,
    by decide, by decide⟩
  intro i hcl
  obtain ⟨h1, h2, h3⟩ := hcl
  match i, h1, h2, h3 with
  | 1, _, _, h3 => exact h3 rfl
  | k + 2, _, h2, _ =>
    have h4 : charAt [PARSER_ESCAPE_CHAR, PARSER_ESCAPE_CHAR] (k + 2) = NUL := rfl
    rw [h4] at h2
    exact absurd h2 (by decide)

/-! ## Comments -/

theorem strncmp_eq_isPrefixOf (pat : List Char) (hpat : NUL ∉ pat) (a : List Char) :
    strncmp_eq a pat pat.length = pat.isPrefixOf a := by
  induction pat generalizing a with
  | nil => simp [strncmp_eq]
  | cons p ps ih =>
    have hp : p ≠ NUL := fun e => hpat (by simp [e])
    have hps : NUL ∉ ps := fun e => hpat (by simp [e])
    cases a with
    | nil =>
      simp [strncmp_eq, charAt, List.isPrefixOf, Ne.symm hp]
    | cons x xs =>
      by_cases hx : x = p
      · subst hx
        simp [strncmp_eq, charAt, hp, ih hps xs]
      · have hx2 : ¬ p = x := fun e => hx e.symm
        simp [strncmp_eq, charAt, hx, hx2, List.isPrefixOf]

theorem strncmp_eq_strlen (pat : List Char) (hpat : NUL ∉ pat) (a : List Char) :
    strncmp_eq a pat (strlen pat) = pat.isPrefixOf a := by
  rw [strlen_eq_length hpat, strncmp_eq_isPrefixOf pat hpat a]

theorem isPrefixOf_of_append (pat x tail : List Char) (hlen : pat.length ≤ x.length)
    (h : pat.isPrefixOf (x ++ tail) = true) : pat.isPrefixOf x = true := by
  rw [List.isPrefixOf_iff_prefix] at h ⊢
  exact List.prefix_of_prefix_length_le h (List.prefix_append x tail) hlen

theorem length_of_comment_loop_skip (ce body tail : List Char) (n : Nat) (hce : NUL ∉ ce)
    (hbody : NUL ∉ body) (htail : NUL ∉ tail)
    (hfirst : ∀ k, k < body.length → occurs_at ce (body ++ ce) k = false) :
    length_of_comment_loop ce (body ++ ce ++ tail) n = n + body.length + ce.length := by
  induction body generalizing n with
  | nil =>
    cases hl : ([] ++ ce ++ tail : List Char) with
    | nil =>
      have : ce = [] := by
        cases ce with
        | nil => rfl
        | cons c cs => simp at hl
      simp [length_of_comment_loop, this]
    | cons c rest =>
      have hc : c ≠ NUL := by
        intro e
        have hmem : c ∈ ([] ++ ce ++ tail : List Char) := by rw [hl]; simp
        rw [e] at hmem
        simp at hmem
        exact hmem.elim hce htail
      rw [length_of_comment_loop, if_neg hc, strncmp_eq_strlen ce hce, ← hl]
      simp [strlen_eq_length hce]
  | cons x xs ih =>
    have hx : x ≠ NUL := fun e => hbody (by simp [e])
    have hxs : NUL ∉ xs := fun e => hbody (by simp [e])
    have h0 : ce.isPrefixOf (x :: xs ++ ce ++ tail) = false := by
      have := hfirst 0 (by simp)
      simp only [occurs_at, List.drop_zero] at this
      by_contra hne
      rw [Bool.not_eq_false] at hne
      have := isPrefixOf_of_append ce (x :: xs ++ ce) tail (by simp; omega) hne
      simp_all
    have hrec := ih (n + 1) hxs (by
      intro k hk
      have := hfirst (k + 1) (by simp; omega)
      simpa [occurs_at] using this)
    rw [List.cons_append, List.cons_append, length_of_comment_loop, if_neg hx,
      strncmp_eq_strlen ce hce]
    rw [List.cons_append, List.cons_append] at h0
    rw [h0]
    simp only [Bool.false_eq_true, if_false]
    rw [hrec]
    simp
    omega

/-- The length of a terminated comment at the head of a buffer. -/
theorem length_of_comment_terminated (cfg : parser_struct) (cs ce body tail : List Char)
    (hcs : cfg.comment_start = some cs) (hce : cfg.comment_end = some ce)
    (hcs0 : NUL ∉ cs) (hce0 : NUL ∉ ce) (hbody : NUL ∉ body) (htail : NUL ∉ tail)
    (hfirst : ∀ k, k < body.length → occurs_at ce (body ++ ce) k = false) :
    length_of_comment (cs ++ body ++ ce ++ tail) cfg = cs.length + body.length + ce.length := by
  have hpre : cs.isPrefixOf (cs ++ body ++ ce ++ tail) = true := by
    rw [List.isPrefixOf_iff_prefix]
    simp [List.append_assoc]
  have hdrop : (cs ++ body ++ ce ++ tail).drop cs.length = body ++ ce ++ tail := by
    simp [List.append_assoc]
  simp only [length_of_comment, hcs, hce, strlen_eq_length hcs0,
    strncmp_eq_isPrefixOf cs hcs0, hpre, if_true, hdrop]
  exact length_of_comment_loop_skip ce body tail cs.length hce0 hbody htail hfirst

/-- The pass of the stripper over a comment at the head of the buffer. -/
theorem strip_comment (cfg : parser_struct) (b : List Char) (hb : NUL ∉ b)
    (hcm : 0 < length_of_comment b cfg) :
    parser_strip_buffer cfg b = parser_strip_buffer cfg (b.drop (length_of_comment b cfg)) := by
  by_cases hne : b = []
  · subst hne
    simp
  · rw [parser_strip_buffer_unfold cfg b hb hne]
    simp only [strip_body, List.drop_zero, gt_iff_lt, hcm, if_true, Nat.zero_add]
    exact Outcome.map_id_fun _ (fun a => rfl) _

/-! ## C10 : a terminated comment in the stripper -/

/-- C10: with comment delimiters `cs` and `ce`, a buffer that starts with `cs`, a body
and `ce`, where `ce` occurs in `body ++ ce` at no index before the end of the body, is
stripped to what its tail is stripped to; the body plays no part in the result, and the
stripper fails on the buffer only if it fails on the tail. -/
theorem strip_drops_terminated_comment (cfg : parser_struct) (cs ce body tail : List Char)
    (hcs : cfg.comment_start = some cs) (hce : cfg.comment_end = some ce)
    (hcs0 : NUL ∉ cs) (hce0 : NUL ∉ ce) (hbody : NUL ∉ body) (htail : NUL ∉ tail)
    (hfirst : ∀ k, k < body.length → occurs_at ce (body ++ ce) k = false) :
    parser_strip_buffer cfg (cs ++ body ++ ce ++ tail) = parser_strip_buffer cfg tail := by
  have hlen := length_of_comment_terminated cfg cs ce body tail hcs hce hcs0 hce0 hbody htail
    hfirst
  have hb : NUL ∉ cs ++ body ++ ce ++ tail := by
    simp only [List.mem_append, not_or]
    exact ⟨⟨⟨hcs0, hbody⟩, hce0⟩, htail⟩
  have hdrop : (cs ++ body ++ ce ++ tail).drop (cs.length + body.length + ce.length) = tail := by
    rw [List.drop_left' (by simp [Nat.add_assoc])]
  by_cases hz : cs.length + body.length + ce.length = 0
  · have h1 : cs = [] := List.length_eq_zero.mp (by omega)
    have h2 : body = [] := List.length_eq_zero.mp (by omega)
    have h3 : ce = [] := List.length_eq_zero.mp (by omega)
    simp [h1, h2, h3]
  · rw [strip_comment cfg _ hb (by rw [hlen]; omega), hlen, hdrop]

theorem strip_drops_terminated_comment_witness :
    parser_strip_buffer hash_comment_config
        ['#', ' ', '"', 'x', '\n', 'a', 'b'] =
      Outcome.ok ['a', 'b'] :=
  strip_drops_terminated_comment hash_comment_config ['#'] ['\n'] [' ', '"', 'x'] ['a', 'b']
    rfl rfl (by decide) (by decide) (by decide) (by decide) (by decide)

/-! ## C8 : quotations in the stripper -/

/-- The part of C8 the code does: a complete quotation at the head of the buffer is copied
as it stands, when its quote character is no delete character and no comment starts at it. -/
theorem strip_quoted_span (cfg : parser_struct) (q : Char) (xs tail : List Char)
    (hb : NUL ∉ q :: (xs ++ tail)) (hcm : length_of_comment (q :: (xs ++ tail)) cfg = 0)
    (hdel : is_in_delete_set q cfg = false) (hqu : is_in_quoters q cfg = true)
    (hspan : length_of_quotation (q :: xs) = some (xs.length + 1)) :
    parser_strip_buffer cfg (q :: (xs ++ tail)) =
      (parser_strip_buffer cfg tail).map (fun t => q :: xs ++ t) := by
  have hlen : length_of_quotation (q :: (xs ++ tail)) = some (xs.length + 1) :=
    length_of_quotation_append (q :: xs) tail _ (by simp) hspan
  rw [strip_quote cfg q (xs ++ tail) hb hcm hdel hqu, hlen]
  simp only [List.drop_succ_cons, List.take_succ_cons, List.drop_left' rfl, List.take_left' rfl]

/-- C8 at inputs the code gets wrong: with the double quote both a quoter and a delete
character, the complete quotation `"a"` is not copied, its quote characters are deleted;
with the double quote both a quoter and the comment start, the quotation is taken for an
unterminated comment and dropped. -/
theorem strip_quotation_not_verbatim :
    length_of_quotation ['"', 'a', '"'] = some 3 ∧
      is_in_quoters '"' quote_delete_config = true ∧
      parser_strip_buffer quote_delete_config ['"', 'a', '"'] = Outcome.ok ['a'] ∧
      is_in_quoters '"' quote_comment_config = true ∧
      parser_strip_buffer quote_comment_config ['"', 'a', '"'] = Outcome.ok [] := by
  decide

/-! ## C7 : stripping twice -/

theorem length_of_quotation_loop_take (target : Char) (xs : List Char) (length : Nat)
    (escaped : Bool) (L : Nat) (cur : Char) (hcur : cur ≠ NUL)
    (h : length_of_quotation_loop target xs length escaped = (L, cur)) :
    length_of_quotation_loop target (xs.take (L + 1 - length)) length escaped = (L, cur) := by
  induction xs generalizing length escaped with
  | nil =>
    simp [length_of_quotation_loop] at h
    exact absurd h.2.symm hcur
  | cons c cs ih =>
    rw [length_of_quotation_loop] at h
    split at h
    · rename_i hc
      have hge := length_of_quotation_loop_ge target cs (length + 1) (is_escape c)
      rw [h] at hge
      have hL : L + 1 - length = (L + 1 - (length + 1)) + 1 := by
        simp only at hge
        omega
      rw [hL, List.take_succ_cons, length_of_quotation_loop, if_pos hc]
      exact ih _ _ h
    · rename_i hc
      cases h
      have hL : L + 1 - L = 1 := by omega
      rw [hL]
      simp only [List.take_succ_cons, List.take_zero]
      rw [length_of_quotation_loop, if_neg hc]

/-- The quotation at the head of a buffer is a quotation by itself. -/
theorem length_of_quotation_take (b : List Char) (n : Nat)
    (h : length_of_quotation b = some n) : length_of_quotation (b.take n) = some n := by
  cases b with
  | nil => simp [length_of_quotation, length_of_quotation_loop, charAt] at h
  | cons q rest =>
    simp only [length_of_quotation, charAt, List.getD_cons_zero, List.drop_one,
      List.tail_cons] at h
    split at h
    · cases h
    · rename_i hcur
      cases h
      have hge := length_of_quotation_loop_ge q rest 1 false
      have := length_of_quotation_loop_take q rest 1 false _ _ hcur rfl
      simp only [Nat.add_sub_cancel] at this
      simp only [List.take_succ_cons, length_of_quotation, charAt, List.getD_cons_zero,
        List.drop_one, List.tail_cons, this, hcur, if_false]

theorem length_of_comment_eq_zero (cfg : parser_struct) (o : List Char)
    (hcfg : ∀ cs, cfg.comment_start = some cs → NUL ∉ cs)
    (hnc : ∀ cs, cfg.comment_start = some cs → occurs_at cs o 0 = false) :
    length_of_comment o cfg = 0 := by
  unfold length_of_comment
  split
  · rename_i cs ce hcs hce
    have h0 := hcfg cs hcs
    have h1 := hnc cs hcs
    simp only [occurs_at, List.drop_zero] at h1
    simp [strncmp_eq_strlen cs h0, h1]
  · rfl

/-- The three passes of the stripper that lead to a result. -/
theorem strip_cases (cfg : parser_struct) (b o : List Char) (hb : NUL ∉ b) (hne : b ≠ [])
    (h : parser_strip_buffer cfg b = Outcome.ok o) :
    (∃ n, 0 < n ∧ parser_strip_buffer cfg (b.drop n) = Outcome.ok o) ∨
      (∃ n o', is_in_quoters (charAt b 0) cfg = true ∧ length_of_quotation b = some n ∧
        parser_strip_buffer cfg (b.drop n) = Outcome.ok o' ∧ o = b.take n ++ o') ∨
      (∃ o', is_in_quoters (charAt b 0) cfg = false ∧
        parser_strip_buffer cfg (b.drop 1) = Outcome.ok o' ∧ o = charAt b 0 :: o') := by
  rw [parser_strip_buffer_unfold cfg b hb hne] at h
  by_cases hc : 0 < length_of_comment b cfg
  · have hbody : strip_body cfg b 0 [] = some (length_of_comment b cfg, []) := by
      simp [strip_body, hc]
    rw [hbody] at h
    left
    refine ⟨_, hc, ?_⟩
    obtain ⟨x, hx, rfl⟩ := Outcome.map_eq_ok h
    simpa using hx
  by_cases hd : 0 < length_of_delete b cfg
  · have hbody : strip_body cfg b 0 [] = some (length_of_delete b cfg, []) := by
      simp [strip_body, hc, hd]
    rw [hbody] at h
    left
    refine ⟨_, hd, ?_⟩
    obtain ⟨x, hx, rfl⟩ := Outcome.map_eq_ok h
    simpa using hx
  by_cases hqu : is_in_quoters (charAt b 0) cfg = true
  · right; left
    cases hq : length_of_quotation b with
    | none =>
      have hbody : strip_body cfg b 0 [] = none := by
        simp [strip_body, hc, hd, hqu, hq]
      rw [hbody] at h
      cases h
    | some n =>
      have hbody : strip_body cfg b 0 [] = some (n, b.take n) := by
        simp [strip_body, hc, hd, hqu, hq]
      rw [hbody] at h
      obtain ⟨x, hx, rfl⟩ := Outcome.map_eq_ok h
      exact ⟨n, x, hqu, rfl, hx, rfl⟩
  · right; right
    have hbody : strip_body cfg b 0 [] = some (1, [charAt b 0]) := by
      simp [strip_body, hc, hd, hqu]
    rw [hbody] at h
    obtain ⟨x, hx, rfl⟩ := Outcome.map_eq_ok h
    exact ⟨x, by simpa using hqu, hx, rfl⟩

/-- The stripper writes characters of its input only. -/
theorem strip_output_mem (cfg : parser_struct) (b o : List Char) (hb : NUL ∉ b)
    (h : parser_strip_buffer cfg b = Outcome.ok o) : ∀ c ∈ o, c ∈ b := by
  generalize hn : b.length = n
  induction n using Nat.strong_induction_on generalizing b o with
  | _ n ih =>
    by_cases hne : b = []
    · subst hne
      rw [parser_strip_buffer_nil] at h
      cases h
      simp
    · have hlen : 0 < b.length := List.length_pos.mpr hne
      rcases strip_cases cfg b o hb hne h with ⟨k, hk, hrec⟩ | ⟨k, o', _, hq, hrec, rfl⟩ |
        ⟨o', _, hrec, rfl⟩
      · intro c hc
        exact List.mem_of_mem_drop
          (ih _ (by subst hn; simp; omega) (b.drop k) o (not_mem_drop hb k) hrec rfl c hc)
      · have hk := length_of_quotation_ge hq
        intro c hc
        rcases List.mem_append.mp hc with hc | hc
        · exact List.mem_of_mem_take hc
        · exact List.mem_of_mem_drop
            (ih _ (by subst hn; simp; omega) (b.drop k) o' (not_mem_drop hb k) hrec rfl c hc)
      · intro c hc
        rcases List.mem_cons.mp hc with hc | hc
        · rw [hc]
          simp only [charAt, List.getD_eq_getElem?_getD, List.getElem?_eq_getElem hlen,
            Option.getD_some]
          exact List.getElem_mem _
        · exact List.mem_of_mem_drop
            (ih _ (by subst hn; simp; omega) (b.drop 1) o' (not_mem_drop hb 1) hrec rfl c hc)

theorem strip_output_no_NUL (cfg : parser_struct) (b o : List Char) (hb : NUL ∉ b)
    (h : parser_strip_buffer cfg b = Outcome.ok o) : NUL ∉ o :=
  fun e => hb (strip_output_mem cfg b o hb h NUL e)

theorem occurs_at_append_left (pat x o : List Char) (k : Nat) :
    occurs_at pat (x ++ o) (x.length + k) = occurs_at pat o k := by
  simp [occurs_at]

/-- C7: when the stripper turns a buffer into `stripped`, and `stripped` holds no
occurrence of the comment start and no delete character, stripping `stripped` succeeds
and gives `stripped` again. -/
theorem strip_idempotent (cfg : parser_struct) (buffer stripped : List Char)
    (hb : NUL ∉ buffer) (hcfg : ∀ cs, cfg.comment_start = some cs → NUL ∉ cs)
    (h : parser_strip_buffer cfg buffer = Outcome.ok stripped)
    (hnc : ∀ cs, cfg.comment_start = some cs →
      ∀ k, k < stripped.length → occurs_at cs stripped k = false)
    (hnd : ∀ c ∈ stripped, is_in_delete_set c cfg = false) :
    parser_strip_buffer cfg stripped = Outcome.ok stripped := by
  rename' buffer => b, stripped => o
  generalize hn : b.length = n
  induction n using Nat.strong_induction_on generalizing b o with
  | _ n ih =>
    by_cases hne : b = []
    · subst hne
      rw [parser_strip_buffer_nil] at h
      cases h
      rfl
    · have hlen : 0 < b.length := List.length_pos.mpr hne
      have ho := strip_output_no_NUL cfg b o hb h
      rcases strip_cases cfg b o hb hne h with ⟨k, hk, hrec⟩ | ⟨k, o', hqu, hq, hrec, rfl⟩ |
        ⟨o', hqu, hrec, rfl⟩
      · exact ih _ (by subst hn; simp; omega) (b.drop k) o (not_mem_drop hb k) hrec hnc hnd rfl
      · have hk := length_of_quotation_ge hq
        have hkle := length_of_quotation_le hq
        have hrec2 : parser_strip_buffer cfg o' = Outcome.ok o' := by
          refine ih _ (by subst hn; simp; omega) (b.drop k) o' (not_mem_drop hb k) hrec ?_ ?_ rfl
          · intro cs hcs j hj
            have := hnc cs hcs ((b.take k).length + j) (by simp; omega)
            rwa [occurs_at_append_left] at this
          · intro c hc
            exact hnd c (List.mem_append.mpr (Or.inr hc))
        obtain ⟨q, xs, hbq⟩ : ∃ q xs, b = q :: xs := by
          cases b with
          | nil => exact absurd rfl hne
          | cons q xs => exact ⟨q, xs, rfl⟩
        have htake : b.take k = q :: xs.take (k - 1) := by
          obtain ⟨m, rfl⟩ : ∃ m, k = m + 1 := ⟨k - 1, by omega⟩
          rw [hbq]
          simp
        have hlen2 : (q :: xs.take (k - 1)).length = k := by
          rw [← htake, List.length_take]
          omega
        have hqo : length_of_quotation (q :: (xs.take (k - 1) ++ o')) = some k := by
          have := length_of_quotation_append (b.take k) o' k (by rw [htake]; simp)
            (length_of_quotation_take b k hq)
          rwa [htake] at this
        rw [htake] at ho hnc hnd ⊢
        rw [List.cons_append] at ho hnc hnd ⊢
        have hq0 : is_in_quoters q cfg = true := by
          rw [hbq] at hqu
          exact hqu
        rw [strip_quote cfg q _ ho
          (length_of_comment_eq_zero cfg _ hcfg (fun cs hcs => hnc cs hcs 0 (by simp)))
          (hnd q (by simp)) hq0, hqo]
        simp only
        have hd : (q :: (xs.take (k - 1) ++ o')).drop k = o' := by
          rw [← List.cons_append, List.drop_left' hlen2]
        have ht : (q :: (xs.take (k - 1) ++ o')).take k = q :: xs.take (k - 1) := by
          rw [← List.cons_append, List.take_left' hlen2]
        rw [hd, ht, hrec2]
        rfl
      · have hrec2 : parser_strip_buffer cfg o' = Outcome.ok o' := by
          refine ih _ (by subst hn; simp; omega) (b.drop 1) o' (not_mem_drop hb 1) hrec ?_ ?_ rfl
          · intro cs hcs j hj
            have := hnc cs hcs ([charAt b 0].length + j) (by simp; omega)
            rwa [← List.singleton_append, occurs_at_append_left] at this
          · intro c hc
            exact hnd c (List.mem_cons_of_mem _ hc)
        rw [parser_strip_buffer_unfold cfg _ ho (by simp)]
        have hcm := length_of_comment_eq_zero cfg (charAt b 0 :: o') hcfg
          (fun cs hcs => hnc cs hcs 0 (by simp))
        have hdl := length_of_delete_cons cfg (charAt b 0) o' (hnd _ (by simp))
        simp only [strip_body, List.drop_zero, hcm, hdl, charAt_cons_zero, hqu, gt_iff_lt,
          Nat.lt_irrefl, if_false, Nat.zero_add, List.nil_append, Bool.false_eq_true]
        simp only [List.drop_succ_cons, List.drop_zero, hrec2]
        rfl

theorem strip_idempotent_witness :
    parser_strip_buffer hash_comment_config ['a', '"', 'b', '"', ' ', '#', 'c', '\n', 'd'] =
        Outcome.ok ['a', '"', 'b', '"', ' ', 'd'] ∧
      parser_strip_buffer hash_comment_config ['a', '"', 'b', '"', ' ', 'd'] =
        Outcome.ok ['a', '"', 'b', '"', ' ', 'd'] :=
  ⟨by decide,
    strip_idempotent hash_comment_config ['a', '"', 'b', '"', ' ', '#', 'c', '\n', 'd']
      ['a', '"', 'b', '"', ' ', 'd'] (by decide) (fun cs hcs => by cases hcs; decide)
      (by decide) (fun cs hcs => by cases hcs; decide) (by decide)⟩

/-! ## The passes of the tokenizer and of the stripper, one by one -/

theorem Outcome.map_nil_append {α : Type} (o : Outcome (List α)) :
    o.map (fun t => [] ++ t) = o :=
  Outcome.map_id_fun _ (fun _ => rfl) o

/-- The pass of the tokenizer over a run of splitters. -/
theorem tokenize_splitters (cfg : parser_struct) (b : List Char) (s : Bool) (hb : NUL ∉ b)
    (h : 0 < length_of_initial_splitters b cfg) :
    parser_tokenize_buffer cfg b s =
      parser_tokenize_buffer cfg (b.drop (length_of_initial_splitters b cfg)) s := by
  have hne : b ≠ [] := by
    intro e
    subst e
    unfold length_of_initial_splitters at h
    cases hs : cfg.splitters <;> simp [hs, strspn] at h
  rw [parser_tokenize_buffer_unfold cfg b s hb hne]
  simp only [tokenize_body, List.drop_zero, gt_iff_lt, h, if_true, Nat.zero_add]
  exact Outcome.map_nil_append _

theorem length_of_initial_splitters_cons_pos (cfg : parser_struct) (c : Char)
    (rest : List Char) (hc : c ≠ NUL) (h : is_splitters c cfg = true) :
    length_of_initial_splitters (c :: rest) cfg = length_of_initial_splitters rest cfg + 1 := by
  unfold length_of_initial_splitters
  unfold is_splitters in_set at h
  cases hs : cfg.splitters with
  | none => rw [hs] at h; cases h
  | some sp =>
    rw [hs] at h
    simp only [strchr_found, hc, decide_False, Bool.false_or, decide_eq_true_eq] at h
    simp [strspn, hc, h]

/-- A splitter at the head of the buffer is passed over. -/
theorem tokenize_splitter_char (cfg : parser_struct) (c : Char) (rest : List Char) (s : Bool)
    (hb : NUL ∉ c :: rest) (h : is_splitters c cfg = true) :
    parser_tokenize_buffer cfg (c :: rest) s = parser_tokenize_buffer cfg rest s := by
  have hc : c ≠ NUL := fun e => hb (by simp [e])
  have hrest : NUL ∉ rest := fun e => hb (by simp [e])
  have hlen := length_of_initial_splitters_cons_pos cfg c rest hc h
  rw [tokenize_splitters cfg _ s hb (by omega), hlen, List.drop_succ_cons]
  by_cases hk : 0 < length_of_initial_splitters rest cfg
  · rw [← tokenize_splitters cfg rest s hrest hk]
  · have : length_of_initial_splitters rest cfg = 0 := by omega
    rw [this, List.drop_zero]

/-- The pass of the tokenizer over a comment. -/
theorem tokenize_comment (cfg : parser_struct) (c : Char) (rest : List Char) (s : Bool)
    (hb : NUL ∉ c :: rest) (hsp : is_splitters c cfg = false)
    (hcm : 0 < length_of_comment (c :: rest) cfg) :
    parser_tokenize_buffer cfg (c :: rest) s =
      parser_tokenize_buffer cfg ((c :: rest).drop (length_of_comment (c :: rest) cfg)) s := by
  rw [parser_tokenize_buffer_unfold cfg _ s hb (by simp)]
  simp only [tokenize_body, List.drop_zero, length_of_initial_splitters_cons cfg c rest hsp,
    gt_iff_lt, Nat.lt_irrefl, if_false, hcm, if_true, Nat.zero_add]
  exact Outcome.map_nil_append _

/-- The pass of the tokenizer over a run of delete characters. -/
theorem tokenize_delete (cfg : parser_struct) (c : Char) (rest : List Char) (s : Bool)
    (hb : NUL ∉ c :: rest) (hsp : is_splitters c cfg = false)
    (hcm : length_of_comment (c :: rest) cfg = 0)
    (hdel : 0 < length_of_delete (c :: rest) cfg) :
    parser_tokenize_buffer cfg (c :: rest) s =
      parser_tokenize_buffer cfg ((c :: rest).drop (length_of_delete (c :: rest) cfg)) s := by
  rw [parser_tokenize_buffer_unfold cfg _ s hb (by simp)]
  simp only [tokenize_body, List.drop_zero, length_of_initial_splitters_cons cfg c rest hsp,
    gt_iff_lt, Nat.lt_irrefl, if_false, hcm, hdel, if_true, Nat.zero_add]
  exact Outcome.map_nil_append _

/-- The pass of the tokenizer over a special character. -/
theorem tokenize_special (cfg : parser_struct) (c : Char) (rest : List Char) (s : Bool)
    (hb : NUL ∉ c :: rest) (hsp : is_splitters c cfg = false)
    (hcm : length_of_comment (c :: rest) cfg = 0) (hdel : is_in_delete_set c cfg = false)
    (hspc : is_special c cfg = true) :
    parser_tokenize_buffer cfg (c :: rest) s =
      (parser_tokenize_buffer cfg rest s).map (fun t => [c] :: t) := by
  rw [parser_tokenize_buffer_unfold cfg _ s hb (by simp)]
  simp only [tokenize_body, List.drop_zero, length_of_initial_splitters_cons cfg c rest hsp, hcm,
    length_of_delete_cons cfg c rest hdel, charAt_cons_zero, hspc, gt_iff_lt, Nat.lt_irrefl,
    if_false, if_true, Nat.zero_add, List.nil_append]
  rfl

/-- The pass of the tokenizer over a normal run. -/
theorem tokenize_normal (cfg : parser_struct) (c : Char) (rest : List Char) (s : Bool)
    (hb : NUL ∉ c :: rest) (hsp : is_splitters c cfg = false)
    (hcm : length_of_comment (c :: rest) cfg = 0) (hdel : is_in_delete_set c cfg = false)
    (hspc : is_special c cfg = false) (hqu : is_in_quoters c cfg = false) :
    parser_tokenize_buffer cfg (c :: rest) s =
      (parser_tokenize_buffer cfg
        ((c :: rest).drop (length_of_normal_non_splitters (c :: rest) cfg)) s).map
        (fun t =>
          if (normal_token (c :: rest) (length_of_normal_non_splitters (c :: rest) cfg)
              cfg).length > 0
          then normal_token (c :: rest) (length_of_normal_non_splitters (c :: rest) cfg) cfg :: t
          else t) := by
  rw [parser_tokenize_buffer_unfold cfg _ s hb (by simp)]
  simp only [tokenize_body, List.drop_zero, length_of_initial_splitters_cons cfg c rest hsp, hcm,
    length_of_delete_cons cfg c rest hdel, charAt_cons_zero, hspc, hqu, gt_iff_lt,
    Nat.lt_irrefl, if_false, Nat.zero_add, List.nil_append, Bool.false_eq_true]
  by_cases h : 0 < (normal_token (c :: rest)
      (length_of_normal_non_splitters (c :: rest) cfg) cfg).length
  · simp only [h, if_true]
    rfl
  · simp only [h, if_false]
    rfl

/-- The pass of the stripper over a run of delete characters. -/
theorem strip_delete (cfg : parser_struct) (b : List Char) (hb : NUL ∉ b)
    (hcm : length_of_comment b cfg = 0) (hdel : 0 < length_of_delete b cfg) :
    parser_strip_buffer cfg b = parser_strip_buffer cfg (b.drop (length_of_delete b cfg)) := by
  by_cases hne : b = []
  · subst hne
    simp
  · rw [parser_strip_buffer_unfold cfg b hb hne]
    simp only [strip_body, List.drop_zero, gt_iff_lt, hcm, Nat.lt_irrefl, if_false, hdel,
      if_true, Nat.zero_add]
    exact Outcome.map_nil_append _

/-- The pass of the stripper over a character that is copied. -/
theorem strip_copy (cfg : parser_struct) (c : Char) (rest : List Char) (hb : NUL ∉ c :: rest)
    (hcm : length_of_comment (c :: rest) cfg = 0) (hdel : is_in_delete_set c cfg = false)
    (hqu : is_in_quoters c cfg = false) :
    parser_strip_buffer cfg (c :: rest) = (parser_strip_buffer cfg rest).map (fun t => c :: t) := by
  rw [parser_strip_buffer_unfold cfg _ hb (by simp)]
  simp only [strip_body, List.drop_zero, hcm, length_of_delete_cons cfg c rest hdel,
    charAt_cons_zero, hqu, gt_iff_lt, Nat.lt_irrefl, if_false, Nat.zero_add, List.nil_append,
    Bool.false_eq_true]
  rfl

theorem length_of_delete_loop_add (cfg : parser_struct) (b : List Char) (n : Nat) :
    length_of_delete_loop cfg b n = length_of_delete_loop cfg b 0 + n := by
  induction b generalizing n with
  | nil => simp [length_of_delete_loop]
  | cons c cs ih =>
    simp only [length_of_delete_loop]
    split
    · rw [ih (n + 1), ih (0 + 1)]
      omega
    · simp

theorem length_of_delete_cons_pos (cfg : parser_struct) (c : Char) (rest : List Char)
    (hc : c ≠ NUL) (h : is_in_delete_set c cfg = true) :
    length_of_delete (c :: rest) cfg = length_of_delete rest cfg + 1 := by
  simp only [length_of_delete, length_of_delete_loop, h, hc, ne_eq, not_false_eq_true, and_self,
    if_true]
  exact length_of_delete_loop_add cfg rest (0 + 1)

/-- A delete character at the head of the buffer is dropped by the stripper, when no
comment starts at it nor at a delete character that follows it. -/
theorem strip_delete_char (cfg : parser_struct) (c : Char) (rest : List Char)
    (hb : NUL ∉ c :: rest) (hcm : length_of_comment (c :: rest) cfg = 0)
    (hdel : is_in_delete_set c cfg = true)
    (hnext : 0 < length_of_delete rest cfg → length_of_comment rest cfg = 0) :
    parser_strip_buffer cfg (c :: rest) = parser_strip_buffer cfg rest := by
  have hc : c ≠ NUL := fun e => hb (by simp [e])
  have hrest : NUL ∉ rest := fun e => hb (by simp [e])
  have hlen := length_of_delete_cons_pos cfg c rest hc hdel
  rw [strip_delete cfg _ hb hcm (by omega), hlen, List.drop_succ_cons]
  by_cases hk : 0 < length_of_delete rest cfg
  · rw [← strip_delete cfg rest hrest (hnext hk) hk]
  · have : length_of_delete rest cfg = 0 := by omega
    rw [this, List.drop_zero]

/-! ## C6 : stripping, then tokenizing -/

theorem mem_of_mem_cstr {c : Char} {s : List Char} (h : c ∈ cstr s) : c ∈ s := by
  induction s with
  | nil => simp [cstr] at h
  | cons d ds ih =>
    simp only [cstr] at h
    split at h
    · simp at h
    · rcases List.mem_cons.mp h with h | h
      · simp [h]
      · exact List.mem_cons_of_mem _ (ih h)

theorem mem_of_in_set {c : Char} {set : Option (List Char)} (hc : c ≠ NUL)
    (h : in_set c set = true) : c ∈ set.getD [] := by
  cases set with
  | none => cases h
  | some s =>
    simp only [in_set, strchr_found, hc, decide_False, Bool.false_or, decide_eq_true_eq] at h
    exact mem_of_mem_cstr h

theorem separated_quoter {cfg : parser_struct} (hsep : classes_separated cfg) {c : Char}
    (hc : c ≠ NUL) (h : is_in_quoters c cfg = true) :
    is_splitters c cfg = false ∧ is_special c cfg = false :=
  hsep.1 c (mem_of_in_set hc h)

theorem separated_delete {cfg : parser_struct} (hsep : classes_separated cfg) {c : Char}
    (hc : c ≠ NUL) (h : is_in_delete_set c cfg = true) : is_splitters c cfg = false :=
  hsep.2.1 c (mem_of_in_set hc h)

theorem comment_start_of_length_pos {cfg : parser_struct} {l : List Char}
    (h : 0 < length_of_comment l cfg) :
    ∃ cs, cfg.comment_start = some cs ∧ strncmp_eq l cs (strlen cs) = true := by
  unfold length_of_comment at h
  split at h
  · rename_i cs ce hcs hce
    refine ⟨cs, hcs, ?_⟩
    by_contra hne
    simp [hne] at h
  · exact absurd h (Nat.lt_irrefl 0)

theorem separated_comment {cfg : parser_struct} (hsep : classes_separated cfg) {c : Char}
    {rest : List Char} (h : 0 < length_of_comment (c :: rest) cfg) :
    is_splitters c cfg = false ∧ is_in_delete_set c cfg = false := by
  obtain ⟨cs, hcs, hm⟩ := comment_start_of_length_pos h
  obtain ⟨h0, hne, h1, h2⟩ := hsep.2.2 cs hcs
  rw [strncmp_eq_strlen cs h0] at hm
  cases cs with
  | nil => exact absurd rfl hne
  | cons d ds =>
    simp only [List.isPrefixOf, Bool.and_eq_true, beq_iff_eq] at hm
    rw [← hm.1]
    exact ⟨h1, h2⟩

theorem is_splitters_without_comments (c : Char) (cfg : parser_struct) :
    is_splitters c (without_comments cfg) = is_splitters c cfg := rfl

theorem is_special_without_comments (c : Char) (cfg : parser_struct) :
    is_special c (without_comments cfg) = is_special c cfg := rfl

theorem is_in_quoters_without_comments (c : Char) (cfg : parser_struct) :
    is_in_quoters c (without_comments cfg) = is_in_quoters c cfg := rfl

theorem length_of_comment_without_comments (l : List Char) (cfg : parser_struct) :
    length_of_comment l (without_comments cfg) = 0 := rfl

theorem normal_run_structure (cfg : parser_struct) (xs : List Char) (x : Char) (len : Nat)
    (hx : x ≠ NUL) (hxs : NUL ∉ xs) :
    ∃ w rest, xs = w ++ rest ∧
      length_of_normal_non_splitters_loop cfg (x :: xs) len = len + 1 + w.length ∧
      all_plain cfg w rest ∧
      (rest = [] ∨ is_boundary (charAt rest 0) cfg = true ∨ 0 < length_of_comment rest cfg) := by
  induction xs generalizing x len with
  | nil =>
    refine ⟨[], [], rfl, ?_, trivial, Or.inl rfl⟩
    rw [length_of_normal_non_splitters_loop]
    simp only [hx, if_false]
    repeat' split
    all_goals simp [length_of_normal_non_splitters_loop]
  | cons d ds ih =>
    have hd : d ≠ NUL := fun e => hxs (by simp [e])
    have hds : NUL ∉ ds := fun e => hxs (by simp [e])
    rw [length_of_normal_non_splitters_loop]
    simp only [hx, if_false, charAt_cons_zero]
    by_cases h1 : is_splitters d cfg = true
    · exact ⟨[], d :: ds, rfl, by simp [h1], trivial, Or.inr (Or.inl (by simp [is_boundary, charAt, h1]))⟩
    by_cases h2 : is_special d cfg = true
    · exact ⟨[], d :: ds, rfl, by simp [h1, h2], trivial,
        Or.inr (Or.inl (by simp [is_boundary, charAt, h2]))⟩
    by_cases h3 : is_in_quoters d cfg = true
    · exact ⟨[], d :: ds, rfl, by simp [h1, h2, h3], trivial,
        Or.inr (Or.inl (by simp [is_boundary, charAt, h3]))⟩
    by_cases h4 : 0 < length_of_comment (d :: ds) cfg
    · exact ⟨[], d :: ds, rfl, by simp [h1, h2, h3, h4], trivial, Or.inr (Or.inr h4)⟩
    · obtain ⟨w, rest, e, hl, hp, hr⟩ := ih d (len + 1) hd hds
      refine ⟨d :: w, rest, by rw [e]; rfl, ?_, ?_, hr⟩
      · simp only [h1, h2, h3, h4, gt_iff_lt, if_false, hl, List.length_cons, Bool.false_eq_true]
        omega
      · refine ⟨by simp [is_boundary, h1, h2, h3], ?_, hp⟩
        rw [List.cons_append, ← e]
        omega

theorem all_plain_not_boundary {cfg : parser_struct} {w rest : List Char}
    (h : all_plain cfg w rest) : ∀ c ∈ w, is_boundary c cfg = false := by
  induction w with
  | nil => intro c hc; cases hc
  | cons d v ih =>
    intro c hc
    rcases List.mem_cons.mp hc with hc | hc
    · rw [hc]; exact h.1
    · exact ih h.2.2 c hc

theorem length_of_delete_pos_head {cfg : parser_struct} {l : List Char}
    (h : 0 < length_of_delete l cfg) : ∃ d l', l = d :: l' ∧ is_in_delete_set d cfg = true := by
  cases l with
  | nil => simp [length_of_delete, length_of_delete_loop] at h
  | cons d l' =>
    refine ⟨d, l', rfl, ?_⟩
    cases hd : is_in_delete_set d cfg with
    | true => rfl
    | false =>
      rw [length_of_delete_cons cfg d l' hd] at h
      exact absurd h (Nat.lt_irrefl 0)

theorem separated_delete_next {cfg : parser_struct} (hsep : classes_separated cfg)
    (l : List Char) (h : 0 < length_of_delete l cfg) : length_of_comment l cfg = 0 := by
  obtain ⟨d, l', rfl, hd⟩ := length_of_delete_pos_head h
  by_contra hne
  have := (separated_comment hsep (Nat.pos_of_ne_zero hne)).2
  rw [hd] at this
  cases this

/-- The stripper over the characters of a normal run: the delete characters are
dropped, the others are copied. -/
theorem strip_plain_run (cfg : parser_struct) (hsep : classes_separated cfg)
    (w rest : List Char) (hw : NUL ∉ w ++ rest) (hp : all_plain cfg w rest) :
    parser_strip_buffer cfg (w ++ rest) =
      (parser_strip_buffer cfg rest).map
        (fun t => w.filter (fun c => !is_in_delete_set c cfg) ++ t) := by
  induction w with
  | nil => exact (Outcome.map_nil_append _).symm
  | cons c v ih =>
    have hv : NUL ∉ v ++ rest := fun e => hw (by simp at e ⊢; exact Or.inr e)
    obtain ⟨hb, hcm, hp'⟩ := hp
    have hqu : is_in_quoters c cfg = false := by
      simp only [is_boundary, Bool.or_eq_false_iff] at hb
      exact hb.2
    rw [List.cons_append]
    cases hd : is_in_delete_set c cfg with
    | true =>
      rw [strip_delete_char cfg c (v ++ rest) hw hcm hd (separated_delete_next hsep _), ih hv hp']
      simp [List.filter, hd]
    | false =>
      rw [strip_copy cfg c (v ++ rest) hw hcm hd hqu, ih hv hp', Outcome.map_map]
      simp [List.filter, hd]

theorem normal_run_without_comments (cfg : parser_struct) (fw o : List Char) (x : Char)
    (len : Nat) (hx : x ≠ NUL) (hfw0 : NUL ∉ fw)
    (hfw : ∀ c ∈ fw, is_boundary c cfg = false)
    (ho : o = [] ∨ is_boundary (charAt o 0) cfg = true) :
    length_of_normal_non_splitters_loop (without_comments cfg) (x :: (fw ++ o)) len =
      len + 1 + fw.length := by
  induction fw generalizing x len with
  | nil =>
    rw [List.nil_append, length_of_normal_non_splitters_loop]
    simp only [hx, if_false, is_splitters_without_comments, is_special_without_comments,
      is_in_quoters_without_comments, length_of_comment_without_comments]
    rcases ho with rfl | ho
    · repeat' split
      all_goals simp [length_of_normal_non_splitters_loop]
    · simp only [is_boundary, Bool.or_eq_true] at ho
      rcases ho with (ho | ho) | ho
      · simp [ho]
      · by_cases h1 : is_splitters (charAt o 0) cfg = true <;> simp [h1, ho]
      · by_cases h1 : is_splitters (charAt o 0) cfg = true <;>
          by_cases h2 : is_special (charAt o 0) cfg = true <;> simp [h1, h2, ho]
  | cons d v ih =>
    have hd : d ≠ NUL := fun e => hfw0 (by simp [e])
    have hv : NUL ∉ v := fun e => hfw0 (by simp [e])
    have hb := hfw d (by simp)
    simp only [is_boundary, Bool.or_eq_false_iff] at hb
    rw [List.cons_append, length_of_normal_non_splitters_loop]
    simp only [hx, if_false, charAt_cons_zero, is_splitters_without_comments,
      is_special_without_comments, is_in_quoters_without_comments,
      length_of_comment_without_comments, hb.1.1, hb.1.2, hb.2, gt_iff_lt, Nat.lt_irrefl,
      Bool.false_eq_true]
    rw [ih d (len + 1) hd hv (fun c hc => hfw c (List.mem_cons_of_mem _ hc))]
    simp
    omega

theorem normal_token_run (cfg : parser_struct) (x : Char) (w rest : List Char)
    (hx : is_in_delete_set x cfg = false) :
    normal_token (x :: (w ++ rest)) (1 + w.length) cfg =
      x :: w.filter (fun c => !is_in_delete_set c cfg) := by
  have htake : (x :: (w ++ rest)).take (1 + w.length) = x :: w := by
    rw [Nat.add_comm, List.take_succ_cons, List.take_left' rfl]
  unfold normal_token
  rw [htake]
  cases hd : cfg.delete_set with
  | none =>
    have : ∀ c, is_in_delete_set c cfg = false := fun c => by
      simp [is_in_delete_set, hd, in_set]
    simp [this]
  | some ds => simp [List.filter, hx]

theorem normal_token_without_comments (cfg : parser_struct) (l : List Char) (n : Nat) :
    normal_token l n (without_comments cfg) = normal_token l n cfg := rfl

theorem alloc_quoted_token_take (b : List Char) (n : Nat) (s : Bool) (hn : 1 ≤ n) :
    alloc_quoted_token (b.take n) n s = alloc_quoted_token b n s := by
  obtain ⟨m, rfl⟩ : ∃ m, n = m + 1 := ⟨n - 1, by omega⟩
  cases b with
  | nil => rfl
  | cons q xs =>
    simp only [alloc_quoted_token, List.take_succ_cons, List.take_take, Nat.min_self, charAt,
      List.getD_cons_zero, List.drop_one, List.tail_cons]
    have : (m + 1 - 2) ⊓ m = m + 1 - 2 := by
      omega
    rw [this]

/-- What stands at the head of a buffer, in the order of the tests of the tokenizer; with
the classes kept apart the stripper reads the head in the same way. -/
theorem head_cases (cfg : parser_struct) (hsep : classes_separated cfg) (x : Char)
    (xs : List Char) (hx : x ≠ NUL) :
    (is_splitters x cfg = true ∧ length_of_comment (x :: xs) cfg = 0 ∧
        is_in_delete_set x cfg = false ∧ is_in_quoters x cfg = false) ∨
      (is_splitters x cfg = false ∧ 0 < length_of_comment (x :: xs) cfg) ∨
      (is_splitters x cfg = false ∧ length_of_comment (x :: xs) cfg = 0 ∧
        is_in_delete_set x cfg = true) ∨
      (is_splitters x cfg = false ∧ length_of_comment (x :: xs) cfg = 0 ∧
        is_in_delete_set x cfg = false ∧ is_special x cfg = true ∧
        is_in_quoters x cfg = false) ∨
      (is_splitters x cfg = false ∧ length_of_comment (x :: xs) cfg = 0 ∧
        is_in_delete_set x cfg = false ∧ is_special x cfg = false ∧
        is_in_quoters x cfg = true) ∨
      (is_splitters x cfg = false ∧ length_of_comment (x :: xs) cfg = 0 ∧
        is_in_delete_set x cfg = false ∧ is_special x cfg = false ∧
        is_in_quoters x cfg = false) := by
  by_cases h1 : is_splitters x cfg = true
  · left
    refine ⟨h1, ?_, ?_, ?_⟩
    · by_contra hne
      have := (separated_comment hsep (Nat.pos_of_ne_zero hne)).1
      rw [h1] at this
      cases this
    · cases hd : is_in_delete_set x cfg with
      | false => rfl
      | true =>
        have := separated_delete hsep hx hd
        rw [h1] at this
        cases this
    · cases hq : is_in_quoters x cfg with
      | false => rfl
      | true =>
        have := (separated_quoter hsep hx hq).1
        rw [h1] at this
        cases this
  have h1' : is_splitters x cfg = false := by simpa using h1
  by_cases h2 : 0 < length_of_comment (x :: xs) cfg
  · exact Or.inr (Or.inl ⟨h1', h2⟩)
  have h2' : length_of_comment (x :: xs) cfg = 0 := by omega
  by_cases h3 : is_in_delete_set x cfg = true
  · exact Or.inr (Or.inr (Or.inl ⟨h1', h2', h3⟩))
  have h3' : is_in_delete_set x cfg = false := by simpa using h3
  by_cases h4 : is_special x cfg = true
  · refine Or.inr (Or.inr (Or.inr (Or.inl ⟨h1', h2', h3', h4, ?_⟩)))
    cases hq : is_in_quoters x cfg with
    | false => rfl
    | true =>
      have := (separated_quoter hsep hx hq).2
      rw [h4] at this
      cases this
  have h4' : is_special x cfg = false := by simpa using h4
  by_cases h5 : is_in_quoters x cfg = true
  · exact Or.inr (Or.inr (Or.inr (Or.inr (Or.inl ⟨h1', h2', h3', h4', h5⟩))))
  · exact Or.inr (Or.inr (Or.inr (Or.inr (Or.inr ⟨h1', h2', h3', h4', by simpa using h5⟩))))

theorem strlen_cons_ne_zero (x : Char) (xs : List Char) (hb : NUL ∉ x :: xs) :
    ¬ strlen (x :: xs) = 0 := by
  rw [strlen_eq_length hb]
  simp

/-- The scan for joined words at an empty buffer. -/
theorem words_joined_loop_nil (cfg : parser_struct) (fuel : Nat) (w : Bool) :
    words_joined_loop cfg fuel [] w = false := by
  cases fuel with
  | zero => rfl
  | succ fuel => simp [words_joined_loop, strlen, cstr]

/-- The scan for joined words over a run of splitters. -/
theorem words_joined_splitters (cfg : parser_struct) (x : Char) (xs : List Char)
    (hb : NUL ∉ x :: xs) (fuel : Nat) (w : Bool)
    (h : 0 < length_of_initial_splitters (x :: xs) cfg) :
    words_joined_loop cfg (fuel + 1) (x :: xs) w =
      words_joined_loop cfg fuel
        ((x :: xs).drop (length_of_initial_splitters (x :: xs) cfg)) false := by
  rw [words_joined_loop]
  simp only [strlen_cons_ne_zero x xs hb, if_false, gt_iff_lt, h, if_true]

/-- The scan for joined words over a comment. -/
theorem words_joined_comment (cfg : parser_struct) (x : Char) (xs : List Char)
    (hb : NUL ∉ x :: xs) (fuel : Nat) (w : Bool) (hsp : is_splitters x cfg = false)
    (hcm : 0 < length_of_comment (x :: xs) cfg) :
    words_joined_loop cfg (fuel + 1) (x :: xs) w =
      words_joined_loop cfg fuel ((x :: xs).drop (length_of_comment (x :: xs) cfg)) w := by
  rw [words_joined_loop]
  simp only [strlen_cons_ne_zero x xs hb, if_false, gt_iff_lt,
    length_of_initial_splitters_cons cfg x xs hsp, Nat.lt_irrefl, hcm, if_true]

/-- The scan for joined words over a run of delete characters. -/
theorem words_joined_delete (cfg : parser_struct) (x : Char) (xs : List Char)
    (hb : NUL ∉ x :: xs) (fuel : Nat) (w : Bool) (hsp : is_splitters x cfg = false)
    (hcm : length_of_comment (x :: xs) cfg = 0)
    (hdel : 0 < length_of_delete (x :: xs) cfg) :
    words_joined_loop cfg (fuel + 1) (x :: xs) w =
      words_joined_loop cfg fuel ((x :: xs).drop (length_of_delete (x :: xs) cfg)) w := by
  rw [words_joined_loop]
  simp only [strlen_cons_ne_zero x xs hb, if_false, gt_iff_lt,
    length_of_initial_splitters_cons cfg x xs hsp, Nat.lt_irrefl, hcm, hdel, if_true]

/-- The scan for joined words over a special character. -/
theorem words_joined_special (cfg : parser_struct) (x : Char) (xs : List Char)
    (hb : NUL ∉ x :: xs) (fuel : Nat) (w : Bool) (hsp : is_splitters x cfg = false)
    (hcm : length_of_comment (x :: xs) cfg = 0) (hdel : is_in_delete_set x cfg = false)
    (hspc : is_special x cfg = true) :
    words_joined_loop cfg (fuel + 1) (x :: xs) w = words_joined_loop cfg fuel xs false := by
  rw [words_joined_loop]
  simp only [strlen_cons_ne_zero x xs hb, if_false, gt_iff_lt,
    length_of_initial_splitters_cons cfg x xs hsp, Nat.lt_irrefl, hcm,
    length_of_delete_cons cfg x xs hdel, charAt_cons_zero, hspc, if_true, List.drop_succ_cons,
    List.drop_zero]

/-- The scan for joined words over a quotation. -/
theorem words_joined_quote (cfg : parser_struct) (x : Char) (xs : List Char)
    (hb : NUL ∉ x :: xs) (fuel : Nat) (w : Bool) (hsp : is_splitters x cfg = false)
    (hcm : length_of_comment (x :: xs) cfg = 0) (hdel : is_in_delete_set x cfg = false)
    (hspc : is_special x cfg = false) (hqu : is_in_quoters x cfg = true) (n : Nat)
    (hq : length_of_quotation (x :: xs) = some n) :
    words_joined_loop cfg (fuel + 1) (x :: xs) w =
      words_joined_loop cfg fuel ((x :: xs).drop n) false := by
  rw [words_joined_loop]
  simp only [strlen_cons_ne_zero x xs hb, if_false, gt_iff_lt,
    length_of_initial_splitters_cons cfg x xs hsp, Nat.lt_irrefl, hcm,
    length_of_delete_cons cfg x xs hdel, charAt_cons_zero, hspc, hqu, if_true, hq,
    Bool.false_eq_true]

/-- The scan for joined words at a normal run: a word behind it is joined to it. -/
theorem words_joined_normal (cfg : parser_struct) (x : Char) (xs : List Char)
    (hb : NUL ∉ x :: xs) (fuel : Nat) (w : Bool) (hsp : is_splitters x cfg = false)
    (hcm : length_of_comment (x :: xs) cfg = 0) (hdel : is_in_delete_set x cfg = false)
    (hspc : is_special x cfg = false) (hqu : is_in_quoters x cfg = false) :
    words_joined_loop cfg (fuel + 1) (x :: xs) w =
      if w = true then true
      else words_joined_loop cfg fuel
        ((x :: xs).drop (length_of_normal_non_splitters (x :: xs) cfg)) true := by
  rw [words_joined_loop]
  simp only [strlen_cons_ne_zero x xs hb, if_false, gt_iff_lt,
    length_of_initial_splitters_cons cfg x xs hsp, Nat.lt_irrefl, hcm,
    length_of_delete_cons cfg x xs hdel, charAt_cons_zero, hspc, hqu, Bool.false_eq_true]

theorem length_of_initial_splitters_nil (cfg : parser_struct) :
    length_of_initial_splitters [] cfg = 0 := by
  unfold length_of_initial_splitters
  cases cfg.splitters <;> simp [strspn]

/-- The stripper copies a run of splitters at the head of the buffer. -/
theorem strip_splitter_run (cfg : parser_struct) (hsep : classes_separated cfg)
    (b : List Char) (hb : NUL ∉ b) :
    parser_strip_buffer cfg b =
        (parser_strip_buffer cfg (b.drop (length_of_initial_splitters b cfg))).map
          (fun t => b.take (length_of_initial_splitters b cfg) ++ t) ∧
      ∀ c ∈ b.take (length_of_initial_splitters b cfg), is_splitters c cfg = true := by
  induction b with
  | nil =>
    rw [length_of_initial_splitters_nil]
    exact ⟨(Outcome.map_nil_append _).symm, fun c hc => by cases hc⟩
  | cons x xs ih =>
    have hx : x ≠ NUL := fun e => hb (by simp [e])
    have hxs : NUL ∉ xs := fun e => hb (by simp [e])
    by_cases h1 : is_splitters x cfg = true
    · rcases head_cases cfg hsep x xs hx with ⟨_, hcm, hdel, hqu⟩ | h | h | h | h | h
      · obtain ⟨ih1, ih2⟩ := ih hxs
        rw [length_of_initial_splitters_cons_pos cfg x xs hx h1]
        refine ⟨?_, ?_⟩
        · rw [strip_copy cfg x xs hb hcm hdel hqu, ih1, Outcome.map_map]
          rfl
        · intro c hc
          rw [List.take_succ_cons] at hc
          rcases List.mem_cons.mp hc with e | e
          · rw [e]; exact h1
          · exact ih2 c e
      all_goals (rw [h1] at h; cases h.1)
    · have h1' : is_splitters x cfg = false := by simpa using h1
      rw [length_of_initial_splitters_cons cfg x xs h1']
      exact ⟨(Outcome.map_nil_append _).symm, fun c hc => by cases hc⟩

/-- The tokenizer passes over splitters at the head of the buffer. -/
theorem tokenize_splitter_run (cfg : parser_struct) (run rest : List Char) (s : Bool)
    (hb : NUL ∉ run ++ rest) (h : ∀ c ∈ run, is_splitters c cfg = true) :
    parser_tokenize_buffer cfg (run ++ rest) s = parser_tokenize_buffer cfg rest s := by
  induction run with
  | nil => rfl
  | cons c v ih =>
    have hv : NUL ∉ v ++ rest := fun e => hb (by simp at e ⊢; exact Or.inr e)
    rw [List.cons_append, tokenize_splitter_char cfg c (v ++ rest) s hb (h c (by simp))]
    exact ih hv (fun d hd => h d (List.mem_cons_of_mem _ hd))

/-- A scan for joined words that finds none behind a word finds none without the word. -/
theorem words_joined_loop_mono (cfg : parser_struct) (fuel : Nat) (b : List Char)
    (h : words_joined_loop cfg fuel b true = false) :
    words_joined_loop cfg fuel b false = false := by
  induction fuel generalizing b with
  | zero => rfl
  | succ fuel ih =>
    rw [words_joined_loop] at h ⊢
    by_cases c0 : strlen b = 0
    · simp only [c0, if_true]
    simp only [c0, if_false] at h ⊢
    by_cases c1 : length_of_initial_splitters b cfg > 0
    · simp only [c1, if_true] at h ⊢
      exact h
    simp only [c1, if_false] at h ⊢
    by_cases c2 : length_of_comment b cfg > 0
    · simp only [c2, if_true] at h ⊢
      exact ih _ h
    simp only [c2, if_false] at h ⊢
    by_cases c3 : length_of_delete b cfg > 0
    · simp only [c3, if_true] at h ⊢
      exact ih _ h
    simp only [c3, if_false] at h ⊢
    by_cases c4 : is_special (charAt b 0) cfg = true
    · simp only [c4, if_true] at h ⊢
      exact h
    simp only [c4, if_false] at h ⊢
    by_cases c5 : is_in_quoters (charAt b 0) cfg = true
    · simp only [c5, if_true] at h ⊢
      exact h
    simp only [c5, if_false, if_true] at h
    cases h

/-- Behind a word that is not joined to what follows, the stripper returns nothing or
begins with a splitter, a special or a quoter. -/
theorem strip_head_behind_word (cfg : parser_struct) (hsep : classes_separated cfg)
    (fuel : Nat) (b o : List Char) (hb : NUL ∉ b) (hfuel : b.length < fuel)
    (hj : words_joined_loop cfg fuel b true = false)
    (hS : parser_strip_buffer cfg b = Outcome.ok o) :
    o = [] ∨ is_boundary (charAt o 0) cfg = true := by
  induction fuel generalizing b with
  | zero => omega
  | succ fuel ih =>
    cases b with
    | nil =>
      rw [parser_strip_buffer_nil] at hS
      cases hS
      exact Or.inl rfl
    | cons x xs =>
      have hx : x ≠ NUL := fun e => hb (by simp [e])
      have hdropn : ∀ k, 0 < k → ((x :: xs).drop k).length < fuel := by
        intro k hk
        simp only [List.length_drop, List.length_cons] at hfuel ⊢
        omega
      rcases head_cases cfg hsep x xs hx with ⟨h1, hcm, hdel, hqu⟩ | ⟨h1, hcm⟩ |
        ⟨h1, hcm, hdel⟩ | ⟨h1, hcm, hdel, hspc, hqu⟩ | ⟨h1, hcm, hdel, hspc, hqu⟩ |
        ⟨h1, hcm, hdel, hspc, hqu⟩
      · rw [strip_copy cfg x xs hb hcm hdel hqu] at hS
        obtain ⟨o', _, rfl⟩ := Outcome.map_eq_ok hS
        exact Or.inr (by simp [is_boundary, charAt_cons_zero, h1])
      · rw [strip_comment cfg _ hb hcm] at hS
        rw [words_joined_comment cfg x xs hb fuel true h1 hcm] at hj
        exact ih _ (not_mem_drop hb _) (hdropn _ hcm) hj hS
      · have hd : 0 < length_of_delete (x :: xs) cfg := by
          rw [length_of_delete_cons_pos cfg x xs hx hdel]
          omega
        rw [strip_delete cfg _ hb hcm hd] at hS
        rw [words_joined_delete cfg x xs hb fuel true h1 hcm hd] at hj
        exact ih _ (not_mem_drop hb _) (hdropn _ hd) hj hS
      · rw [strip_copy cfg x xs hb hcm hdel hqu] at hS
        obtain ⟨o', _, rfl⟩ := Outcome.map_eq_ok hS
        exact Or.inr (by simp [is_boundary, charAt_cons_zero, hspc])
      · rw [strip_quote cfg x xs hb hcm hdel hqu] at hS
        cases hq : length_of_quotation (x :: xs) with
        | none => rw [hq] at hS; cases hS
        | some n =>
          rw [hq] at hS
          obtain ⟨t, _, rfl⟩ := Outcome.map_eq_ok hS
          obtain ⟨m, rfl⟩ : ∃ m, n = m + 1 := ⟨n - 1, by have := length_of_quotation_ge hq; omega⟩
          exact Or.inr (by simp [is_boundary, charAt, hqu])
      · rw [words_joined_normal cfg x xs hb fuel true h1 hcm hdel hspc hqu] at hj
        simp at hj

theorem Outcome.map_injective {α β : Type} {f : α → β} (hf : ∀ a b, f a = f b → a = b)
    {o1 o2 : Outcome α} (h : o1.map f = o2.map f) : o1 = o2 := by
  cases o1 <;> cases o2 <;> simp only [Outcome.map] at h <;> first
    | rfl
    | (rw [hf _ _ (Outcome.ok.inj h)])
    | cases h

/-- Where the stripper succeeds, the tokenizer does not abort. -/
theorem tokenize_ok_of_strip_ok (cfg : parser_struct) (hsep : classes_separated cfg)
    (s : Bool) (fuel : Nat) (b o : List Char) (hb : NUL ∉ b) (hfuel : b.length < fuel)
    (hS : parser_strip_buffer cfg b = Outcome.ok o) :
    ∃ T, parser_tokenize_buffer cfg b s = Outcome.ok T := by
  induction fuel generalizing b o with
  | zero => omega
  | succ fuel ih =>
    cases b with
    | nil => exact ⟨[], rfl⟩
    | cons x xs =>
      have hx : x ≠ NUL := fun e => hb (by simp [e])
      have hxs : NUL ∉ xs := fun e => hb (by simp [e])
      have hdropn : ∀ k, 0 < k → ((x :: xs).drop k).length < fuel := by
        intro k hk
        simp only [List.length_drop, List.length_cons] at hfuel ⊢
        omega
      rcases head_cases cfg hsep x xs hx with ⟨h1, hcm, hdel, hqu⟩ | ⟨h1, hcm⟩ |
        ⟨h1, hcm, hdel⟩ | ⟨h1, hcm, hdel, hspc, hqu⟩ | ⟨h1, hcm, hdel, hspc, hqu⟩ |
        ⟨h1, hcm, hdel, hspc, hqu⟩
      · rw [strip_copy cfg x xs hb hcm hdel hqu] at hS
        obtain ⟨o', ho', _⟩ := Outcome.map_eq_ok hS
        rw [tokenize_splitter_char cfg x xs s hb h1]
        exact ih xs o' hxs (by simpa using hdropn 1 (by omega)) ho'
      · rw [strip_comment cfg _ hb hcm] at hS
        rw [tokenize_comment cfg x xs s hb h1 hcm]
        exact ih _ o (not_mem_drop hb _) (hdropn _ hcm) hS
      · have hd : 0 < length_of_delete (x :: xs) cfg := by
          rw [length_of_delete_cons_pos cfg x xs hx hdel]
          omega
        rw [strip_delete cfg _ hb hcm hd] at hS
        rw [tokenize_delete cfg x xs s hb h1 hcm hd]
        exact ih _ o (not_mem_drop hb _) (hdropn _ hd) hS
      · rw [strip_copy cfg x xs hb hcm hdel hqu] at hS
        obtain ⟨o', ho', _⟩ := Outcome.map_eq_ok hS
        obtain ⟨T, hT⟩ := ih xs o' hxs (by simpa using hdropn 1 (by omega)) ho'
        rw [tokenize_special cfg x xs s hb h1 hcm hdel hspc, hT]
        exact ⟨_, rfl⟩
      · rw [strip_quote cfg x xs hb hcm hdel hqu] at hS
        rw [tokenize_quote cfg x xs s hb h1 hcm hdel hspc hqu]
        cases hq : length_of_quotation (x :: xs) with
        | none => rw [hq] at hS; cases hS
        | some k =>
          rw [hq] at hS
          simp only at hS ⊢
          obtain ⟨o', ho', _⟩ := Outcome.map_eq_ok hS
          have hk := length_of_quotation_ge hq
          obtain ⟨T, hT⟩ := ih _ o' (not_mem_drop hb _) (hdropn k (by omega)) ho'
          rw [hT]
          exact ⟨_, rfl⟩
      · obtain ⟨w, rest, rfl, hl, hp, _⟩ := normal_run_structure cfg xs x 0 hx hxs
        have hrest0 : NUL ∉ rest := fun e => hxs (List.mem_append.mpr (Or.inr e))
        have hlen : length_of_normal_non_splitters (x :: (w ++ rest)) cfg = 1 + w.length := by
          rw [length_of_normal_non_splitters, hl, Nat.zero_add]
        have hdrop : (x :: (w ++ rest)).drop (1 + w.length) = rest := by
          rw [Nat.add_comm, List.drop_succ_cons, List.drop_left' rfl]
        have hrl : rest.length < fuel := by
          simp only [List.length_cons, List.length_append] at hfuel
          omega
        rw [strip_copy cfg x (w ++ rest) hb hcm hdel hqu, strip_plain_run cfg hsep w rest hxs hp,
          Outcome.map_map] at hS
        obtain ⟨orest, horest, _⟩ := Outcome.map_eq_ok hS
        obtain ⟨T, hT⟩ := ih rest orest hrest0 hrl horest
        rw [tokenize_normal cfg x (w ++ rest) s hb h1 hcm hdel hspc hqu, hlen, hdrop, hT]
        exact ⟨_, rfl⟩

/-- The head of what the stripper returns: nothing, or a splitter, a special or a quoter,
or a character of a word. -/
theorem strip_head_cases (cfg : parser_struct) (hsep : classes_separated cfg)
    (fuel : Nat) (b o : List Char) (hb : NUL ∉ b) (hfuel : b.length < fuel)
    (hS : parser_strip_buffer cfg b = Outcome.ok o) :
    o = [] ∨ is_boundary (charAt o 0) cfg = true ∨
      ∃ y o', o = y :: o' ∧ is_boundary y cfg = false ∧ is_in_delete_set y cfg = false := by
  induction fuel generalizing b with
  | zero => omega
  | succ fuel ih =>
    cases b with
    | nil =>
      rw [parser_strip_buffer_nil] at hS
      cases hS
      exact Or.inl rfl
    | cons x xs =>
      have hx : x ≠ NUL := fun e => hb (by simp [e])
      have hdropn : ∀ k, 0 < k → ((x :: xs).drop k).length < fuel := by
        intro k hk
        simp only [List.length_drop, List.length_cons] at hfuel ⊢
        omega
      rcases head_cases cfg hsep x xs hx with ⟨h1, hcm, hdel, hqu⟩ | ⟨h1, hcm⟩ |
        ⟨h1, hcm, hdel⟩ | ⟨h1, hcm, hdel, hspc, hqu⟩ | ⟨h1, hcm, hdel, hspc, hqu⟩ |
        ⟨h1, hcm, hdel, hspc, hqu⟩
      · rw [strip_copy cfg x xs hb hcm hdel hqu] at hS
        obtain ⟨o', _, rfl⟩ := Outcome.map_eq_ok hS
        exact Or.inr (Or.inl (by simp [is_boundary, charAt_cons_zero, h1]))
      · rw [strip_comment cfg _ hb hcm] at hS
        exact ih _ (not_mem_drop hb _) (hdropn _ hcm) hS
      · have hd : 0 < length_of_delete (x :: xs) cfg := by
          rw [length_of_delete_cons_pos cfg x xs hx hdel]
          omega
        rw [strip_delete cfg _ hb hcm hd] at hS
        exact ih _ (not_mem_drop hb _) (hdropn _ hd) hS
      · rw [strip_copy cfg x xs hb hcm hdel hqu] at hS
        obtain ⟨o', _, rfl⟩ := Outcome.map_eq_ok hS
        exact Or.inr (Or.inl (by simp [is_boundary, charAt_cons_zero, hspc]))
      · rw [strip_quote cfg x xs hb hcm hdel hqu] at hS
        cases hq : length_of_quotation (x :: xs) with
        | none => rw [hq] at hS; cases hS
        | some n =>
          rw [hq] at hS
          obtain ⟨t, _, rfl⟩ := Outcome.map_eq_ok hS
          obtain ⟨m, rfl⟩ : ∃ m, n = m + 1 := ⟨n - 1, by have := length_of_quotation_ge hq; omega⟩
          exact Or.inr (Or.inl (by simp [is_boundary, charAt, hqu]))
      · rw [strip_copy cfg x xs hb hcm hdel hqu] at hS
        obtain ⟨o', _, rfl⟩ := Outcome.map_eq_ok hS
        exact Or.inr (Or.inr ⟨x, o', rfl, by simp [is_boundary, h1, hspc, hqu], hdel⟩)

/-- When what the stripper returns is nothing or begins with a splitter, a special or a
quoter, a word behind the buffer makes no difference to the scan for joined words. -/
theorem words_joined_loop_behind_boundary (cfg : parser_struct)
    (hsep : classes_separated cfg) (fuel : Nat) (b o : List Char) (hb : NUL ∉ b)
    (hfuel : b.length < fuel) (hS : parser_strip_buffer cfg b = Outcome.ok o)
    (ho : o = [] ∨ is_boundary (charAt o 0) cfg = true) :
    words_joined_loop cfg fuel b true = words_joined_loop cfg fuel b false := by
  induction fuel generalizing b with
  | zero => omega
  | succ fuel ih =>
    cases b with
    | nil => rw [words_joined_loop_nil, words_joined_loop_nil]
    | cons x xs =>
      have hx : x ≠ NUL := fun e => hb (by simp [e])
      have hdropn : ∀ k, 0 < k → ((x :: xs).drop k).length < fuel := by
        intro k hk
        simp only [List.length_drop, List.length_cons] at hfuel ⊢
        omega
      rcases head_cases cfg hsep x xs hx with ⟨h1, hcm, hdel, hqu⟩ | ⟨h1, hcm⟩ |
        ⟨h1, hcm, hdel⟩ | ⟨h1, hcm, hdel, hspc, hqu⟩ | ⟨h1, hcm, hdel, hspc, hqu⟩ |
        ⟨h1, hcm, hdel, hspc, hqu⟩
      · have hn : 0 < length_of_initial_splitters (x :: xs) cfg := by
          rw [length_of_initial_splitters_cons_pos cfg x xs hx h1]
          omega
        rw [words_joined_splitters cfg x xs hb fuel true hn,
          words_joined_splitters cfg x xs hb fuel false hn]
      · rw [strip_comment cfg _ hb hcm] at hS
        rw [words_joined_comment cfg x xs hb fuel true h1 hcm,
          words_joined_comment cfg x xs hb fuel false h1 hcm]
        exact ih _ (not_mem_drop hb _) (hdropn _ hcm) hS
      · have hd : 0 < length_of_delete (x :: xs) cfg := by
          rw [length_of_delete_cons_pos cfg x xs hx hdel]
          omega
        rw [strip_delete cfg _ hb hcm hd] at hS
        rw [words_joined_delete cfg x xs hb fuel true h1 hcm hd,
          words_joined_delete cfg x xs hb fuel false h1 hcm hd]
        exact ih _ (not_mem_drop hb _) (hdropn _ hd) hS
      · rw [words_joined_special cfg x xs hb fuel true h1 hcm hdel hspc,
          words_joined_special cfg x xs hb fuel false h1 hcm hdel hspc]
      · cases hq : length_of_quotation (x :: xs) with
        | none =>
          rw [strip_quote cfg x xs hb hcm hdel hqu, hq] at hS
          cases hS
        | some n =>
          rw [words_joined_quote cfg x xs hb fuel true h1 hcm hdel hspc hqu n hq,
            words_joined_quote cfg x xs hb fuel false h1 hcm hdel hspc hqu n hq]
      · rw [strip_copy cfg x xs hb hcm hdel hqu] at hS
        obtain ⟨o', _, rfl⟩ := Outcome.map_eq_ok hS
        rcases ho with ho | ho
        · cases ho
        · simp [is_boundary, charAt_cons_zero, h1, hspc, hqu] at ho

theorem normal_run_without_comments_ge (cfg : parser_struct) (v o : List Char) (x : Char)
    (len : Nat) (hx : x ≠ NUL) (hv0 : NUL ∉ v) (hv : ∀ c ∈ v, is_boundary c cfg = false) :
    len + 1 + v.length ≤
      length_of_normal_non_splitters_loop (without_comments cfg) (x :: (v ++ o)) len := by
  induction v generalizing x len with
  | nil =>
    have := length_of_normal_non_splitters_loop_pos (without_comments cfg) x o len hx
    simp only [List.nil_append, List.length_nil]
    omega
  | cons d v ih =>
    have hd : d ≠ NUL := fun e => hv0 (by simp [e])
    have hv' : NUL ∉ v := fun e => hv0 (by simp [e])
    have hb := hv d (by simp)
    simp only [is_boundary, Bool.or_eq_false_iff] at hb
    rw [List.cons_append, length_of_normal_non_splitters_loop]
    simp only [hx, if_false, charAt_cons_zero, is_splitters_without_comments,
      is_special_without_comments, is_in_quoters_without_comments,
      length_of_comment_without_comments, hb.1.1, hb.1.2, hb.2, gt_iff_lt, Nat.lt_irrefl,
      Bool.false_eq_true]
    have := ih d (len + 1) hd hv' (fun c hc => hv c (List.mem_cons_of_mem _ hc))
    simp only [List.length_cons]
    omega

theorem normal_token_length_ge (cfg : parser_struct) (v r : List Char) (L : Nat)
    (hL : v.length ≤ L) (hv : ∀ c ∈ v, is_in_delete_set c cfg = false) :
    v.length ≤ (normal_token (v ++ r) L cfg).length := by
  have htake : (v ++ r).take L = v ++ r.take (L - v.length) := by
    rw [List.take_append_eq_append_take, List.take_of_length_le hL]
  unfold normal_token
  rw [htake]
  cases cfg.delete_set with
  | none =>
    simp only [List.length_append]
    omega
  | some ds =>
    have hf : v.filter (fun c => !is_in_delete_set c cfg) = v :=
      List.filter_eq_self.mpr (fun c hc => by simp [hv c hc])
    simp only [List.filter_append, hf, List.length_append]
    omega

/-- With two words joined, tokenizing what the stripper returns does not give what
tokenizing the buffer gives: the tokenizer has the two words apart. -/
theorem round_trip_fails_of_joined (cfg : parser_struct) (hsep : classes_separated cfg)
    (s : Bool) (fuel : Nat) (b o : List Char) (hb : NUL ∉ b) (hfuel : b.length < fuel)
    (hj : words_joined_loop cfg fuel b false = true)
    (hS : parser_strip_buffer cfg b = Outcome.ok o) :
    parser_tokenize_buffer (without_comments cfg) o s ≠ parser_tokenize_buffer cfg b s := by
  induction fuel generalizing b o with
  | zero => omega
  | succ fuel ih =>
    cases b with
    | nil =>
      rw [words_joined_loop_nil] at hj
      cases hj
    | cons x xs =>
      have hx : x ≠ NUL := fun e => hb (by simp [e])
      have hxs : NUL ∉ xs := fun e => hb (by simp [e])
      have ho0 : NUL ∉ o := strip_output_no_NUL cfg _ o hb hS
      have hdropn : ∀ k, 0 < k → ((x :: xs).drop k).length < fuel := by
        intro k hk
        simp only [List.length_drop, List.length_cons] at hfuel ⊢
        omega
      rcases head_cases cfg hsep x xs hx with ⟨h1, hcm, hdel, hqu⟩ | ⟨h1, hcm⟩ |
        ⟨h1, hcm, hdel⟩ | ⟨h1, hcm, hdel, hspc, hqu⟩ | ⟨h1, hcm, hdel, hspc, hqu⟩ |
        ⟨h1, hcm, hdel, hspc, hqu⟩
      · -- a run of splitters
        have hn : 0 < length_of_initial_splitters (x :: xs) cfg := by
          rw [length_of_initial_splitters_cons_pos cfg x xs hx h1]
          omega
        obtain ⟨hrun, hall⟩ := strip_splitter_run cfg hsep (x :: xs) hb
        rw [hrun] at hS
        obtain ⟨o', ho', rfl⟩ := Outcome.map_eq_ok hS
        rw [words_joined_splitters cfg x xs hb fuel false hn] at hj
        rw [tokenize_splitter_run (without_comments cfg) _ o' s ho0 hall,
          tokenize_splitters cfg _ s hb hn]
        exact ih _ o' (not_mem_drop hb _) (hdropn _ hn) hj ho'
      · -- a comment
        rw [strip_comment cfg _ hb hcm] at hS
        rw [words_joined_comment cfg x xs hb fuel false h1 hcm] at hj
        rw [tokenize_comment cfg x xs s hb h1 hcm]
        exact ih _ o (not_mem_drop hb _) (hdropn _ hcm) hj hS
      · -- a run of delete characters
        have hd : 0 < length_of_delete (x :: xs) cfg := by
          rw [length_of_delete_cons_pos cfg x xs hx hdel]
          omega
        rw [strip_delete cfg _ hb hcm hd] at hS
        rw [words_joined_delete cfg x xs hb fuel false h1 hcm hd] at hj
        rw [tokenize_delete cfg x xs s hb h1 hcm hd]
        exact ih _ o (not_mem_drop hb _) (hdropn _ hd) hj hS
      · -- a special character
        rw [strip_copy cfg x xs hb hcm hdel hqu] at hS
        obtain ⟨o', ho', rfl⟩ := Outcome.map_eq_ok hS
        rw [words_joined_special cfg x xs hb fuel false h1 hcm hdel hspc] at hj
        rw [tokenize_special (without_comments cfg) x o' s ho0 h1 rfl hdel hspc,
          tokenize_special cfg x xs s hb h1 hcm hdel hspc]
        intro heq
        exact ih xs o' hxs (by simpa using hdropn 1 (by omega)) hj ho'
          (Outcome.map_injective (fun a b e => (List.cons.inj e).2) heq)
      · -- a quotation
        rw [strip_quote cfg x xs hb hcm hdel hqu] at hS
        rw [tokenize_quote cfg x xs s hb h1 hcm hdel hspc hqu]
        cases hq : length_of_quotation (x :: xs) with
        | none =>
          rw [hq] at hS
          cases hS
        | some k =>
          rw [hq] at hS
          simp only at hS ⊢
          obtain ⟨o', ho', rfl⟩ := Outcome.map_eq_ok hS
          rw [words_joined_quote cfg x xs hb fuel false h1 hcm hdel hspc hqu k hq] at hj
          have hk := length_of_quotation_ge hq
          have hkle := length_of_quotation_le hq
          have htake : (x :: xs).take k = x :: xs.take (k - 1) := by
            obtain ⟨m, rfl⟩ : ∃ m, k = m + 1 := ⟨k - 1, by omega⟩
            simp
          have hlen2 : (x :: xs.take (k - 1)).length = k := by
            rw [← htake, List.length_take]
            omega
          have hqo : length_of_quotation (x :: (xs.take (k - 1) ++ o')) = some k := by
            have := length_of_quotation_append ((x :: xs).take k) o' k (by rw [htake]; simp)
              (length_of_quotation_take _ k hq)
            rwa [htake] at this
          rw [htake, List.cons_append] at ho0 ⊢
          have hd : (x :: (xs.take (k - 1) ++ o')).drop k = o' := by
            rw [← List.cons_append, List.drop_left' hlen2]
          have ht : (x :: (xs.take (k - 1) ++ o')).take k = (x :: xs).take k := by
            rw [← List.cons_append, List.take_left' hlen2, htake]
          have htok : alloc_quoted_token (x :: (xs.take (k - 1) ++ o')) k s =
              alloc_quoted_token (x :: xs) k s := by
            rw [← alloc_quoted_token_take _ k s (by omega), ht,
              alloc_quoted_token_take _ k s (by omega)]
          rw [tokenize_quote (without_comments cfg) x _ s ho0 h1 rfl hdel hspc hqu, hqo]
          simp only
          rw [hd, htok]
          intro heq
          exact ih _ o' (not_mem_drop hb _) (hdropn k (by omega)) hj ho'
            (Outcome.map_injective (fun a b e => (List.cons.inj e).2) heq)
      · -- a normal run
        obtain ⟨w, rest, rfl, hl, hp, _⟩ := normal_run_structure cfg xs x 0 hx hxs
        have hw0 : NUL ∉ w ++ rest := hxs
        have hrest0 : NUL ∉ rest := fun e => hxs (List.mem_append.mpr (Or.inr e))
        have hlen : length_of_normal_non_splitters (x :: (w ++ rest)) cfg = 1 + w.length := by
          rw [length_of_normal_non_splitters, hl, Nat.zero_add]
        have hdrop : (x :: (w ++ rest)).drop (1 + w.length) = rest := by
          rw [Nat.add_comm, List.drop_succ_cons, List.drop_left' rfl]
        rw [words_joined_normal cfg x (w ++ rest) hb fuel false h1 hcm hdel hspc hqu, hlen,
          hdrop] at hj
        simp only [Bool.false_eq_true, if_false] at hj
        have hrl : rest.length < fuel := by
          simp only [List.length_cons, List.length_append] at hfuel
          omega
        rw [strip_copy cfg x (w ++ rest) hb hcm hdel hqu, strip_plain_run cfg hsep w rest hw0 hp,
          Outcome.map_map] at hS
        obtain ⟨orest, horest, rfl⟩ := Outcome.map_eq_ok hS
        have hfw0 : NUL ∉ w.filter (fun c => !is_in_delete_set c cfg) :=
          fun e => hw0 (List.mem_append.mpr (Or.inl (List.mem_of_mem_filter e)))
        have hfw : ∀ c ∈ w.filter (fun c => !is_in_delete_set c cfg), is_boundary c cfg = false :=
          fun c hc => all_plain_not_boundary hp c (List.mem_of_mem_filter hc)
        have ho1 : NUL ∉ x :: (w.filter (fun c => !is_in_delete_set c cfg) ++ orest) := by
          simpa using And.intro (Ne.symm hx) (And.intro hfw0
            (strip_output_no_NUL cfg rest orest hrest0 horest))
        show parser_tokenize_buffer (without_comments cfg)
          (x :: (w.filter (fun c => !is_in_delete_set c cfg) ++ orest)) s ≠ _
        rcases strip_head_cases cfg hsep fuel rest orest hrest0 hrl horest with he | hbd |
          ⟨y, o'', rfl, hyb, hyd⟩
        · -- the words are joined further on
          have hstop : orest = [] ∨ is_boundary (charAt orest 0) cfg = true := Or.inl he
          have hj' : words_joined_loop cfg fuel rest false = true := by
            rw [← words_joined_loop_behind_boundary cfg hsep fuel rest orest hrest0 hrl horest
              hstop]
            exact hj
          have hlen' : length_of_normal_non_splitters
              (x :: (w.filter (fun c => !is_in_delete_set c cfg) ++ orest))
              (without_comments cfg) =
              1 + (w.filter (fun c => !is_in_delete_set c cfg)).length := by
            rw [length_of_normal_non_splitters,
              normal_run_without_comments cfg _ orest x 0 hx hfw0 hfw hstop, Nat.zero_add]
          have htok' : normal_token
              (x :: (w.filter (fun c => !is_in_delete_set c cfg) ++ orest))
              (1 + (w.filter (fun c => !is_in_delete_set c cfg)).length) (without_comments cfg) =
              x :: w.filter (fun c => !is_in_delete_set c cfg) := by
            rw [normal_token_without_comments, normal_token_run cfg x _ orest hdel,
              List.filter_filter]
            simp
          have hdrop' : (x :: (w.filter (fun c => !is_in_delete_set c cfg) ++ orest)).drop
              (1 + (w.filter (fun c => !is_in_delete_set c cfg)).length) = orest := by
            rw [Nat.add_comm, List.drop_succ_cons, List.drop_left' rfl]
          rw [tokenize_normal (without_comments cfg) x _ s ho1 h1 rfl hdel hspc hqu,
            tokenize_normal cfg x (w ++ rest) s hb h1 hcm hdel hspc hqu, hlen, hlen', htok',
            normal_token_run cfg x w rest hdel, hdrop, hdrop']
          intro heq
          refine ih rest orest hrest0 hrl hj' horest (Outcome.map_injective ?_ heq)
          intro a b e
          simpa using e
        · have hstop : orest = [] ∨ is_boundary (charAt orest 0) cfg = true := Or.inr hbd
          have hj' : words_joined_loop cfg fuel rest false = true := by
            rw [← words_joined_loop_behind_boundary cfg hsep fuel rest orest hrest0 hrl horest
              hstop]
            exact hj
          have hlen' : length_of_normal_non_splitters
              (x :: (w.filter (fun c => !is_in_delete_set c cfg) ++ orest))
              (without_comments cfg) =
              1 + (w.filter (fun c => !is_in_delete_set c cfg)).length := by
            rw [length_of_normal_non_splitters,
              normal_run_without_comments cfg _ orest x 0 hx hfw0 hfw hstop, Nat.zero_add]
          have htok' : normal_token
              (x :: (w.filter (fun c => !is_in_delete_set c cfg) ++ orest))
              (1 + (w.filter (fun c => !is_in_delete_set c cfg)).length) (without_comments cfg) =
              x :: w.filter (fun c => !is_in_delete_set c cfg) := by
            rw [normal_token_without_comments, normal_token_run cfg x _ orest hdel,
              List.filter_filter]
            simp
          have hdrop' : (x :: (w.filter (fun c => !is_in_delete_set c cfg) ++ orest)).drop
              (1 + (w.filter (fun c => !is_in_delete_set c cfg)).length) = orest := by
            rw [Nat.add_comm, List.drop_succ_cons, List.drop_left' rfl]
          rw [tokenize_normal (without_comments cfg) x _ s ho1 h1 rfl hdel hspc hqu,
            tokenize_normal cfg x (w ++ rest) s hb h1 hcm hdel hspc hqu, hlen, hlen', htok',
            normal_token_run cfg x w rest hdel, hdrop, hdrop']
          intro heq
          refine ih rest orest hrest0 hrl hj' horest (Outcome.map_injective ?_ heq)
          intro a b e
          simpa using e
        · -- the next word follows at once
          obtain ⟨T2, hT2⟩ := tokenize_ok_of_strip_ok cfg hsep s fuel rest (y :: o'') hrest0 hrl
            horest
          have hyn : y ≠ NUL := fun e => ho1 (by simp [e])
          have hre : x :: (w.filter (fun c => !is_in_delete_set c cfg) ++ y :: o'') =
              (x :: (w.filter (fun c => !is_in_delete_set c cfg) ++ [y])) ++ o'' := by
            simp
          have hrun := normal_run_without_comments_ge cfg
            (w.filter (fun c => !is_in_delete_set c cfg) ++ [y]) o'' x 0 hx
            (by
              intro e
              rcases List.mem_append.mp e with e | e
              · exact hfw0 e
              · exact hyn (List.mem_singleton.mp e).symm)
            (by
              intro c hc
              rcases List.mem_append.mp hc with e | e
              · exact hfw c e
              · rw [List.mem_singleton.mp e]; exact hyb)
          have htl := normal_token_length_ge (without_comments cfg)
            (x :: (w.filter (fun c => !is_in_delete_set c cfg) ++ [y])) o''
            (length_of_normal_non_splitters
              (x :: (w.filter (fun c => !is_in_delete_set c cfg) ++ y :: o''))
              (without_comments cfg))
            (by
              rw [length_of_normal_non_splitters, hre]
              simp only [List.cons_append, List.length_cons] at hrun ⊢
              omega)
            (by
              intro c hc
              rcases List.mem_cons.mp hc with e | e
              · rw [e]; exact hdel
              · rcases List.mem_append.mp e with e | e
                · have := (List.mem_filter.mp e).2
                  simpa using this
                · rw [List.mem_singleton.mp e]; exact hyd)
          rw [← hre] at htl
          rw [tokenize_normal (without_comments cfg) x _ s ho1 h1 rfl hdel hspc hqu,
            tokenize_normal cfg x (w ++ rest) s hb h1 hcm hdel hspc hqu, hlen,
            normal_token_run cfg x w rest hdel, hdrop, hT2]
          intro heq
          obtain ⟨t, _, ht⟩ := Outcome.map_eq_ok heq
          simp only [List.length_cons, List.length_append, List.length_singleton, gt_iff_lt,
            Nat.zero_lt_succ, if_true] at ht htl
          rw [if_pos (by omega)] at ht
          have := congrArg List.length (List.cons.inj ht).1
          simp only [List.length_cons] at this
          omega

/-- C6, as the code has it: when the classes of the configuration are kept apart (no quoter
is a splitter or a special, no delete character is a splitter, the comment start begins with
neither a splitter nor a delete character) and the stripper succeeds on the buffer, then
tokenizing what it returns, with the comment delimiters unset and the rest of the
configuration unchanged, gives what tokenizing the buffer itself gives exactly when no two
words of the buffer are joined, that is when no two normal runs of the tokenizer have
nothing but comments and runs of delete characters between them; for both values of
`strip_quote_marks`. -/
theorem strip_then_tokenize (cfg : parser_struct) (hsep : classes_separated cfg)
    (strip_quote_marks : Bool) (buffer stripped : List Char) (hb : NUL ∉ buffer)
    (hS : parser_strip_buffer cfg buffer = Outcome.ok stripped) :
    parser_tokenize_buffer (without_comments cfg) stripped strip_quote_marks =
        parser_tokenize_buffer cfg buffer strip_quote_marks ↔
      words_joined cfg buffer = false := by
  rename' strip_quote_marks => s
  have hfuel : buffer.length < strlen buffer + 1 := by
    rw [strlen_eq_length hb]
    omega
  have key : ∀ (fuel : Nat) (b o : List Char), NUL ∉ b → b.length < fuel →
      words_joined_loop cfg fuel b false = false →
      parser_strip_buffer cfg b = Outcome.ok o →
      parser_tokenize_buffer (without_comments cfg) o s = parser_tokenize_buffer cfg b s := by
    intro fuel
    induction fuel with
    | zero =>
      intro b o _ hfuel
      omega
    | succ fuel ih =>
      intro b o hb hfuel hj hS
      cases b with
      | nil =>
        rw [parser_strip_buffer_nil] at hS
        cases hS
        rfl
      | cons x xs =>
        have hx : x ≠ NUL := fun e => hb (by simp [e])
        have hxs : NUL ∉ xs := fun e => hb (by simp [e])
        have ho0 : NUL ∉ o := strip_output_no_NUL cfg _ o hb hS
        have hdropn : ∀ k, 0 < k → ((x :: xs).drop k).length < fuel := by
          intro k hk
          simp only [List.length_drop, List.length_cons] at hfuel ⊢
          omega
        rcases head_cases cfg hsep x xs hx with ⟨h1, hcm, hdel, hqu⟩ | ⟨h1, hcm⟩ |
          ⟨h1, hcm, hdel⟩ | ⟨h1, hcm, hdel, hspc, hqu⟩ | ⟨h1, hcm, hdel, hspc, hqu⟩ |
          ⟨h1, hcm, hdel, hspc, hqu⟩
        · -- a run of splitters
          have hn : 0 < length_of_initial_splitters (x :: xs) cfg := by
            rw [length_of_initial_splitters_cons_pos cfg x xs hx h1]
            omega
          obtain ⟨hrun, hall⟩ := strip_splitter_run cfg hsep (x :: xs) hb
          rw [hrun] at hS
          obtain ⟨o', ho', rfl⟩ := Outcome.map_eq_ok hS
          rw [words_joined_splitters cfg x xs hb fuel false hn] at hj
          rw [tokenize_splitter_run (without_comments cfg) _ o' s ho0 hall,
            tokenize_splitters cfg _ s hb hn]
          exact ih _ o' (not_mem_drop hb _) (hdropn _ hn) hj ho'
        · -- a comment
          rw [strip_comment cfg _ hb hcm] at hS
          rw [words_joined_comment cfg x xs hb fuel false h1 hcm] at hj
          rw [tokenize_comment cfg x xs s hb h1 hcm]
          exact ih _ o (not_mem_drop hb _) (hdropn _ hcm) hj hS
        · -- a run of delete characters
          have hd : 0 < length_of_delete (x :: xs) cfg := by
            rw [length_of_delete_cons_pos cfg x xs hx hdel]
            omega
          rw [strip_delete cfg _ hb hcm hd] at hS
          rw [words_joined_delete cfg x xs hb fuel false h1 hcm hd] at hj
          rw [tokenize_delete cfg x xs s hb h1 hcm hd]
          exact ih _ o (not_mem_drop hb _) (hdropn _ hd) hj hS
        · -- a special character
          rw [strip_copy cfg x xs hb hcm hdel hqu] at hS
          obtain ⟨o', ho', rfl⟩ := Outcome.map_eq_ok hS
          rw [words_joined_special cfg x xs hb fuel false h1 hcm hdel hspc] at hj
          rw [tokenize_special (without_comments cfg) x o' s ho0 h1 rfl hdel hspc,
            tokenize_special cfg x xs s hb h1 hcm hdel hspc,
            ih xs o' hxs (by simpa using hdropn 1 (by omega)) hj ho']
        · -- a quotation
          rw [strip_quote cfg x xs hb hcm hdel hqu] at hS
          rw [tokenize_quote cfg x xs s hb h1 hcm hdel hspc hqu]
          cases hq : length_of_quotation (x :: xs) with
          | none =>
            rw [hq] at hS
            cases hS
          | some k =>
            rw [hq] at hS
            simp only at hS ⊢
            obtain ⟨o', ho', rfl⟩ := Outcome.map_eq_ok hS
            rw [words_joined_quote cfg x xs hb fuel false h1 hcm hdel hspc hqu k hq] at hj
            have hk := length_of_quotation_ge hq
            have hkle := length_of_quotation_le hq
            have htake : (x :: xs).take k = x :: xs.take (k - 1) := by
              obtain ⟨m, rfl⟩ : ∃ m, k = m + 1 := ⟨k - 1, by omega⟩
              simp
            have hlen2 : (x :: xs.take (k - 1)).length = k := by
              rw [← htake, List.length_take]
              omega
            have hqo : length_of_quotation (x :: (xs.take (k - 1) ++ o')) = some k := by
              have := length_of_quotation_append ((x :: xs).take k) o' k (by rw [htake]; simp)
                (length_of_quotation_take _ k hq)
              rwa [htake] at this
            rw [htake, List.cons_append] at ho0 ⊢
            have hd : (x :: (xs.take (k - 1) ++ o')).drop k = o' := by
              rw [← List.cons_append, List.drop_left' hlen2]
            have ht : (x :: (xs.take (k - 1) ++ o')).take k = (x :: xs).take k := by
              rw [← List.cons_append, List.take_left' hlen2, htake]
            have htok : alloc_quoted_token (x :: (xs.take (k - 1) ++ o')) k s =
                alloc_quoted_token (x :: xs) k s := by
              rw [← alloc_quoted_token_take _ k s (by omega), ht,
                alloc_quoted_token_take _ k s (by omega)]
            rw [tokenize_quote (without_comments cfg) x _ s ho0 h1 rfl hdel hspc hqu, hqo]
            simp only
            rw [hd, htok, ih _ o' (not_mem_drop hb _) (hdropn k (by omega)) hj ho']
        · -- a normal run
          obtain ⟨w, rest, rfl, hl, hp, _⟩ := normal_run_structure cfg xs x 0 hx hxs
          have hw0 : NUL ∉ w ++ rest := hxs
          have hrest0 : NUL ∉ rest := fun e => hxs (List.mem_append.mpr (Or.inr e))
          have hlen : length_of_normal_non_splitters (x :: (w ++ rest)) cfg = 1 + w.length := by
            rw [length_of_normal_non_splitters, hl, Nat.zero_add]
          have hdrop : (x :: (w ++ rest)).drop (1 + w.length) = rest := by
            rw [Nat.add_comm, List.drop_succ_cons, List.drop_left' rfl]
          rw [words_joined_normal cfg x (w ++ rest) hb fuel false h1 hcm hdel hspc hqu, hlen,
            hdrop] at hj
          simp only [Bool.false_eq_true, if_false] at hj
          have hrl : rest.length < fuel := by
            simp only [List.length_cons, List.length_append] at hfuel
            omega
          rw [strip_copy cfg x (w ++ rest) hb hcm hdel hqu, strip_plain_run cfg hsep w rest hw0 hp,
            Outcome.map_map] at hS
          obtain ⟨orest, horest, rfl⟩ := Outcome.map_eq_ok hS
          have hstop : orest = [] ∨ is_boundary (charAt orest 0) cfg = true :=
            strip_head_behind_word cfg hsep fuel rest orest hrest0 hrl hj horest
          have hfw0 : NUL ∉ w.filter (fun c => !is_in_delete_set c cfg) :=
            fun e => hw0 (List.mem_append.mpr (Or.inl (List.mem_of_mem_filter e)))
          have hfw : ∀ c ∈ w.filter (fun c => !is_in_delete_set c cfg), is_boundary c cfg = false :=
            fun c hc => all_plain_not_boundary hp c (List.mem_of_mem_filter hc)
          have hlen' : length_of_normal_non_splitters
              (x :: (w.filter (fun c => !is_in_delete_set c cfg) ++ orest)) (without_comments cfg) =
              1 + (w.filter (fun c => !is_in_delete_set c cfg)).length := by
            rw [length_of_normal_non_splitters,
              normal_run_without_comments cfg _ orest x 0 hx hfw0 hfw hstop, Nat.zero_add]
          have htok' : normal_token (x :: (w.filter (fun c => !is_in_delete_set c cfg) ++ orest))
              (1 + (w.filter (fun c => !is_in_delete_set c cfg)).length) (without_comments cfg) =
              x :: w.filter (fun c => !is_in_delete_set c cfg) := by
            rw [normal_token_without_comments, normal_token_run cfg x _ orest hdel,
              List.filter_filter]
            simp
          have hdrop' : (x :: (w.filter (fun c => !is_in_delete_set c cfg) ++ orest)).drop
              (1 + (w.filter (fun c => !is_in_delete_set c cfg)).length) = orest := by
            rw [Nat.add_comm, List.drop_succ_cons, List.drop_left' rfl]
          have hih := ih rest orest hrest0 hrl (words_joined_loop_mono cfg fuel rest hj) horest
          show parser_tokenize_buffer (without_comments cfg)
            (x :: (w.filter (fun c => !is_in_delete_set c cfg) ++ orest)) s = _
          rw [tokenize_normal (without_comments cfg) x _ s
              (by simpa using And.intro (Ne.symm hx) (And.intro hfw0
                (strip_output_no_NUL cfg rest orest hrest0 horest)))
              h1 rfl hdel hspc hqu,
            tokenize_normal cfg x (w ++ rest) s hb h1 hcm hdel hspc hqu, hlen, hlen', htok',
            normal_token_run cfg x w rest hdel, hdrop, hdrop', hih]
  constructor
  · intro heq
    cases hj : words_joined cfg buffer with
    | false => rfl
    | true =>
      exact absurd heq
        (round_trip_fails_of_joined cfg hsep s _ buffer stripped hb hfuel hj hS)
  · intro hj
    exact key _ buffer stripped hb hfuel hj hS

theorem spec_config_separated : classes_separated spec_config :=
  ⟨by decide, by decide, fun cs hcs => by cases hcs; decide⟩

/-- The spec's example with a comment behind a blank: no words are joined, and the tokens of
the stripped buffer are those of the buffer. -/
theorem strip_then_tokenize_witness :
    parser_tokenize_buffer (without_comments spec_config)
        ['a', ' ', '=', ' ', '"', 'b', ' ', 'c', '"', ' ', 'd'] true =
      parser_tokenize_buffer spec_config
        ['a', ' ', '=', ' ', '"', 'b', ' ', 'c', '"', ' ', '#', 'n', '\n', 'd'] true :=
  (strip_then_tokenize spec_config spec_config_separated true
    ['a', ' ', '=', ' ', '"', 'b', ' ', 'c', '"', ' ', '#', 'n', '\n', 'd']
    ['a', ' ', '=', ' ', '"', 'b', ' ', 'c', '"', ' ', 'd'] (by decide) (by decide)).mpr
    (by decide)

/-- C6 fails as stated: with the configuration of the spec's example, the comment in
`a#c` newline `b` parts two tokens when the buffer is tokenized directly, while the
stripper joins `a` and `b` into one word.  It fails as well, with no words joined, when a
quoter is a splitter or a special (buffer `"#"`), when a delete character is a splitter
(buffer `axa`), and when the comment start begins with a splitter (buffer `#a`) or with a
delete character (buffer `a##!`). -/
theorem comment_parts_tokens :
    (parser_alloc (some [' ']) (some ['"']) (some ['=']) none (some ['#']) (some ['\n']) =
        some spec_config ∧
      parser_strip_buffer spec_config ['a', '#', 'c', '\n', 'b'] = Outcome.ok ['a', 'b'] ∧
      words_joined spec_config ['a', '#', 'c', '\n', 'b'] = true ∧
      ∀ strip_quote_marks,
        parser_tokenize_buffer (without_comments spec_config) ['a', 'b'] strip_quote_marks =
            Outcome.ok [['a', 'b']] ∧
          parser_tokenize_buffer spec_config ['a', '#', 'c', '\n', 'b'] strip_quote_marks =
            Outcome.ok [['a'], ['b']]) ∧
    (parser_alloc (some [' ', '"']) (some ['"']) (some ['=']) none (some ['#']) (some ['\n']) =
        some quoter_splitter_config ∧
      parser_strip_buffer quoter_splitter_config ['"', '#', '"'] = Outcome.ok ['"', '#', '"'] ∧
      words_joined quoter_splitter_config ['"', '#', '"'] = false ∧
      ∀ strip_quote_marks,
        parser_tokenize_buffer (without_comments quoter_splitter_config) ['"', '#', '"']
            strip_quote_marks = Outcome.ok [['#']] ∧
          parser_tokenize_buffer quoter_splitter_config ['"', '#', '"'] strip_quote_marks =
            Outcome.ok []) ∧
    (parser_alloc (some [' ']) (some ['"']) (some ['=', '"']) none (some ['#']) (some ['\n']) =
        some quoter_special_config ∧
      parser_strip_buffer quoter_special_config ['"', '#', '"'] = Outcome.ok ['"', '#', '"'] ∧
      words_joined quoter_special_config ['"', '#', '"'] = false ∧
      ∀ strip_quote_marks,
        parser_tokenize_buffer (without_comments quoter_special_config) ['"', '#', '"']
            strip_quote_marks = Outcome.ok [['"'], ['#'], ['"']] ∧
          parser_tokenize_buffer quoter_special_config ['"', '#', '"'] strip_quote_marks =
            Outcome.ok [['"']]) ∧
    (parser_alloc (some [' ', 'x']) (some ['"']) (some ['=']) (some ['x']) (some ['#'])
          (some ['\n']) = some delete_splitter_config ∧
      parser_strip_buffer delete_splitter_config ['a', 'x', 'a'] = Outcome.ok ['a', 'a'] ∧
      words_joined delete_splitter_config ['a', 'x', 'a'] = false ∧
      ∀ strip_quote_marks,
        parser_tokenize_buffer (without_comments delete_splitter_config) ['a', 'a']
            strip_quote_marks = Outcome.ok [['a', 'a']] ∧
          parser_tokenize_buffer delete_splitter_config ['a', 'x', 'a'] strip_quote_marks =
            Outcome.ok [['a'], ['a']]) ∧
    (parser_alloc (some [' ', '#']) (some ['"']) (some ['=']) none (some ['#']) (some ['\n']) =
        some comment_splitter_config ∧
      parser_strip_buffer comment_splitter_config ['#', 'a'] = Outcome.ok [] ∧
      words_joined comment_splitter_config ['#', 'a'] = false ∧
      ∀ strip_quote_marks,
        parser_tokenize_buffer (without_comments comment_splitter_config) []
            strip_quote_marks = Outcome.ok [] ∧
          parser_tokenize_buffer comment_splitter_config ['#', 'a'] strip_quote_marks =
            Outcome.ok [['a']]) ∧
    (parser_alloc (some [' ']) (some ['"']) (some ['=']) (some ['#']) (some ['#', '!'])
          (some ['\n']) = some comment_delete_config ∧
      parser_strip_buffer comment_delete_config ['a', '#', '#', '!'] = Outcome.ok ['a', '!'] ∧
      words_joined comment_delete_config ['a', '#', '#', '!'] = false ∧
      ∀ strip_quote_marks,
        parser_tokenize_buffer (without_comments comment_delete_config) ['a', '!']
            strip_quote_marks = Outcome.ok [['a', '!']] ∧
          parser_tokenize_buffer comment_delete_config ['a', '#', '#', '!'] strip_quote_marks =
            Outcome.ok [['a']]) := by
  refine ⟨by decide, by decide, by decide, by decide, by decide, by decide⟩

/-! ## C11 : an unterminated comment in the tokenizer -/

theorem length_of_comment_loop_unterminated (ce r : List Char) (n : Nat) (hce : NUL ∉ ce)
    (hr : NUL ∉ r) (hno : ∀ k, k < r.length → occurs_at ce r k = false) :
    length_of_comment_loop ce r n = n + r.length := by
  induction r generalizing n with
  | nil => rfl
  | cons x xs ih =>
    have hx : x ≠ NUL := fun e => hr (by simp [e])
    have hxs : NUL ∉ xs := fun e => hr (by simp [e])
    have h0 : ce.isPrefixOf (x :: xs) = false := by
      have := hno 0 (by simp)
      simpa [occurs_at] using this
    rw [length_of_comment_loop, if_neg hx, strncmp_eq_strlen ce hce, h0]
    simp only [Bool.false_eq_true, if_false]
    rw [ih (n + 1) hxs (fun k hk => by
      have := hno (k + 1) (by simp; omega)
      simpa [occurs_at] using this)]
    simp
    omega

/-- The length of an unterminated comment: the whole rest of the buffer. -/
theorem length_of_comment_unterminated (cfg : parser_struct) (cs ce r : List Char)
    (hcs : cfg.comment_start = some cs) (hce : cfg.comment_end = some ce)
    (hcs0 : NUL ∉ cs) (hce0 : NUL ∉ ce) (hr : NUL ∉ r)
    (hno : ∀ k, k < r.length → occurs_at ce r k = false) :
    length_of_comment (cs ++ r) cfg = cs.length + r.length := by
  have hpre : cs.isPrefixOf (cs ++ r) = true := by
    rw [List.isPrefixOf_iff_prefix]
    simp
  have hdrop : (cs ++ r).drop cs.length = r := by simp
  simp only [length_of_comment, hcs, hce, strlen_eq_length hcs0,
    strncmp_eq_isPrefixOf cs hcs0, hpre, if_true, hdrop]
  exact length_of_comment_loop_unterminated ce r cs.length hce0 hr hno

/-- C11: with comment delimiters `cs` and `ce`, where `cs` does not begin with a splitter,
a buffer made of `cs` and a text in which `ce` does not occur is tokenized to the empty
sequence, without failing.  In the spec's example the comment takes the rest of the
buffer and the tokens are `a`, `=` and `b c`. -/
theorem unterminated_comment_consumes_rest :
    (∀ (cfg : parser_struct) (cs ce r : List Char) (strip_quote_marks : Bool),
      cfg.comment_start = some cs → cfg.comment_end = some ce → NUL ∉ cs → NUL ∉ ce →
      NUL ∉ r → cs ≠ [] → is_splitters (charAt cs 0) cfg = false →
      (∀ k, k < r.length → occurs_at ce r k = false) →
      parser_tokenize_buffer cfg (cs ++ r) strip_quote_marks = Outcome.ok []) ∧
    parser_tokenize_buffer spec_config
        ['a', ' ', '=', ' ', '"', 'b', ' ', 'c', '"', ' ', '#', ' ', 'n', 'o', 't', 'e'] true =
      Outcome.ok [['a'], ['='], ['b', ' ', 'c']] := by
  refine ⟨?_, by decide⟩
  intro cfg cs ce r s hcs hce hcs0 hce0 hr hne hsp hno
  have hlen := length_of_comment_unterminated cfg cs ce r hcs hce hcs0 hce0 hr hno
  have hb : NUL ∉ cs ++ r := by
    simp only [List.mem_append, not_or]
    exact ⟨hcs0, hr⟩
  cases cs with
  | nil => exact absurd rfl hne
  | cons c cs' =>
    have hpos : 0 < length_of_comment (c :: cs' ++ r) cfg := by
      rw [hlen]
      simp
    rw [List.cons_append] at hb hpos hlen ⊢
    rw [tokenize_comment cfg c (cs' ++ r) s hb hsp hpos, hlen]
    have hd : (c :: (cs' ++ r)).drop ((c :: cs').length + r.length) = [] := by
      apply List.drop_eq_nil_of_le
      simp
      omega
    rw [hd]
    rfl

theorem unterminated_comment_consumes_rest_witness :
    parser_tokenize_buffer spec_config (['#'] ++ [' ', 'n', 'o', '"', 't', 'e']) false =
      Outcome.ok [] :=
  unterminated_comment_consumes_rest.1 spec_config ['#'] ['\n'] [' ', 'n', 'o', '"', 't', 'e']
    false rfl rfl (by decide) (by decide) (by decide) (by decide) (by decide) (by decide)

/-! ## C12 : special characters -/

/-- C12: a special character at the head of the buffer that is no splitter and no delete
character, and at which no comment starts, is emitted as a token of its own, whether it is
a quoter or not; the tokens of the rest follow, and the tokenizer fails on the buffer
exactly when it fails on the rest. -/
theorem special_char_token (cfg : parser_struct) (c : Char) (rest : List Char)
    (strip_quote_marks : Bool) (hb : NUL ∉ c :: rest) (hspc : is_special c cfg = true)
    (hsp : is_splitters c cfg = false) (hdel : is_in_delete_set c cfg = false)
    (hcm : length_of_comment (c :: rest) cfg = 0) :
    parser_tokenize_buffer cfg (c :: rest) strip_quote_marks =
        (parser_tokenize_buffer cfg rest strip_quote_marks).map (fun t => [c] :: t) ∧
      (parser_tokenize_buffer cfg (c :: rest) strip_quote_marks = Outcome.abort ↔
        parser_tokenize_buffer cfg rest strip_quote_marks = Outcome.abort) := by
  have key : parser_tokenize_buffer cfg (c :: rest) strip_quote_marks =
      (parser_tokenize_buffer cfg rest strip_quote_marks).map (fun t => [c] :: t) := by
    rw [parser_tokenize_buffer_unfold cfg _ strip_quote_marks hb (by simp)]
    simp only [tokenize_body, List.drop_zero, length_of_initial_splitters_cons cfg c rest hsp,
      hcm, length_of_delete_cons cfg c rest hdel, charAt_cons_zero, hspc, gt_iff_lt,
      Nat.lt_irrefl, if_false, if_true, Nat.zero_add, List.nil_append]
    rfl
  refine ⟨key, ?_⟩
  rw [key]
  cases parser_tokenize_buffer cfg rest strip_quote_marks <;> simp [Outcome.map]

theorem special_char_token_witness :
    parser_tokenize_buffer special_quoter_config ['"', 'a', '"'] true =
        (parser_tokenize_buffer special_quoter_config ['a', '"'] true).map (fun t => ['"'] :: t) ∧
      (parser_tokenize_buffer special_quoter_config ['"', 'a', '"'] true = Outcome.abort ↔
        parser_tokenize_buffer special_quoter_config ['a', '"'] true = Outcome.abort) :=
  special_char_token special_quoter_config '"' ['a', '"'] true (by decide) (by decide)
    (by decide) (by decide) (by decide)

/-! ## C13 : splitters -/

/-- C13: a string of splitter characters at the head of the buffer is passed over, whatever
other classes its characters belong to: the tokens are those of the rest. -/
theorem splitters_discarded (cfg : parser_struct) (s rest : List Char)
    (strip_quote_marks : Bool) (hb : NUL ∉ s ++ rest)
    (hs : ∀ c ∈ s, is_splitters c cfg = true) :
    parser_tokenize_buffer cfg (s ++ rest) strip_quote_marks =
      parser_tokenize_buffer cfg rest strip_quote_marks := by
  induction s with
  | nil => rfl
  | cons c cs ih =>
    have hb' : NUL ∉ cs ++ rest := fun e => hb (by simp at e ⊢; exact Or.inr e)
    rw [List.cons_append, tokenize_splitter_char cfg c (cs ++ rest) strip_quote_marks hb
      (hs c (by simp))]
    exact ih hb' (fun d hd => hs d (List.mem_cons_of_mem _ hd))

theorem splitters_discarded_witness :
    parser_tokenize_buffer all_classes_config (['#', '#'] ++ ['a', '#', 'b']) true =
      parser_tokenize_buffer all_classes_config ['a', '#', 'b'] true :=
  splitters_discarded all_classes_config ['#', '#'] ['a', '#', 'b'] true (by decide) (by decide)

/-! ## C14 : delete characters in the tokenizer -/

theorem without_comments_eq (cfg : parser_struct) (hcs : cfg.comment_start = none)
    (hce : cfg.comment_end = none) : without_comments cfg = cfg := by
  cases cfg
  simp only [without_comments] at *
  simp_all

theorem length_of_comment_none (cfg : parser_struct) (l : List Char)
    (hcs : cfg.comment_start = none) : length_of_comment l cfg = 0 := by
  simp [length_of_comment, hcs]

theorem is_in_quoters_none (cfg : parser_struct) (c : Char) (hq : cfg.quoters = none) :
    is_in_quoters c cfg = false := by
  simp [is_in_quoters, hq, in_set]

/-- A delete character at the head of the buffer is passed over by the tokenizer, when it
is no splitter, no comment starts at it, and a delete character behind it is no
splitter and starts no comment either. -/
theorem tokenize_delete_char (cfg : parser_struct) (c : Char) (rest : List Char) (s : Bool)
    (hb : NUL ∉ c :: rest) (hsp : is_splitters c cfg = false)
    (hcm : length_of_comment (c :: rest) cfg = 0) (hdel : is_in_delete_set c cfg = true)
    (hnext : ∀ d rest', rest = d :: rest' → is_in_delete_set d cfg = true →
      is_splitters d cfg = false ∧ length_of_comment rest cfg = 0) :
    parser_tokenize_buffer cfg (c :: rest) s = parser_tokenize_buffer cfg rest s := by
  have hc : c ≠ NUL := fun e => hb (by simp [e])
  have hrest : NUL ∉ rest := fun e => hb (by simp [e])
  have hlen := length_of_delete_cons_pos cfg c rest hc hdel
  rw [tokenize_delete cfg c rest s hb hsp hcm (by omega), hlen, List.drop_succ_cons]
  by_cases hk : 0 < length_of_delete rest cfg
  · obtain ⟨d, rest', rfl, hd⟩ := length_of_delete_pos_head hk
    obtain ⟨h1, h2⟩ := hnext d rest' rfl hd
    rw [← tokenize_delete cfg d rest' s hrest h1 h2 hk]
  · have : length_of_delete rest cfg = 0 := by omega
    rw [this, List.drop_zero]

/-- C14: in a configuration without quoters and without comment delimiters, whose delete
characters are neither splitters nor specials, the tokens of a buffer are the tokens of
the buffer with its delete characters taken out. -/
theorem delete_set_no_boundary (cfg : parser_struct) (buffer : List Char)
    (strip_quote_marks : Bool) (hb : NUL ∉ buffer) (hq : cfg.quoters = none)
    (hcs : cfg.comment_start = none) (hce : cfg.comment_end = none)
    (hdis : ∀ c ∈ cfg.delete_set.getD [], is_splitters c cfg = false ∧ is_special c cfg = false) :
    parser_tokenize_buffer cfg buffer strip_quote_marks =
      parser_tokenize_buffer cfg (buffer.filter (fun c => !is_in_delete_set c cfg))
        strip_quote_marks := by
  rename' strip_quote_marks => s, buffer => b
  have hcm : ∀ l, length_of_comment l cfg = 0 := fun l => length_of_comment_none cfg l hcs
  have hqu : ∀ c, is_in_quoters c cfg = false := fun c => is_in_quoters_none cfg c hq
  have hdel_sp : ∀ c, c ≠ NUL → is_in_delete_set c cfg = true →
      is_splitters c cfg = false ∧ is_special c cfg = false :=
    fun c hc h => hdis c (mem_of_in_set hc h)
  have hfilter0 : ∀ l : List Char, NUL ∉ l → NUL ∉ l.filter (fun c => !is_in_delete_set c cfg) :=
    fun l hl e => hl (List.mem_of_mem_filter e)
  generalize hn : b.length = n
  induction n using Nat.strong_induction_on generalizing b with
  | _ n ih =>
    cases b with
    | nil => rfl
    | cons x xs =>
      have hx : x ≠ NUL := fun e => hb (by simp [e])
      have hxs : NUL ∉ xs := fun e => hb (by simp [e])
      have ihxs := ih xs.length (by subst hn; simp) xs hxs rfl
      by_cases h1 : is_splitters x cfg = true
      · have hd : is_in_delete_set x cfg = false := by
          cases hd : is_in_delete_set x cfg with
          | false => rfl
          | true =>
            have := (hdel_sp x hx hd).1
            rw [h1] at this
            cases this
        have hf : (x :: xs).filter (fun c => !is_in_delete_set c cfg) =
            x :: xs.filter (fun c => !is_in_delete_set c cfg) := by
          simp [List.filter, hd]
        have hb' : NUL ∉ x :: xs.filter (fun c => !is_in_delete_set c cfg) := by
          intro e
          rcases List.mem_cons.mp e with e | e
          · exact hx e.symm
          · exact hfilter0 xs hxs e
        rw [hf, tokenize_splitter_char cfg x xs s hb h1,
          tokenize_splitter_char cfg x (xs.filter (fun c => !is_in_delete_set c cfg)) s hb' h1]
        exact ihxs
      have h1' : is_splitters x cfg = false := by simpa using h1
      by_cases h3 : is_in_delete_set x cfg = true
      · have hf : (x :: xs).filter (fun c => !is_in_delete_set c cfg) =
            xs.filter (fun c => !is_in_delete_set c cfg) := by
          simp [List.filter, h3]
        rw [hf, tokenize_delete_char cfg x xs s hb h1' (hcm _) h3
          (fun d rest' e hd => by
            have hd0 : d ≠ NUL := fun e2 => hxs (by rw [e]; simp [e2])
            exact ⟨(hdel_sp d hd0 hd).1, hcm _⟩)]
        exact ihxs
      have h3' : is_in_delete_set x cfg = false := by simpa using h3
      have hf : ∀ l : List Char, (x :: l).filter (fun c => !is_in_delete_set c cfg) =
          x :: l.filter (fun c => !is_in_delete_set c cfg) := by
        intro l
        simp [List.filter, h3']
      by_cases h4 : is_special x cfg = true
      · have hb' : NUL ∉ x :: xs.filter (fun c => !is_in_delete_set c cfg) := by
          intro e
          rcases List.mem_cons.mp e with e | e
          · exact hx e.symm
          · exact hfilter0 xs hxs e
        rw [hf, tokenize_special cfg x xs s hb h1' (hcm _) h3' h4,
          tokenize_special cfg x (xs.filter (fun c => !is_in_delete_set c cfg)) s hb'
            h1' (hcm _) h3' h4, ihxs]
      have h4' : is_special x cfg = false := by simpa using h4
      obtain ⟨w, rest, rfl, hl, hp, hr⟩ := normal_run_structure cfg xs x 0 hx hxs
      have hrest0 : NUL ∉ rest := fun e => hxs (List.mem_append.mpr (Or.inr e))
      have hlen : length_of_normal_non_splitters (x :: (w ++ rest)) cfg = 1 + w.length := by
        rw [length_of_normal_non_splitters, hl, Nat.zero_add]
      have hfw0 : NUL ∉ w.filter (fun c => !is_in_delete_set c cfg) :=
        fun e => hxs (List.mem_append.mpr (Or.inl (List.mem_of_mem_filter e)))
      have hfw : ∀ c ∈ w.filter (fun c => !is_in_delete_set c cfg), is_boundary c cfg = false :=
        fun c hc => all_plain_not_boundary hp c (List.mem_of_mem_filter hc)
      have hstop : rest.filter (fun c => !is_in_delete_set c cfg) = [] ∨
          is_boundary (charAt (rest.filter (fun c => !is_in_delete_set c cfg)) 0) cfg = true := by
        cases rest with
        | nil => exact Or.inl rfl
        | cons d rest' =>
          right
          have hd0 : d ≠ NUL := fun e => hrest0 (by simp [e])
          have hbd : is_boundary d cfg = true := by
            rcases hr with hr | hr | hr
            · cases hr
            · exact hr
            · rw [hcm] at hr
              exact absurd hr (Nat.lt_irrefl 0)
          have hdd : is_in_delete_set d cfg = false := by
            cases hd : is_in_delete_set d cfg with
            | false => rfl
            | true =>
              have := hdel_sp d hd0 hd
              simp [is_boundary, this, hqu] at hbd
          simpa [List.filter, hdd, charAt] using hbd
      have hlen' : length_of_normal_non_splitters
          (x :: (w.filter (fun c => !is_in_delete_set c cfg) ++
            rest.filter (fun c => !is_in_delete_set c cfg))) cfg =
          1 + (w.filter (fun c => !is_in_delete_set c cfg)).length := by
        have := normal_run_without_comments cfg _ _ x 0 hx hfw0 hfw hstop
        rw [without_comments_eq cfg hcs hce] at this
        rw [length_of_normal_non_splitters, this, Nat.zero_add]
      have htok' : normal_token (x :: (w.filter (fun c => !is_in_delete_set c cfg) ++
            rest.filter (fun c => !is_in_delete_set c cfg)))
          (1 + (w.filter (fun c => !is_in_delete_set c cfg)).length) cfg =
          x :: w.filter (fun c => !is_in_delete_set c cfg) := by
        rw [normal_token_run cfg x _ _ h3', List.filter_filter]
        simp
      have hdrop : (x :: (w ++ rest)).drop (1 + w.length) = rest := by
        rw [Nat.add_comm, List.drop_succ_cons, List.drop_left' rfl]
      have hdrop' : (x :: (w.filter (fun c => !is_in_delete_set c cfg) ++
            rest.filter (fun c => !is_in_delete_set c cfg))).drop
          (1 + (w.filter (fun c => !is_in_delete_set c cfg)).length) =
          rest.filter (fun c => !is_in_delete_set c cfg) := by
        rw [Nat.add_comm, List.drop_succ_cons, List.drop_left' rfl]
      have hih := ih rest.length (by subst hn; simp; omega) rest hrest0 rfl
      have hb' : NUL ∉ x :: (w.filter (fun c => !is_in_delete_set c cfg) ++
          rest.filter (fun c => !is_in_delete_set c cfg)) := by
        intro e
        rcases List.mem_cons.mp e with e | e
        · exact hx e.symm
        · rcases List.mem_append.mp e with e | e
          · exact hfw0 e
          · exact hfilter0 rest hrest0 e
      rw [hf, List.filter_append,
        tokenize_normal cfg x (w.filter (fun c => !is_in_delete_set c cfg) ++
          rest.filter (fun c => !is_in_delete_set c cfg)) s hb' h1' (hcm _) h3' h4' (hqu x),
        tokenize_normal cfg x (w ++ rest) s hb h1' (hcm _) h3' h4' (hqu x), hlen, hlen', htok',
        normal_token_run cfg x w rest h3', hdrop, hdrop', hih]

theorem delete_set_no_boundary_witness :
    parser_tokenize_buffer delete_x_config ['a', 'x', 'b'] true = Outcome.ok [['a', 'b']] ∧
      parser_tokenize_buffer delete_x_config ['a', 'x', 'b', ' ', 'x', 'c', 'x'] true =
        parser_tokenize_buffer delete_x_config
          (['a', 'x', 'b', ' ', 'x', 'c', 'x'].filter
            (fun c => !is_in_delete_set c delete_x_config)) true :=
  ⟨by decide,
    delete_set_no_boundary delete_x_config ['a', 'x', 'b', ' ', 'x', 'c', 'x'] true (by decide)
      rfl rfl rfl (by decide)⟩

/-! ## C20 : the content of the tokens -/

theorem length_of_delete_take (cfg : parser_struct) (b : List Char) :
    ∀ c ∈ b.take (length_of_delete b cfg), is_in_delete_set c cfg = true := by
  induction b with
  | nil => intro c hc; simp at hc
  | cons x xs ih =>
    cases hx : is_in_delete_set x cfg with
    | false =>
      rw [length_of_delete_cons cfg x xs hx]
      intro c hc
      simp at hc
    | true =>
      by_cases hx0 : x = NUL
      · have : length_of_delete (x :: xs) cfg = 0 := by
          simp [length_of_delete, length_of_delete_loop, hx0]
        rw [this]
        intro c hc
        simp at hc
      · rw [length_of_delete_cons_pos cfg x xs hx0 hx, List.take_succ_cons]
        intro c hc
        rcases List.mem_cons.mp hc with hc | hc
        · rw [hc]; exact hx
        · exact ih c hc

/-- C20: in a configuration without quoters and without comment delimiters, whatever
its splitters, specials and delete characters are, the tokenizer succeeds and the tokens,
put one behind the other, are the buffer without its splitters and delete characters. -/
theorem tokens_preserve_content (cfg : parser_struct) (buffer : List Char)
    (strip_quote_marks : Bool) (hb : NUL ∉ buffer) (hq : cfg.quoters = none)
    (hcs : cfg.comment_start = none) :
    ∃ tokens, parser_tokenize_buffer cfg buffer strip_quote_marks = Outcome.ok tokens ∧
      tokens.flatten =
        buffer.filter (fun c => !(is_splitters c cfg || is_in_delete_set c cfg)) := by
  rename' strip_quote_marks => s, buffer => b
  have hcm : ∀ l, length_of_comment l cfg = 0 := fun l => length_of_comment_none cfg l hcs
  have hqu : ∀ c, is_in_quoters c cfg = false := fun c => is_in_quoters_none cfg c hq
  generalize hn : b.length = n
  induction n using Nat.strong_induction_on generalizing b with
  | _ n ih =>
    cases b with
    | nil => exact ⟨[], rfl, rfl⟩
    | cons x xs =>
      have hx : x ≠ NUL := fun e => hb (by simp [e])
      have hxs : NUL ∉ xs := fun e => hb (by simp [e])
      by_cases h1 : is_splitters x cfg = true
      · obtain ⟨t, ht, hj⟩ := ih xs.length (by subst hn; simp) xs hxs rfl
        refine ⟨t, ?_, ?_⟩
        · rw [tokenize_splitter_char cfg x xs s hb h1]
          exact ht
        · rw [hj]
          simp [List.filter, h1]
      have h1' : is_splitters x cfg = false := by simpa using h1
      by_cases h3 : is_in_delete_set x cfg = true
      · have hd : 0 < length_of_delete (x :: xs) cfg := by
          rw [length_of_delete_cons_pos cfg x xs hx h3]
          omega
        obtain ⟨t, ht, hj⟩ := ih ((x :: xs).drop (length_of_delete (x :: xs) cfg)).length
          (by subst hn; simp; omega) _ (not_mem_drop hb _) rfl
        refine ⟨t, ?_, ?_⟩
        · rw [tokenize_delete cfg x xs s hb h1' (hcm _) hd]
          exact ht
        · rw [hj]
          conv_rhs => rw [← List.take_append_drop (length_of_delete (x :: xs) cfg) (x :: xs)]
          rw [List.filter_append]
          have : ((x :: xs).take (length_of_delete (x :: xs) cfg)).filter
              (fun c => !(is_splitters c cfg || is_in_delete_set c cfg)) = [] := by
            rw [List.filter_eq_nil_iff]
            intro c hc
            simp [length_of_delete_take cfg (x :: xs) c hc]
          rw [this, List.nil_append]
      have h3' : is_in_delete_set x cfg = false := by simpa using h3
      by_cases h4 : is_special x cfg = true
      · obtain ⟨t, ht, hj⟩ := ih xs.length (by subst hn; simp) xs hxs rfl
        refine ⟨[x] :: t, ?_, ?_⟩
        · rw [tokenize_special cfg x xs s hb h1' (hcm _) h3' h4, ht]
          rfl
        · simp [List.filter, h1', h3', hj]
      have h4' : is_special x cfg = false := by simpa using h4
      obtain ⟨w, rest, rfl, hl, hp, hr⟩ := normal_run_structure cfg xs x 0 hx hxs
      have hrest0 : NUL ∉ rest := fun e => hxs (List.mem_append.mpr (Or.inr e))
      have hlen : length_of_normal_non_splitters (x :: (w ++ rest)) cfg = 1 + w.length := by
        rw [length_of_normal_non_splitters, hl, Nat.zero_add]
      have hdrop : (x :: (w ++ rest)).drop (1 + w.length) = rest := by
        rw [Nat.add_comm, List.drop_succ_cons, List.drop_left' rfl]
      obtain ⟨t, ht, hj⟩ := ih rest.length (by subst hn; simp; omega) rest hrest0 rfl
      refine ⟨(x :: w.filter (fun c => !is_in_delete_set c cfg)) :: t, ?_, ?_⟩
      · rw [tokenize_normal cfg x (w ++ rest) s hb h1' (hcm _) h3' h4' (hqu x), hlen,
          normal_token_run cfg x w rest h3', hdrop, ht]
        simp [Outcome.map]
      · have hw : w.filter (fun c => !(is_splitters c cfg || is_in_delete_set c cfg)) =
            w.filter (fun c => !is_in_delete_set c cfg) := by
          apply List.filter_congr
          intro c hc
          have := all_plain_not_boundary hp c hc
          simp only [is_boundary, Bool.or_eq_false_iff] at this
          simp [this.1.1]
        have hxf : (x :: (w ++ rest)).filter
            (fun c => !(is_splitters c cfg || is_in_delete_set c cfg)) =
            x :: (w ++ rest).filter (fun c => !(is_splitters c cfg || is_in_delete_set c cfg)) :=
          List.filter_cons_of_pos (by simp [h1', h3'])
        rw [List.flatten_cons, hj, hxf, List.filter_append, hw]
        rfl

theorem tokens_preserve_content_witness :
    ∃ tokens, parser_tokenize_buffer overlap_config ['a', 'x', '=', ' ', 'b', '='] true =
        Outcome.ok tokens ∧
      tokens.flatten = ['a', 'x', '=', ' ', 'b', '='].filter
        (fun c => !(is_splitters c overlap_config || is_in_delete_set c overlap_config)) :=
  tokens_preserve_content overlap_config ['a', 'x', '=', ' ', 'b', '='] true (by decide) rfl rfl

/-! ## C19 : progress and bounds of the tokenizer scan -/

theorem strspn_le (s accept : List Char) : strspn s accept ≤ s.length := by
  induction s with
  | nil => simp [strspn]
  | cons c cs ih =>
    simp only [strspn]
    split
    · simp; omega
    · simp

theorem length_of_initial_splitters_le (cfg : parser_struct) (b : List Char) :
    length_of_initial_splitters b cfg ≤ b.length := by
  unfold length_of_initial_splitters
  split
  · omega
  · exact strspn_le _ _

theorem strncmp_eq_strlen_le (pat a : List Char) (h : strncmp_eq a pat (strlen pat) = true) :
    strlen pat ≤ a.length := by
  induction pat generalizing a with
  | nil => simp [strlen, cstr]
  | cons p ps ih =>
    by_cases hp : p = NUL
    · simp [strlen, cstr, hp]
    · have hlen : strlen (p :: ps) = strlen ps + 1 := by simp [strlen, cstr, hp]
      rw [hlen] at h ⊢
      cases a with
      | nil =>
        simp [strncmp_eq, charAt, Ne.symm hp] at h
      | cons x xs =>
        simp only [strncmp_eq, charAt, List.getD_cons_zero, List.tail_cons] at h
        split at h
        · cases h
        · rename_i hx
          have hx' : x = p := by simpa using hx
          rw [hx'] at h
          simp only [hp, if_false] at h
          have := ih xs h
          simp
          omega

theorem length_of_comment_loop_le (ce rest : List Char) (n : Nat) :
    length_of_comment_loop ce rest n ≤ n + rest.length := by
  induction rest generalizing n with
  | nil => simp [length_of_comment_loop]
  | cons c cs ih =>
    rw [length_of_comment_loop]
    split
    · omega
    · split
      · rename_i h
        have := strncmp_eq_strlen_le ce (c :: cs) h
        omega
      · have := ih (n + 1)
        simp
        omega

theorem length_of_comment_le (cfg : parser_struct) (b : List Char) :
    length_of_comment b cfg ≤ b.length := by
  unfold length_of_comment
  split
  · rename_i cs ce _ _
    simp only
    split
    · rename_i h
      have h1 := strncmp_eq_strlen_le cs b h
      have h2 := length_of_comment_loop_le ce (b.drop (strlen cs)) (strlen cs)
      simp only [List.length_drop] at h2
      omega
    · omega
  · omega

theorem length_of_delete_loop_le (cfg : parser_struct) (b : List Char) (n : Nat) :
    length_of_delete_loop cfg b n ≤ n + b.length := by
  induction b generalizing n with
  | nil => simp [length_of_delete_loop]
  | cons c cs ih =>
    rw [length_of_delete_loop]
    split
    · have := ih (n + 1)
      simp
      omega
    · omega

theorem length_of_delete_le (cfg : parser_struct) (b : List Char) :
    length_of_delete b cfg ≤ b.length := by
  have := length_of_delete_loop_le cfg b 0
  simpa [length_of_delete] using this

theorem length_of_normal_non_splitters_loop_le (cfg : parser_struct) (b : List Char) (n : Nat) :
    length_of_normal_non_splitters_loop cfg b n ≤ n + b.length := by
  induction b generalizing n with
  | nil => simp [length_of_normal_non_splitters_loop]
  | cons c cs ih =>
    rw [length_of_normal_non_splitters_loop]
    have := ih (n + 1)
    repeat' split
    all_goals (simp only [List.length_cons]; omega)

theorem length_of_normal_non_splitters_le (cfg : parser_struct) (b : List Char) :
    length_of_normal_non_splitters b cfg ≤ b.length := by
  have := length_of_normal_non_splitters_loop_le cfg b 0
  simpa [length_of_normal_non_splitters] using this

/-- A pass through the body of the tokenizer loop stays inside the buffer. -/
theorem tokenize_body_le (p : parser_struct) (b : List Char) (s : Bool) (pos : Nat)
    (toks : List (List Char)) (r : Nat × List (List Char)) (hpos : pos < b.length)
    (h : tokenize_body p b s pos toks = some r) : r.1 ≤ b.length := by
  have h1 := length_of_initial_splitters_le p (b.drop pos)
  have h2 := length_of_comment_le p (b.drop pos)
  have h3 := length_of_delete_le p (b.drop pos)
  have h4 := length_of_normal_non_splitters_le p (b.drop pos)
  simp only [List.length_drop] at h1 h2 h3 h4
  simp only [tokenize_body] at h
  repeat' split at h
  all_goals first
    | (cases h; done)
    | (cases h; show pos + _ ≤ _; omega)
    | (rename_i hq; cases h; have := length_of_quotation_le hq
       simp only [List.length_drop] at this; show pos + _ ≤ _; omega)

theorem tokenize_scan_outcome (p : parser_struct) (b : List Char) (s : Bool)
    (fuel pos : Nat) (toks : List (List Char)) (k : Nat) :
    (tokenize_scan p b s fuel pos toks k).map (fun _ => ()) =
      (tokenize_loop p b s fuel pos toks).map (fun _ => ()) := by
  induction fuel generalizing pos toks k with
  | zero => rfl
  | succ fuel ih =>
    rw [tokenize_scan, tokenize_loop]
    split
    · cases tokenize_body p b s pos toks with
      | none => rfl
      | some r => exact ih r.1 r.2 (k + 1)
    · rfl

theorem tokenize_scan_end (p : parser_struct) (b : List Char) (s : Bool) (hb : NUL ∉ b)
    (fuel pos : Nat) (toks : List (List Char)) (k : Nat) (hpos : pos ≤ b.length)
    (hfuel : b.length - pos < fuel) :
    tokenize_scan p b s fuel pos toks k = Outcome.abort ∨
      ∃ k', k' ≤ k + (b.length - pos) ∧
        tokenize_scan p b s fuel pos toks k = Outcome.ok (b.length, k') := by
  induction fuel generalizing pos toks k with
  | zero => omega
  | succ fuel ih =>
    rw [tokenize_scan, strlen_eq_length hb]
    by_cases hlt : pos < b.length
    · simp only [hlt, if_true]
      cases hbody : tokenize_body p b s pos toks with
      | none => exact Or.inl rfl
      | some r =>
        have h1 := tokenize_body_progress p b s pos toks r hb hlt hbody
        have h2 := tokenize_body_le p b s pos toks r hlt hbody
        rcases ih r.1 r.2 (k + 1) h2 (by omega) with h | ⟨k', hk', h⟩
        · exact Or.inl h
        · exact Or.inr ⟨k', by omega, h⟩
    · simp only [hlt, if_false]
      have : pos = b.length := by omega
      subst this
      exact Or.inr ⟨k, by omega, rfl⟩

/-- C19: a pass through the body of the tokenizer loop that does not abort moves the
position forward by at least one character and not beyond the end of the buffer; the
scan of a buffer of length `n` aborts or ends with the position `n` after at most `n`
passes, and it aborts exactly when the tokenizer does. -/
theorem tokenizer_scan_bounds :
    (∀ (cfg : parser_struct) (buffer : List Char) (strip_quote_marks : Bool) (position : Nat)
        (tokens : List (List Char)) (r : Nat × List (List Char)),
      NUL ∉ buffer → position < buffer.length →
      tokenize_body cfg buffer strip_quote_marks position tokens = some r →
      position + 1 ≤ r.1 ∧ r.1 ≤ buffer.length) ∧
    (∀ (cfg : parser_struct) (buffer : List Char) (strip_quote_marks : Bool),
      NUL ∉ buffer →
      (parser_tokenize_buffer cfg buffer strip_quote_marks = Outcome.abort ∧
          tokenize_scan cfg buffer strip_quote_marks (strlen buffer + 1) 0 [] 0 =
            Outcome.abort) ∨
        ∃ tokens passes, passes ≤ buffer.length ∧
          parser_tokenize_buffer cfg buffer strip_quote_marks = Outcome.ok tokens ∧
          tokenize_scan cfg buffer strip_quote_marks (strlen buffer + 1) 0 [] 0 =
            Outcome.ok (buffer.length, passes)) := by
  constructor
  · intro cfg b s pos toks r hb hpos h
    exact ⟨tokenize_body_progress cfg b s pos toks r hb hpos h,
      tokenize_body_le cfg b s pos toks r hpos h⟩
  · intro cfg b s hb
    have hout := tokenize_scan_outcome cfg b s (strlen b + 1) 0 [] 0
    rcases tokenize_scan_end cfg b s hb (strlen b + 1) 0 [] 0 (Nat.zero_le _)
      (by rw [strlen_eq_length hb]; omega) with h | ⟨k, hk, h⟩
    · left
      refine ⟨?_, h⟩
      rw [h] at hout
      unfold parser_tokenize_buffer
      cases hl : tokenize_loop cfg b s (strlen b + 1) 0 [] with
      | ok t => rw [hl] at hout; cases hout
      | abort => rfl
      | out_of_fuel => rw [hl] at hout; cases hout
    · right
      rw [h] at hout
      unfold parser_tokenize_buffer
      cases hl : tokenize_loop cfg b s (strlen b + 1) 0 [] with
      | ok t => exact ⟨t, k, by omega, rfl, h⟩
      | abort => rw [hl] at hout; cases hout
      | out_of_fuel => rw [hl] at hout; cases hout

theorem tokenizer_scan_bounds_witness :
    (tokenize_body spec_config ['a', ' ', '#', 'c'] true 2 [['a']] = some (4, [['a']]) ∧
        2 + 1 ≤ 4 ∧ 4 ≤ ['a', ' ', '#', 'c'].length) ∧
      ((parser_tokenize_buffer spec_config ['a', ' ', '#', 'c'] true = Outcome.abort ∧
          tokenize_scan spec_config ['a', ' ', '#', 'c'] true
            (strlen ['a', ' ', '#', 'c'] + 1) 0 [] 0 = Outcome.abort) ∨
        ∃ tokens passes, passes ≤ ['a', ' ', '#', 'c'].length ∧
          parser_tokenize_buffer spec_config ['a', ' ', '#', 'c'] true = Outcome.ok tokens ∧
          tokenize_scan spec_config ['a', ' ', '#', 'c'] true
            (strlen ['a', ' ', '#', 'c'] + 1) 0 [] 0 =
            Outcome.ok (['a', ' ', '#', 'c'].length, passes)) :=
  ⟨⟨by decide,
      tokenizer_scan_bounds.1 spec_config ['a', ' ', '#', 'c'] true 2 [['a']] (4, [['a']])
        (by decide) (by decide) (by decide)⟩,
    tokenizer_scan_bounds.2 spec_config ['a', ' ', '#', 'c'] true (by decide)⟩

/-! ## Streams: reading and seeking -/

theorem fgetc_content (st : FILE) : (fgetc st).2.content = st.content := by
  unfold fgetc
  split <;> rfl

theorem fgetc_pos_ge (st : FILE) : st.pos ≤ (fgetc st).2.pos := by
  unfold fgetc
  split
  · exact Nat.le_succ _
  · exact Nat.le_refl _

theorem fgetc_drop_cons (st : FILE) (c : Char) (rest : List Char)
    (h : st.content.drop st.pos = c :: rest) :
    fgetc st = ((c.toNat : Int), { st with pos := st.pos + 1 }) := by
  have h0 : st.content[st.pos]? = (st.content.drop st.pos)[0]? := by simp
  rw [h] at h0
  simp [fgetc, h0]

theorem fgetc_drop_nil (st : FILE) (h : st.content.drop st.pos = []) :
    fgetc st = (EOF, st) := by
  have h0 : st.content[st.pos]? = (st.content.drop st.pos)[0]? := by simp
  rw [h] at h0
  simp [fgetc, h0]

theorem fseek_quote_end_loop_pos (quoter : Char) (rest : List Char) (pos : Nat) :
    pos ≤ (fseek_quote_end_loop quoter rest pos).2 ∧
      (fseek_quote_end_loop quoter rest pos).2 ≤ pos + rest.length := by
  induction rest generalizing pos with
  | nil => simp [fseek_quote_end_loop]
  | cons c cs ih =>
    rw [fseek_quote_end_loop]
    split
    · have := ih (pos + 1)
      simp only [List.length_cons]
      omega
    · simp only [List.length_cons]
      omega

theorem fseek_quote_end_content (quoter : Char) (st : FILE) :
    (fseek_quote_end quoter st).2.content = st.content := rfl

theorem fseek_quote_end_pos_ge (quoter : Char) (st : FILE) :
    st.pos ≤ (fseek_quote_end quoter st).2.pos :=
  (fseek_quote_end_loop_pos quoter _ st.pos).1

theorem fgetc_while_equal_loop_content (s : List Char) (st st' : FILE)
    (h : fgetc_while_equal_loop s st = some st') :
    st'.content = st.content ∧ st.pos ≤ st'.pos := by
  induction s generalizing st with
  | nil =>
    simp only [fgetc_while_equal_loop, Option.some.injEq] at h
    subst h
    exact ⟨rfl, Nat.le_refl _⟩
  | cons c cs ih =>
    rw [fgetc_while_equal_loop] at h
    split at h
    · cases h
    · obtain ⟨h1, h2⟩ := ih _ h
      rw [fgetc_content] at h1
      exact ⟨h1, Nat.le_trans (fgetc_pos_ge st) h2⟩

theorem fgetc_while_equal_content (st : FILE) (s : List Char) :
    (fgetc_while_equal st s).2.content = st.content ∧ st.pos ≤ (fgetc_while_equal st s).2.pos := by
  unfold fgetc_while_equal
  simp only
  split
  · rename_i st' h
    exact fgetc_while_equal_loop_content _ st st' h
  · exact ⟨rfl, Nat.le_refl _⟩

theorem fgetc_while_equal_false (st : FILE) (s : List Char)
    (h : (fgetc_while_equal st s).1 = false) : (fgetc_while_equal st s).2 = st := by
  unfold fgetc_while_equal at h ⊢
  simp only at h ⊢
  split
  · rename_i st' h'
    rw [h'] at h
    cases h
  · rfl

theorem util_fseek_string_content (st : FILE) (s : List Char) (skip : Bool) :
    (util_fseek_string st s skip).2.content = st.content ∧
      st.pos ≤ (util_fseek_string st s skip).2.pos := by
  unfold util_fseek_string
  split
  · exact ⟨rfl, by simp only; omega⟩
  · exact ⟨rfl, Nat.le_refl _⟩

theorem match_at_content (c : Int) (st : FILE) (s : List Char) :
    (match_at c st s).2.content = st.content ∧ st.pos ≤ (match_at c st s).2.pos := by
  unfold match_at
  split
  · exact fgetc_while_equal_content st _
  · exact ⟨rfl, Nat.le_refl _⟩

theorem match_at_false (c : Int) (st : FILE) (s : List Char)
    (h : (match_at c st s).1 = false) : (match_at c st s).2 = st := by
  unfold match_at at h ⊢
  split
  · rename_i hc
    rw [if_pos hc] at h
    exact fgetc_while_equal_false st _ h
  · rfl

/-- A pass of the seek loop that begins with a quoter. -/
theorem seek_loop_quoter (parser : parser_struct) (cs t : List Char) (skip : Bool)
    (fuel : Nat) (st : FILE)
    (hq : is_in_quoters (int_to_char (fgetc st).1) parser = true) :
    parser_fseek_string_loop parser cs t skip (fuel + 1) st =
      parser_fseek_string_loop parser cs t skip fuel
        (if (fseek_quote_end (int_to_char (fgetc st).1) (fgetc st).2).1 = false then
          fseek_end (fseek_set (fseek_quote_end (int_to_char (fgetc st).1) (fgetc st).2).2
            (ftell (fgetc st).2))
        else (fseek_quote_end (int_to_char (fgetc st).1) (fgetc st).2).2) := by
  rw [parser_fseek_string_loop]
  simp only [hq, if_true]
  cases (fseek_quote_end (int_to_char (fgetc st).1) (fgetc st).2).1 <;> simp

/-- A pass of the seek loop that begins with the comment start. -/
theorem seek_loop_comment (parser : parser_struct) (cs t ce : List Char) (skip : Bool)
    (fuel : Nat) (st : FILE)
    (hq : is_in_quoters (int_to_char (fgetc st).1) parser = false)
    (hce : parser.comment_end = some ce)
    (hr : (match_at (fgetc st).1 (fgetc st).2 cs).1 = true) :
    parser_fseek_string_loop parser cs t skip (fuel + 1) st =
      parser_fseek_string_loop parser cs t skip fuel
        (if (util_fseek_string (match_at (fgetc st).1 (fgetc st).2 cs).2 ce skip).1 = false then
          fseek_end (fseek_set
            (util_fseek_string (match_at (fgetc st).1 (fgetc st).2 cs).2 ce skip).2
            (ftell (match_at (fgetc st).1 (fgetc st).2 cs).2 - strlen cs))
        else (util_fseek_string (match_at (fgetc st).1 (fgetc st).2 cs).2 ce skip).2) := by
  rw [parser_fseek_string_loop]
  simp only [hq, hr, hce, if_true, Bool.false_eq_true, if_false]
  cases (util_fseek_string (match_at (fgetc st).1 (fgetc st).2 cs).2 ce skip).1 <;> simp

/-- A pass of the seek loop that comes to the test of the target. -/
theorem seek_loop_target (parser : parser_struct) (cs t : List Char) (skip : Bool)
    (fuel : Nat) (st : FILE)
    (hq : is_in_quoters (int_to_char (fgetc st).1) parser = false)
    (hr : (match_at (fgetc st).1 (fgetc st).2 cs).1 = false) :
    parser_fseek_string_loop parser cs t skip (fuel + 1) st =
      if (match_at (fgetc st).1 (fgetc st).2 t).1 = true then
        SeekOutcome.done true (match_at (fgetc st).1 (fgetc st).2 t).2
      else if (fgetc st).1 = EOF then SeekOutcome.done false (fgetc st).2
      else parser_fseek_string_loop parser cs t skip fuel (fgetc st).2 := by
  have hr2 := match_at_false _ _ _ hr
  rw [parser_fseek_string_loop]
  simp only [hq, hr, hr2, Bool.false_eq_true, if_false]
  by_cases he : (match_at (fgetc st).1 (fgetc st).2 t).1 = true
  · simp only [he, if_true]
  · have he' : (match_at (fgetc st).1 (fgetc st).2 t).1 = false := by simpa using he
    simp only [he', match_at_false _ _ _ he', Bool.false_eq_true, if_false]

/-- A pass of the seek loop that begins with the comment start, without a comment end. -/
theorem seek_loop_comment_none (parser : parser_struct) (cs t : List Char) (skip : Bool)
    (fuel : Nat) (st : FILE)
    (hq : is_in_quoters (int_to_char (fgetc st).1) parser = false)
    (hce : parser.comment_end = none)
    (hr : (match_at (fgetc st).1 (fgetc st).2 cs).1 = true) :
    parser_fseek_string_loop parser cs t skip (fuel + 1) st = SeekOutcome.undefined := by
  rw [parser_fseek_string_loop]
  simp only [hq, hr, hce, if_true, Bool.false_eq_true, if_false]

/-- The three shapes of a pass of the seek loop: it goes on from a stream with the same
bytes, not before the byte it has read unless at the end of the file; or it is undefined; or
it ends, with success only when the target has been read. -/
theorem seek_loop_cases (parser : parser_struct) (cs t : List Char) (skip : Bool)
    (fuel : Nat) (st : FILE) :
    (∃ st1 : FILE, st1.content = st.content ∧
        ((fgetc st).2.pos ≤ st1.pos ∨ st1.pos = st.content.length) ∧
        parser_fseek_string_loop parser cs t skip (fuel + 1) st =
          parser_fseek_string_loop parser cs t skip fuel st1) ∨
      parser_fseek_string_loop parser cs t skip (fuel + 1) st = SeekOutcome.undefined ∨
      (∃ f : Bool, ∃ st1 : FILE, st1.content = st.content ∧
        (f = true → (match_at (fgetc st).1 (fgetc st).2 t).1 = true) ∧
        parser_fseek_string_loop parser cs t skip (fuel + 1) st = SeekOutcome.done f st1) := by
  have hg : (fgetc st).2.content = st.content := fgetc_content st
  by_cases hq : is_in_quoters (int_to_char (fgetc st).1) parser = true
  · left
    refine ⟨_, ?_, ?_, seek_loop_quoter parser cs t skip fuel st hq⟩
    · have hc := (fseek_quote_end_content (int_to_char (fgetc st).1) (fgetc st).2)
      split
      · simp only [fseek_end, fseek_set, hc, hg]
      · rw [hc, hg]
    · split
      · right
        simp only [fseek_end, fseek_set, fseek_quote_end_content, hg]
      · left
        exact fseek_quote_end_pos_ge _ _
  · have hq' : is_in_quoters (int_to_char (fgetc st).1) parser = false := by simpa using hq
    have hm := (match_at_content (fgetc st).1 (fgetc st).2 cs).1
    have hmp := (match_at_content (fgetc st).1 (fgetc st).2 cs).2
    by_cases hr : (match_at (fgetc st).1 (fgetc st).2 cs).1 = true
    · cases hce : parser.comment_end with
      | none => exact Or.inr (Or.inl (seek_loop_comment_none parser cs t skip fuel st hq' hce hr))
      | some ce =>
        left
        have hu := (util_fseek_string_content (match_at (fgetc st).1 (fgetc st).2 cs).2 ce skip).1
        have hup :=
          (util_fseek_string_content (match_at (fgetc st).1 (fgetc st).2 cs).2 ce skip).2
        refine ⟨_, ?_, ?_, seek_loop_comment parser cs t ce skip fuel st hq' hce hr⟩
        · split
          · simp only [fseek_end, fseek_set, hu, hm, hg]
          · rw [hu, hm, hg]
        · split
          · right
            simp only [fseek_end, fseek_set, hu, hm, hg]
          · left
            exact Nat.le_trans hmp hup
    · have hr' : (match_at (fgetc st).1 (fgetc st).2 cs).1 = false := by simpa using hr
      have ht := seek_loop_target parser cs t skip fuel st hq' hr'
      by_cases he : (match_at (fgetc st).1 (fgetc st).2 t).1 = true
      · right; right
        rw [if_pos he] at ht
        exact ⟨true, _, ((match_at_content (fgetc st).1 (fgetc st).2 t).1).trans hg,
          fun _ => he, ht⟩
      · rw [if_neg he] at ht
        by_cases hc : (fgetc st).1 = EOF
        · right; right
          rw [if_pos hc] at ht
          exact ⟨false, _, hg, fun e => absurd e (by decide), ht⟩
        · left
          rw [if_neg hc] at ht
          exact ⟨_, hg, Or.inl (Nat.le_refl _), ht⟩

/-- The loop of the seek leaves the bytes of the stream as they are. -/
theorem parser_fseek_string_loop_content (parser : parser_struct) (cs t : List Char)
    (skip : Bool) (fuel : Nat) (st : FILE) (f : Bool) (st' : FILE)
    (h : parser_fseek_string_loop parser cs t skip fuel st = SeekOutcome.done f st') :
    st'.content = st.content := by
  induction fuel generalizing st with
  | zero => rw [parser_fseek_string_loop] at h; cases h
  | succ fuel ih =>
    rcases seek_loop_cases parser cs t skip fuel st with
      ⟨st1, hc, _, e⟩ | e | ⟨f1, st1, hc, _, e⟩
    · rw [e] at h
      exact (ih st1 h).trans hc
    · rw [e] at h; cases h
    · rw [e] at h
      cases h
      exact hc

/-- The loop of the seek never ends in `util_abort`. -/
theorem parser_fseek_string_loop_ne_abort (parser : parser_struct) (cs t : List Char)
    (skip : Bool) (fuel : Nat) (st : FILE) :
    parser_fseek_string_loop parser cs t skip fuel st ≠ SeekOutcome.abort := by
  induction fuel generalizing st with
  | zero => rw [parser_fseek_string_loop]; intro h; cases h
  | succ fuel ih =>
    rcases seek_loop_cases parser cs t skip fuel st with
      ⟨st1, _, _, e⟩ | e | ⟨f1, st1, _, _, e⟩
    · rw [e]; exact ih st1
    · rw [e]; intro h; cases h
    · rw [e]; intro h; cases h

/-! ## C15: a failed seek leaves the stream where it was -/

/-- C15: whenever `parser_fseek_string` returns false, the stream is at the position it had
on entry, with its bytes untouched; this holds for every configuration, stream, target and
value of `skip_string`, whatever quotations and comments were met on the way. -/
theorem seek_failure_restores_position (cfg : parser_struct) (stream : FILE)
    (target : List Char) (skip_string : Bool) (final : FILE)
    (h : parser_fseek_string cfg stream target skip_string = SeekOutcome.done false final) :
    final.pos = stream.pos ∧ final.content = stream.content := by
  unfold parser_fseek_string parser_fseek_string_fuel at h
  cases hcs : cfg.comment_start with
  | none => rw [hcs] at h; cases h
  | some cs =>
    rw [hcs] at h
    simp only at h
    by_cases hs : strstr_found target cs = true
    · rw [if_pos hs] at h; cases h
    · rw [if_neg hs] at h
      cases hl : parser_fseek_string_loop cfg cs target skip_string
          (stream.content.length - stream.pos + 1) stream with
      | done f st1 =>
        rw [hl] at h
        have hc := parser_fseek_string_loop_content cfg cs target skip_string _ stream f st1 hl
        cases f with
        | true =>
          simp only at h
          by_cases hk : (!skip_string) = true
          · rw [if_pos hk] at h; cases h
          · rw [if_neg hk] at h; cases h
        | false =>
          simp only at h
          cases h
          exact ⟨rfl, hc⟩
      | abort => rw [hl] at h; cases h
      | undefined => rw [hl] at h; cases h
      | out_of_fuel => rw [hl] at h; cases h

/-- The seek for `z` from position 1 of `a "bc`, where the quotation is not terminated,
fails and leaves the stream at position 1. -/
theorem seek_failure_restores_position_witness :
    parser_fseek_string hash_comment_config ⟨['a', ' ', '"', 'b', 'c'], 1⟩ ['z'] false =
        SeekOutcome.done false ⟨['a', ' ', '"', 'b', 'c'], 1⟩ ∧
      (1 = (1 : Nat) ∧ ['a', ' ', '"', 'b', 'c'] = ['a', ' ', '"', 'b', 'c']) :=
  ⟨by decide, seek_failure_restores_position hash_comment_config
    ⟨['a', ' ', '"', 'b', 'c'], 1⟩ ['z'] false ⟨['a', ' ', '"', 'b', 'c'], 1⟩ (by decide)⟩

/-! ## Streams: comparison of bytes -/

theorem char_toNat_inj (c x : Char) (h : c.toNat = x.toNat) : c = x := by
  rw [← Char.ofNat_toNat c, h, Char.ofNat_toNat]

theorem int_to_char_toNat (c : Char) : int_to_char (c.toNat : Int) = c := by
  have h : ((c.toNat : Int) = EOF) = False := by
    simp only [EOF, eq_iff_iff, iff_false]
    omega
  simp only [int_to_char, h, if_false, Int.toNat_ofNat, Char.ofNat_toNat]

theorem char_to_int_ascii (x : Char) (hx : x.toNat < 128) : char_to_int x = (x.toNat : Int) := by
  unfold char_to_int
  rw [if_neg (by omega)]

/-- A byte read from the stream that compares equal to a `char` is that character. -/
theorem eq_of_toNat_eq_char_to_int (c x : Char) (h : (c.toNat : Int) = char_to_int x) :
    c = x := by
  unfold char_to_int at h
  split at h
  · omega
  · exact char_toNat_inj c x (by omega)

theorem EOF_ne_char_to_int (x : Char) (hx : x.toNat < 128) : EOF ≠ char_to_int x := by
  rw [char_to_int_ascii x hx]
  simp only [EOF]
  omega

/-- The loop of `fgetc_while_equal` on an ASCII string: it succeeds exactly when the string
is next in the stream, and then stands behind it. -/
theorem fgetc_while_equal_loop_spec (s : List Char) (hs : ∀ c ∈ s, c.toNat < 128)
    (st : FILE) :
    fgetc_while_equal_loop s st =
      if s.isPrefixOf (st.content.drop st.pos) = true then
        some { st with pos := st.pos + s.length }
      else none := by
  induction s generalizing st with
  | nil => simp [fgetc_while_equal_loop]
  | cons x xs ih =>
    have hx : x.toNat < 128 := hs x (List.mem_cons_self _ _)
    have hxs : ∀ c ∈ xs, c.toNat < 128 := fun c hc => hs c (List.mem_cons_of_mem _ hc)
    cases hr : st.content.drop st.pos with
    | nil =>
      rw [fgetc_while_equal_loop, fgetc_drop_nil st hr]
      simp [EOF_ne_char_to_int x hx]
    | cons c rest =>
      have hrest : List.drop (st.pos + 1) st.content = rest := by
        rw [← List.drop_drop, hr]; rfl
      rw [fgetc_while_equal_loop, fgetc_drop_cons st c rest hr]
      by_cases hcx : c = x
      · subst hcx
        simp only [char_to_int_ascii c hx, ne_eq, not_true_eq_false, if_false]
        rw [ih hxs]
        simp only [hrest, List.isPrefixOf, beq_self_eq_true, Bool.true_and, List.length_cons]
        split
        · congr 2; omega
        · rfl
      · have hne : (c.toNat : Int) ≠ char_to_int x :=
          fun e => hcx (eq_of_toNat_eq_char_to_int c x e)
        have hb : (x == c) = false := by
          simp only [beq_eq_false_iff_ne, ne_eq]
          exact fun e => hcx e.symm
        simp only [hne, ne_eq, not_false_eq_true, if_true, List.isPrefixOf, hb, Bool.false_and,
          Bool.false_eq_true, if_false]

/-- Function `fgetc_while_equal` on an ASCII C string. -/
theorem fgetc_while_equal_spec (s : List Char) (hs : ∀ c ∈ s, c.toNat < 128)
    (hn : NUL ∉ s) (st : FILE) :
    fgetc_while_equal st s =
      if s.isPrefixOf (st.content.drop st.pos) = true then
        (true, { st with pos := st.pos + s.length })
      else (false, st) := by
  unfold fgetc_while_equal
  simp only [cstr_eq_self hn, fgetc_while_equal_loop_spec s hs st]
  by_cases h : s.isPrefixOf (st.content.drop st.pos) = true
  · simp only [h, if_true]
  · simp only [h, Bool.false_eq_true, if_false]
    rfl

/-! ## Streams: the seek on a remainder without quoters and comments -/

/-- The test of an ASCII string at a byte of the stream. -/
theorem match_at_spec (c x : Char) (xs : List Char) (hs : ∀ y ∈ x :: xs, y.toNat < 128)
    (hn : NUL ∉ x :: xs) (st : FILE) :
    match_at (c.toNat : Int) st (x :: xs) =
      if (x :: xs).isPrefixOf (c :: st.content.drop st.pos) = true then
        (true, { st with pos := st.pos + xs.length })
      else (false, st) := by
  have hx : x.toNat < 128 := hs x (List.mem_cons_self _ _)
  have hxs : ∀ y ∈ xs, y.toNat < 128 := fun y hy => hs y (List.mem_cons_of_mem _ hy)
  have hnx : NUL ∉ xs := fun e => hn (List.mem_cons_of_mem _ e)
  unfold match_at
  simp only [charAt_cons_zero, List.drop_one, List.tail_cons, List.isPrefixOf]
  by_cases hcx : c = x
  · subst hcx
    simp only [char_to_int_ascii c hx, if_true, beq_self_eq_true, Bool.true_and]
    exact fgetc_while_equal_spec xs hxs hnx st
  · have hne : ¬ (c.toNat : Int) = char_to_int x :=
      fun e => hcx (eq_of_toNat_eq_char_to_int c x e)
    have hb : (x == c) = false := by
      simp only [beq_eq_false_iff_ne, ne_eq]
      exact fun e => hcx e.symm
    simp only [hne, if_false, hb, Bool.false_and, Bool.false_eq_true]

/-- The test of an ASCII string at the end of the file fails. -/
theorem match_at_EOF (x : Char) (xs : List Char) (hx : x.toNat < 128) (st : FILE) :
    match_at EOF st (x :: xs) = (false, st) := by
  unfold match_at
  rw [charAt_cons_zero, if_neg (EOF_ne_char_to_int x hx)]

/-- A pass of the seek loop at a byte that is no quoter and not the first character of the
comment start: the target is tested there, and the scan goes on behind the byte. -/
theorem seek_step_plain (cfg : parser_struct) (cs : List Char) (x : Char) (xs : List Char)
    (skip : Bool) (hs : ∀ y ∈ x :: xs, y.toNat < 128) (hn : NUL ∉ x :: xs)
    (fuel : Nat) (st : FILE) (c : Char) (rest : List Char)
    (hr : st.content.drop st.pos = c :: rest)
    (hq : is_in_quoters c cfg = false) (hc0 : c ≠ charAt cs 0) :
    parser_fseek_string_loop cfg cs (x :: xs) skip (fuel + 1) st =
      if (x :: xs).isPrefixOf (c :: rest) = true then
        SeekOutcome.done true { st with pos := st.pos + (x :: xs).length }
      else parser_fseek_string_loop cfg cs (x :: xs) skip fuel { st with pos := st.pos + 1 } := by
  have hf := fgetc_drop_cons st c rest hr
  have hrest : List.drop (st.pos + 1) st.content = rest := by
    rw [← List.drop_drop, hr]; rfl
  have hq' : is_in_quoters (int_to_char (fgetc st).1) cfg = false := by
    rw [hf]
    simp only [int_to_char_toNat, hq]
  have hm : (match_at (fgetc st).1 (fgetc st).2 cs).1 = false := by
    rw [hf]
    unfold match_at
    rw [if_neg (fun e => hc0 (eq_of_toNat_eq_char_to_int _ _ e))]
  have hne : ¬ (c.toNat : Int) = EOF := by
    simp only [EOF]
    omega
  rw [seek_loop_target cfg cs (x :: xs) skip fuel st hq' hm, hf]
  simp only [match_at_spec c x xs hs hn, hrest, hne, if_false]
  by_cases hp : (x :: xs).isPrefixOf (c :: rest) = true
  · simp only [hp, if_true, List.length_cons]
    congr 2
    omega
  · simp only [hp, if_false, Bool.false_eq_true]

/-- At the end of the file the seek loop never finds an ASCII target. -/
theorem seek_loop_eof (cfg : parser_struct) (cs : List Char) (x : Char) (xs : List Char)
    (skip : Bool) (hx : x.toNat < 128) (fuel : Nat) (st : FILE)
    (h : st.content.length ≤ st.pos) (st' : FILE) :
    parser_fseek_string_loop cfg cs (x :: xs) skip fuel st ≠ SeekOutcome.done true st' := by
  induction fuel generalizing st with
  | zero => rw [parser_fseek_string_loop]; intro e; cases e
  | succ fuel ih =>
    have hf : fgetc st = (EOF, st) := fgetc_drop_nil st (List.drop_eq_nil_iff.mpr h)
    rcases seek_loop_cases cfg cs (x :: xs) skip fuel st with
      ⟨st1, hc, hp, e⟩ | e | ⟨f1, st1, _, hm, e⟩
    · rw [e]
      refine ih st1 ?_
      rw [hc]
      rcases hp with hp | hp
      · rw [hf] at hp
        exact Nat.le_trans h hp
      · exact Nat.le_of_eq hp.symm
    · rw [e]; intro e'; cases e'
    · rw [e]
      intro e'
      cases e'
      have := hm rfl
      rw [hf] at this
      simp only [match_at_EOF x xs hx] at this
      cases this

/-- At the end of the file, the seek loop of a configuration in which the byte 255 is no
quoter and not the first character of the comment start ends without success. -/
theorem seek_loop_eof_safe (cfg : parser_struct) (cs : List Char) (x : Char) (xs : List Char)
    (skip : Bool) (hx : x.toNat < 128) (fuel : Nat) (st : FILE)
    (h : st.content.drop st.pos = [])
    (hq : is_in_quoters (Char.ofNat 255) cfg = false)
    (hc0 : char_to_int (charAt cs 0) ≠ EOF) :
    parser_fseek_string_loop cfg cs (x :: xs) skip (fuel + 1) st = SeekOutcome.done false st := by
  have hf : fgetc st = (EOF, st) := fgetc_drop_nil st h
  have hi : int_to_char EOF = Char.ofNat 255 := by simp [int_to_char]
  have hq' : is_in_quoters (int_to_char (fgetc st).1) cfg = false := by
    rw [hf]
    simp only [hi, hq]
  have hm : (match_at (fgetc st).1 (fgetc st).2 cs).1 = false := by
    rw [hf]
    unfold match_at
    rw [if_neg (fun e => hc0 e.symm)]
  rw [seek_loop_target cfg cs (x :: xs) skip fuel st hq' hm, hf]
  simp only [match_at_EOF x xs hx, Bool.false_eq_true, if_false, if_true]

/-! ## Leftmost occurrences -/

theorem first_occurrence_some (pat : List Char) (text : List Char) (k : Nat)
    (h : first_occurrence pat text = some k) :
    occurs_at pat text k = true ∧ ∀ j, j < k → occurs_at pat text j = false := by
  induction text generalizing k with
  | nil =>
    simp only [first_occurrence] at h
    split at h
    · cases h
      rename_i hp
      exact ⟨by simpa [occurs_at] using hp, fun j hj => absurd hj (Nat.not_lt_zero j)⟩
    · cases h
  | cons c rest ih =>
    simp only [first_occurrence] at h
    split at h
    · cases h
      rename_i hp
      exact ⟨by simpa [occurs_at] using hp, fun j hj => absurd hj (Nat.not_lt_zero j)⟩
    · rename_i hp
      cases hr : first_occurrence pat rest with
      | none => rw [hr] at h; cases h
      | some k1 =>
        rw [hr, Option.map_some'] at h
        have hk := Option.some.inj h
        simp only at hk
        subst hk
        obtain ⟨h1, h2⟩ := ih k1 hr
        refine ⟨by simpa [occurs_at] using h1, fun j hj => ?_⟩
        cases j with
        | zero =>
          simp only [occurs_at, List.drop_zero]
          exact Bool.eq_false_iff.mpr hp
        | succ j =>
          have := h2 j (by omega)
          simpa [occurs_at] using this

theorem first_occurrence_none (pat : List Char) (text : List Char)
    (h : first_occurrence pat text = none) (k : Nat) : occurs_at pat text k = false := by
  induction text generalizing k with
  | nil =>
    simp only [first_occurrence] at h
    split at h
    · cases h
    · rename_i hp
      simp only [occurs_at, List.drop_nil]
      exact Bool.eq_false_iff.mpr hp
  | cons c rest ih =>
    simp only [first_occurrence] at h
    split at h
    · cases h
    · rename_i hp
      cases hr : first_occurrence pat rest with
      | some k1 => rw [hr] at h; cases h
      | none =>
        cases k with
        | zero =>
          simp only [occurs_at, List.drop_zero]
          exact Bool.eq_false_iff.mpr hp
        | succ k =>
          have := ih hr k
          simpa [occurs_at] using this

/-- The leftmost occurrence is the one `first_occurrence` computes. -/
theorem first_occurrence_of_leftmost (pat : List Char) (text : List Char) (k : Nat)
    (h1 : occurs_at pat text k = true) (h2 : ∀ j, j < k → occurs_at pat text j = false) :
    first_occurrence pat text = some k := by
  cases hr : first_occurrence pat text with
  | none =>
    have := first_occurrence_none pat text hr k
    rw [h1] at this
    cases this
  | some k1 =>
    obtain ⟨h3, h4⟩ := first_occurrence_some pat text k1 hr
    rcases Nat.lt_trichotomy k1 k with hlt | heq | hgt
    · have := h2 k1 hlt
      rw [h3] at this
      cases this
    · rw [heq]
    · have := h4 k hgt
      rw [h1] at this
      cases this

theorem first_occurrence_le (pat : List Char) (text : List Char) (k : Nat)
    (h : first_occurrence pat text = some k) : k ≤ text.length := by
  induction text generalizing k with
  | nil =>
    simp only [first_occurrence] at h
    split at h
    · cases h; exact Nat.le_refl _
    · cases h
  | cons c rest ih =>
    simp only [first_occurrence] at h
    split at h
    · cases h; exact Nat.zero_le _
    · cases hr : first_occurrence pat rest with
      | none => rw [hr] at h; cases h
      | some k1 =>
        rw [hr, Option.map_some'] at h
        have hk := Option.some.inj h
        simp only at hk
        subst hk
        have := ih k1 hr
        simp only [List.length_cons]
        omega

/-! ## The scan of a remainder without quoters and comments -/

/-- With the target in the remainder, the loop ends behind its leftmost occurrence. -/
theorem seek_scan_found (cfg : parser_struct) (cs : List Char) (x : Char) (xs : List Char)
    (skip : Bool) (hs : ∀ y ∈ x :: xs, y.toNat < 128) (hn : NUL ∉ x :: xs)
    (r : List Char) (st : FILE) (hr : st.content.drop st.pos = r)
    (hq : ∀ c ∈ r, is_in_quoters c cfg = false) (hc0 : charAt cs 0 ∉ r)
    (k : Nat) (hk : first_occurrence (x :: xs) r = some k) (fuel : Nat) (hfuel : k < fuel) :
    parser_fseek_string_loop cfg cs (x :: xs) skip fuel st =
      SeekOutcome.done true { st with pos := st.pos + k + (x :: xs).length } := by
  induction r generalizing st k fuel with
  | nil =>
    simp [first_occurrence, List.isPrefixOf] at hk
  | cons c rest ih =>
    obtain ⟨fuel, rfl⟩ : ∃ f, fuel = f + 1 := ⟨fuel - 1, by omega⟩
    have hqc : is_in_quoters c cfg = false := hq c (List.mem_cons_self _ _)
    have hcc : c ≠ charAt cs 0 := fun e => hc0 (by rw [← e]; exact List.mem_cons_self _ _)
    have hrest : List.drop (st.pos + 1) st.content = rest := by
      rw [← List.drop_drop, hr]; rfl
    rw [seek_step_plain cfg cs x xs skip hs hn fuel st c rest hr hqc hcc]
    simp only [first_occurrence] at hk
    by_cases hp : (x :: xs).isPrefixOf (c :: rest) = true
    · rw [if_pos hp] at hk ⊢
      cases hk
      rfl
    · rw [if_neg hp] at hk ⊢
      cases hk1 : first_occurrence (x :: xs) rest with
      | none => rw [hk1] at hk; cases hk
      | some k1 =>
        rw [hk1, Option.map_some'] at hk
        have hk2 := Option.some.inj hk
        simp only at hk2
        subst hk2
        rw [ih { st with pos := st.pos + 1 } hrest
          (fun d hd => hq d (List.mem_cons_of_mem _ hd))
          (fun e => hc0 (List.mem_cons_of_mem _ e)) k1 hk1 fuel (by omega)]
        congr 2
        simp only
        omega

/-- Without the target in the remainder, the loop never reports success. -/
theorem seek_scan_absent (cfg : parser_struct) (cs : List Char) (x : Char) (xs : List Char)
    (skip : Bool) (hs : ∀ y ∈ x :: xs, y.toNat < 128) (hn : NUL ∉ x :: xs)
    (r : List Char) (st : FILE) (hr : st.content.drop st.pos = r)
    (hq : ∀ c ∈ r, is_in_quoters c cfg = false) (hc0 : charAt cs 0 ∉ r)
    (hk : first_occurrence (x :: xs) r = none) (fuel : Nat) (st' : FILE) :
    parser_fseek_string_loop cfg cs (x :: xs) skip fuel st ≠ SeekOutcome.done true st' := by
  induction r generalizing st fuel with
  | nil =>
    exact seek_loop_eof cfg cs x xs skip (hs x (List.mem_cons_self _ _)) fuel st
      (List.drop_eq_nil_iff.mp hr) st'
  | cons c rest ih =>
    cases fuel with
    | zero => rw [parser_fseek_string_loop]; intro e; cases e
    | succ fuel =>
      have hqc : is_in_quoters c cfg = false := hq c (List.mem_cons_self _ _)
      have hcc : c ≠ charAt cs 0 := fun e => hc0 (by rw [← e]; exact List.mem_cons_self _ _)
      have hrest : List.drop (st.pos + 1) st.content = rest := by
        rw [← List.drop_drop, hr]; rfl
      rw [seek_step_plain cfg cs x xs skip hs hn fuel st c rest hr hqc hcc]
      simp only [first_occurrence] at hk
      by_cases hp : (x :: xs).isPrefixOf (c :: rest) = true
      · rw [if_pos hp] at hk; cases hk
      · rw [if_neg hp] at hk ⊢
        cases hk1 : first_occurrence (x :: xs) rest with
        | some k1 => rw [hk1] at hk; cases hk
        | none =>
          exact ih { st with pos := st.pos + 1 } hrest
            (fun d hd => hq d (List.mem_cons_of_mem _ hd))
            (fun e => hc0 (List.mem_cons_of_mem _ e)) hk1 fuel

/-- Without the target in the remainder, the loop of a configuration in which the byte 255
is no quoter and not the first character of the comment start ends without success at the
end of the file. -/
theorem seek_scan_absent_safe (cfg : parser_struct) (cs : List Char) (x : Char)
    (xs : List Char) (skip : Bool) (hs : ∀ y ∈ x :: xs, y.toNat < 128) (hn : NUL ∉ x :: xs)
    (hqe : is_in_quoters (Char.ofNat 255) cfg = false)
    (hce : char_to_int (charAt cs 0) ≠ EOF)
    (r : List Char) (st : FILE) (hr : st.content.drop st.pos = r)
    (hq : ∀ c ∈ r, is_in_quoters c cfg = false) (hc0 : charAt cs 0 ∉ r)
    (hk : first_occurrence (x :: xs) r = none) (fuel : Nat) (hfuel : r.length < fuel) :
    parser_fseek_string_loop cfg cs (x :: xs) skip fuel st =
      SeekOutcome.done false { st with pos := st.pos + r.length } := by
  induction r generalizing st fuel with
  | nil =>
    obtain ⟨fuel, rfl⟩ : ∃ f, fuel = f + 1 := ⟨fuel - 1, by omega⟩
    exact seek_loop_eof_safe cfg cs x xs skip (hs x (List.mem_cons_self _ _)) fuel st hr hqe hce
  | cons c rest ih =>
    simp only [List.length_cons] at hfuel
    obtain ⟨fuel, rfl⟩ : ∃ f, fuel = f + 1 := ⟨fuel - 1, by omega⟩
    have hqc : is_in_quoters c cfg = false := hq c (List.mem_cons_self _ _)
    have hcc : c ≠ charAt cs 0 := fun e => hc0 (by rw [← e]; exact List.mem_cons_self _ _)
    have hrest : List.drop (st.pos + 1) st.content = rest := by
      rw [← List.drop_drop, hr]; rfl
    rw [seek_step_plain cfg cs x xs skip hs hn fuel st c rest hr hqc hcc]
    simp only [first_occurrence] at hk
    by_cases hp : (x :: xs).isPrefixOf (c :: rest) = true
    · rw [if_pos hp] at hk; cases hk
    · rw [if_neg hp] at hk ⊢
      cases hk1 : first_occurrence (x :: xs) rest with
      | some k1 => rw [hk1] at hk; cases hk
      | none =>
        rw [ih { st with pos := st.pos + 1 } hrest
          (fun d hd => hq d (List.mem_cons_of_mem _ hd))
          (fun e => hc0 (List.mem_cons_of_mem _ e)) hk1 fuel (by omega)]
        congr 2
        simp only [List.length_cons]
        omega

/-! ## C16: the seek on a remainder without quoters and comments -/

/-- The seek as a search for the leftmost occurrence: for a configuration with comment
delimiters, a stream whose remainder from the current position holds no character that
`is_in_quoters` accepts and not the first character of `comment_start`, and a non-empty
ASCII target that does not contain `comment_start`, the seek ends at the leftmost
occurrence of the target, at its first character when `skip_string` is false and behind it
when `skip_string` is true; it returns true exactly when the target occurs in the
remainder; and when the byte 255 is no quoter and not the first character of
`comment_start`, it returns false with the stream as on entry when the target does not
occur. -/
theorem seek_finds_leftmost (cfg : parser_struct) (cs ce : List Char) (stream : FILE)
    (target : List Char) (skip_string : Bool)
    (hcs : cfg.comment_start = some cs) (hce : cfg.comment_end = some ce)
    (hq : ∀ c ∈ stream.content.drop stream.pos, is_in_quoters c cfg = false)
    (hc0 : charAt cs 0 ∉ stream.content.drop stream.pos)
    (hne : target ≠ []) (hnul : NUL ∉ target) (hascii : ∀ c ∈ target, c.toNat < 128)
    (hsub : strstr_found target cs = false) :
    (∀ k, occurs_at target (stream.content.drop stream.pos) k = true →
        (∀ j, j < k → occurs_at target (stream.content.drop stream.pos) j = false) →
        parser_fseek_string cfg stream target skip_string =
          SeekOutcome.done true
            { stream with
              pos := stream.pos + k + (if skip_string = true then target.length else 0) }) ∧
      ((∃ final, parser_fseek_string cfg stream target skip_string =
          SeekOutcome.done true final) ↔
        ∃ k, occurs_at target (stream.content.drop stream.pos) k = true) ∧
      (is_in_quoters (Char.ofNat 255) cfg = false → char_to_int (charAt cs 0) ≠ EOF →
        (∀ k, occurs_at target (stream.content.drop stream.pos) k = false) →
        parser_fseek_string cfg stream target skip_string = SeekOutcome.done false stream) := by
  have _ := hce
  obtain ⟨x, xs, rfl⟩ : ∃ x xs, target = x :: xs := by
    cases target with
    | nil => exact absurd rfl hne
    | cons x xs => exact ⟨x, xs, rfl⟩
  have hunf : parser_fseek_string cfg stream (x :: xs) skip_string =
      (match parser_fseek_string_loop cfg cs (x :: xs) skip_string
          (stream.content.length - stream.pos + 1) stream with
        | SeekOutcome.done true s1 =>
          if (!skip_string) = true then
            SeekOutcome.done true (fseek_cur s1 (-(strlen (x :: xs) : Int)))
          else SeekOutcome.done true s1
        | SeekOutcome.done false s1 => SeekOutcome.done false (fseek_set s1 (ftell stream))
        | other => other) := by
    unfold parser_fseek_string parser_fseek_string_fuel
    simp only [hcs, hsub, Bool.false_eq_true, if_false]
  have hlen : (stream.content.drop stream.pos).length = stream.content.length - stream.pos :=
    List.length_drop _ _
  have hfound : ∀ k, first_occurrence (x :: xs) (stream.content.drop stream.pos) = some k →
      parser_fseek_string cfg stream (x :: xs) skip_string =
        SeekOutcome.done true
          { stream with
            pos := stream.pos + k + (if skip_string = true then (x :: xs).length else 0) } := by
    intro k hk
    have hkl := first_occurrence_le _ _ k hk
    rw [hunf, seek_scan_found cfg cs x xs skip_string hascii hnul _ stream rfl hq hc0 k hk _
      (by omega)]
    cases skip_string with
    | true => simp
    | false =>
      have hz : ((stream.pos + k + (x :: xs).length : Nat) : Int) +
          -(strlen (x :: xs) : Int) = ((stream.pos + k : Nat) : Int) := by
        rw [strlen_eq_length hnul]
        push_cast
        ring
      simp only [Bool.not_false, if_true, fseek_cur, hz, Bool.false_eq_true, if_false,
        Nat.add_zero, Int.toNat_ofNat]
      rw [if_neg (by omega)]
  refine ⟨fun k h1 h2 => hfound k (first_occurrence_of_leftmost _ _ k h1 h2), ⟨?_, ?_⟩, ?_⟩
  · rintro ⟨final, hfin⟩
    cases hk : first_occurrence (x :: xs) (stream.content.drop stream.pos) with
    | some k => exact ⟨k, (first_occurrence_some _ _ k hk).1⟩
    | none =>
      exfalso
      have hab := seek_scan_absent cfg cs x xs skip_string hascii hnul _ stream rfl hq hc0 hk
        (stream.content.length - stream.pos + 1)
      rw [hunf] at hfin
      cases hl : parser_fseek_string_loop cfg cs (x :: xs) skip_string
          (stream.content.length - stream.pos + 1) stream with
      | done f s1 =>
        cases f with
        | true => exact hab s1 hl
        | false => rw [hl] at hfin; cases hfin
      | abort => rw [hl] at hfin; cases hfin
      | undefined => rw [hl] at hfin; cases hfin
      | out_of_fuel => rw [hl] at hfin; cases hfin
  · rintro ⟨k, hk⟩
    cases hk1 : first_occurrence (x :: xs) (stream.content.drop stream.pos) with
    | some k1 => exact ⟨_, hfound k1 hk1⟩
    | none =>
      have := first_occurrence_none _ _ hk1 k
      rw [hk] at this
      cases this
  · intro hqe hc255 hno
    cases hk1 : first_occurrence (x :: xs) (stream.content.drop stream.pos) with
    | some k1 =>
      have := (first_occurrence_some _ _ k1 hk1).1
      rw [hno k1] at this
      cases this
    | none =>
      rw [hunf, seek_scan_absent_safe cfg cs x xs skip_string hascii hnul hqe hc255 _ stream rfl
        hq hc0 hk1 _ (by omega)]
      rfl

/-- The seek for `cd` in the stream `abcdcd` from position 1, for a configuration with the
quoter `"` and comments from `#` to the end of the line: the leftmost occurrence is at
offset 1 of the remainder, and with `skip_string` the stream ends at position 4. -/
theorem seek_finds_leftmost_witness :
    parser_fseek_string hash_comment_config ⟨['a', 'b', 'c', 'd', 'c', 'd'], 1⟩ ['c', 'd']
        true = SeekOutcome.done true ⟨['a', 'b', 'c', 'd', 'c', 'd'], 4⟩ :=
  (seek_finds_leftmost hash_comment_config ['#'] ['\n'] ⟨['a', 'b', 'c', 'd', 'c', 'd'], 1⟩
    ['c', 'd'] true rfl rfl (by decide) (by decide) (by decide) (by decide) (by decide)
    (by decide)).1 1 (by decide) (by decide)

/-- C16 at the input the code gets wrong: `in_set` asks `strchr`, which finds the
terminator of the set, so a NUL byte of the stream is taken for a quoter although it is no
character of `quoters` (and although `strspn`, in `length_of_initial_splitters`, does not
take it for a splitter).  In the ASCII stream `a`, NUL, `cd`, without a quoter character and
without `#`, the target `cd` occurs at offset 2 and the seek returns false; in `a`, NUL,
`cd`, NUL, `cd` it ends behind the second occurrence, at position 7, not at 4. -/
theorem seek_takes_nul_for_quoter :
    (∀ c ∈ ['a', '\x00', 'c', 'd', '\x00', 'c', 'd'],
        c.toNat < 128 ∧ c ∉ ['"'] ∧ c ≠ charAt ['#'] 0) ∧
      strstr_found ['c', 'd'] ['#'] = false ∧
      occurs_at ['c', 'd'] ['a', '\x00', 'c', 'd'] 2 = true ∧
      is_in_quoters '\x00' hash_comment_config = true ∧
      is_splitters '\x00' spec_config = true ∧
      length_of_initial_splitters ['\x00', ' '] spec_config = 0 ∧
      parser_fseek_string hash_comment_config ⟨['a', '\x00', 'c', 'd'], 0⟩ ['c', 'd'] false =
        SeekOutcome.done false ⟨['a', '\x00', 'c', 'd'], 0⟩ ∧
      parser_fseek_string hash_comment_config ⟨['a', '\x00', 'c', 'd'], 0⟩ ['c', 'd'] true =
        SeekOutcome.done false ⟨['a', '\x00', 'c', 'd'], 0⟩ ∧
      occurs_at ['c', 'd'] ['a', '\x00', 'c', 'd', '\x00', 'c', 'd'] 2 = true ∧
      parser_fseek_string hash_comment_config ⟨['a', '\x00', 'c', 'd', '\x00', 'c', 'd'], 0⟩
          ['c', 'd'] true =
        SeekOutcome.done true ⟨['a', '\x00', 'c', 'd', '\x00', 'c', 'd'], 7⟩ := by
  decide

/-! ## C17: the seek and the comment start -/

/-- With a comment start in the configuration, the seek ends in `util_abort` exactly when
the target contains the comment start; the test comes before the first read. -/
theorem parser_fseek_string_abort_iff (cfg : parser_struct) (cs : List Char) (stream : FILE)
    (target : List Char) (skip_string : Bool) (hcs : cfg.comment_start = some cs) :
    parser_fseek_string cfg stream target skip_string = SeekOutcome.abort ↔
      strstr_found target cs = true := by
  unfold parser_fseek_string parser_fseek_string_fuel
  rw [hcs]
  simp only
  by_cases hs : strstr_found target cs = true
  · rw [if_pos hs]
    exact ⟨fun _ => hs, fun _ => rfl⟩
  · rw [if_neg hs]
    refine ⟨fun h => ?_, fun h => absurd h hs⟩
    exfalso
    have hna := parser_fseek_string_loop_ne_abort cfg cs target skip_string
      (stream.content.length - stream.pos + 1) stream
    cases hl : parser_fseek_string_loop cfg cs target skip_string
        (stream.content.length - stream.pos + 1) stream with
    | done f s1 =>
      rw [hl] at h
      cases f with
      | true =>
        simp only at h
        by_cases hk : (!skip_string) = true
        · rw [if_pos hk] at h; cases h
        · rw [if_neg hk] at h; cases h
      | false => cases h
    | abort => exact hna hl
    | undefined => rw [hl] at h; cases h
    | out_of_fuel => rw [hl] at h; cases h

/-- C17 at the input the code gets wrong: `parser_alloc` accepts a configuration without
comment delimiters, and the seek of such a configuration hands the `NULL` in
`comment_start` to `strstr` before the first read, whatever the stream and the target: it
does not run as a search that only skips quotations. -/
theorem seek_without_comment_start :
    parser_alloc none (some ['"']) none none none none = some sole_quoter_config ∧
      parser_fseek_string sole_quoter_config ⟨['a', 'b'], 0⟩ ['b'] false =
        SeekOutcome.undefined ∧
      ∀ (cfg : parser_struct) (stream : FILE) (target : List Char) (skip_string : Bool),
        parser_fseek_string { cfg with comment_start := none } stream target skip_string =
          SeekOutcome.undefined := by
  refine ⟨by decide, by decide, ?_⟩
  intro cfg stream target skip_string
  unfold parser_fseek_string parser_fseek_string_fuel
  rfl

/-! ## C18: the end of a comment in the seek -/

/-- C18 at the input the code gets wrong: the seek hands its own `skip_string` to
`util_fseek_string` when it looks for the end of a comment, so without `skip_string` the
scan resumes at the first character of `comment_end`, not behind it.  In the stream
`#c`, newline, `K` the target newline, `K` is found without `skip_string` and is not found
with it. -/
theorem seek_comment_end_skip_flag :
    strstr_found ['\n', 'K'] ['#'] = false ∧
      util_fseek_string ⟨['#', 'c', '\n', 'K'], 1⟩ ['\n'] false =
        (true, ⟨['#', 'c', '\n', 'K'], 2⟩) ∧
      util_fseek_string ⟨['#', 'c', '\n', 'K'], 1⟩ ['\n'] true =
        (true, ⟨['#', 'c', '\n', 'K'], 3⟩) ∧
      parser_fseek_string hash_comment_config ⟨['#', 'c', '\n', 'K'], 0⟩ ['\n', 'K'] false =
        SeekOutcome.done true ⟨['#', 'c', '\n', 'K'], 2⟩ ∧
      parser_fseek_string hash_comment_config ⟨['#', 'c', '\n', 'K'], 0⟩ ['\n', 'K'] true =
        SeekOutcome.done false ⟨['#', 'c', '\n', 'K'], 0⟩ := by
  decide

/-! ## The indices of the stripper -/

/-- A pass of the stripper from a position inside the buffer: the indices move as
`strip_body_positions` says, the read index moves forward and stays inside the buffer, and
the characters written are the next characters of the buffer or none. -/
theorem strip_body_step (cfg : parser_struct) (b : List Char) (pos : Nat) (tgt : List Char)
    (r : Nat × List Char) (hpos : pos < b.length) (h : strip_body cfg b pos tgt = some r) :
    strip_body_positions cfg b pos tgt.length = some (r.1, r.2.length) ∧
      ∃ n, 0 < n ∧ r.1 = pos + n ∧ pos + n ≤ b.length ∧
        (r.2 = tgt ∨ r.2 = tgt ++ (b.drop pos).take n) := by
  have hlen : (b.drop pos).length = b.length - pos := List.length_drop _ _
  by_cases hc : length_of_comment (b.drop pos) cfg > 0
  · have hle := length_of_comment_le cfg (b.drop pos)
    have e : strip_body cfg b pos tgt = some (pos + length_of_comment (b.drop pos) cfg, tgt) := by
      simp only [strip_body, hc, if_true]
    rw [e] at h
    cases h
    refine ⟨by simp only [strip_body_positions, hc, if_true], _, hc, rfl, by omega, Or.inl rfl⟩
  · by_cases hd : length_of_delete (b.drop pos) cfg > 0
    · have hle := length_of_delete_le cfg (b.drop pos)
      have e : strip_body cfg b pos tgt =
          some (pos + length_of_delete (b.drop pos) cfg, tgt) := by
        simp only [strip_body, hc, hd, if_true, if_false]
      rw [e] at h
      cases h
      refine ⟨by simp only [strip_body_positions, hc, hd, if_true, if_false], _, hd, rfl,
        by omega, Or.inl rfl⟩
    · by_cases hq : is_in_quoters (charAt b pos) cfg = true
      · cases hl : length_of_quotation (b.drop pos) with
        | none =>
          have e : strip_body cfg b pos tgt = none := by
            simp only [strip_body, hc, hd, hq, hl, if_true, if_false]
          rw [e] at h
          cases h
        | some n =>
          have hle := length_of_quotation_le hl
          have hge := length_of_quotation_ge hl
          have e : strip_body cfg b pos tgt = some (pos + n, tgt ++ (b.drop pos).take n) := by
            simp only [strip_body, hc, hd, hq, hl, if_true, if_false]
          rw [e] at h
          cases h
          refine ⟨?_, n, by omega, rfl, by omega, Or.inr rfl⟩
          simp only [strip_body_positions, hc, hd, hq, hl, if_true, if_false,
            List.length_append, List.length_take, hlen]
          congr 2
          omega
      · have e : strip_body cfg b pos tgt = some (pos + 1, tgt ++ [charAt b pos]) := by
          simp only [strip_body, hc, hd, hq, if_false, Bool.false_eq_true]
        rw [e] at h
        cases h
        refine ⟨?_, 1, Nat.one_pos, rfl, by omega, Or.inr ?_⟩
        · simp only [strip_body_positions, hc, hd, hq, if_false, Bool.false_eq_true,
            List.length_append, List.length_singleton]
        · have hd1 : b.drop pos = charAt b pos :: b.drop (pos + 1) := by
            rw [List.drop_eq_getElem_cons hpos]
            simp [charAt, List.getD_eq_getElem?_getD, List.getElem?_eq_getElem hpos]
          rw [hd1]
          rfl

/-- What has been written stays a subsequence of what has been read. -/
theorem strip_body_sublist (cfg : parser_struct) (b : List Char) (pos : Nat) (tgt : List Char)
    (r : Nat × List Char) (hpos : pos < b.length) (h : strip_body cfg b pos tgt = some r)
    (hs : tgt.Sublist (b.take pos)) : r.2.Sublist (b.take r.1) := by
  obtain ⟨_, n, _, h1, _, h2⟩ := strip_body_step cfg b pos tgt r hpos h
  rw [h1, List.take_add]
  rcases h2 with h2 | h2
  · rw [h2]
    exact hs.trans (List.sublist_append_left _ _)
  · rw [h2]
    exact List.Sublist.append hs (List.Sublist.refl _)

/-! ## C21: the stripper only removes characters -/

/-- C21: when `parser_strip_buffer` succeeds on a buffer, its output is a subsequence of the
buffer, so not longer than the buffer; the scan of the indices succeeds as well, starts at
(0, 0) and ends with `src_position` at the end of the buffer and `target_position` at the
length of the output; and at the head of every pass and at the end of the loop
`target_position` is at most `src_position`, which is at most the length of the buffer, so
every write goes to one of the `strlen(buffer) + 1` bytes of `target`. -/
theorem strip_only_removes (cfg : parser_struct) (buffer out : List Char)
    (hb : NUL ∉ buffer) (h : parser_strip_buffer cfg buffer = Outcome.ok out) :
    out.Sublist buffer ∧ out.length ≤ buffer.length ∧
      ∃ trace, strip_scan cfg buffer (strlen buffer + 1) 0 0 = Outcome.ok trace ∧
        trace.head? = some (0, 0) ∧
        trace.getLast? = some (buffer.length, out.length) ∧
        ∀ st ∈ trace, st.2 ≤ st.1 ∧ st.1 ≤ buffer.length ∧ st.2 < strlen buffer + 1 := by
  have key : ∀ (fuel pos : Nat) (tgt : List Char), pos ≤ buffer.length →
      buffer.length - pos < fuel → tgt.Sublist (buffer.take pos) →
      strip_loop cfg buffer fuel pos tgt = Outcome.ok out →
      out.Sublist buffer ∧
        ∃ trace, strip_scan cfg buffer fuel pos tgt.length = Outcome.ok trace ∧
          trace.head? = some (pos, tgt.length) ∧
          trace.getLast? = some (buffer.length, out.length) ∧
          ∀ st ∈ trace, st.2 ≤ st.1 ∧ st.1 ≤ buffer.length := by
    intro fuel
    induction fuel with
    | zero => intro pos tgt _ hf; omega
    | succ fuel ih =>
      intro pos tgt hpos hf hs hl
      have htl : tgt.length ≤ pos :=
        Nat.le_trans hs.length_le (by rw [List.length_take]; exact Nat.min_le_left _ _)
      rw [strip_loop, strlen_eq_length hb] at hl
      rw [strip_scan, strlen_eq_length hb]
      by_cases hlt : pos < buffer.length
      · simp only [hlt, if_true] at hl ⊢
        cases hbody : strip_body cfg buffer pos tgt with
        | none => rw [hbody] at hl; cases hl
        | some r =>
          rw [hbody] at hl
          obtain ⟨hp, n, hn, h1, h2, _⟩ := strip_body_step cfg buffer pos tgt r hlt hbody
          have hsub := strip_body_sublist cfg buffer pos tgt r hlt hbody hs
          obtain ⟨ho, trace, ht1, ht2, ht3, ht4⟩ :=
            ih r.1 r.2 (by omega) (by omega) hsub hl
          refine ⟨ho, (pos, tgt.length) :: trace, ?_, rfl, ?_, ?_⟩
          · rw [hp]
            simp only [ht1, Outcome.map]
          · cases trace with
            | nil => cases ht2
            | cons a t => rw [List.getLast?_cons_cons]; exact ht3
          · intro st hst
            rcases List.mem_cons.mp hst with e | e
            · rw [e]
              exact ⟨htl, hpos⟩
            · exact ht4 st e
      · have hpe : pos = buffer.length := by omega
        simp only [hlt, if_false] at hl ⊢
        have hout : tgt = out := Outcome.ok.inj hl
        subst hout
        subst hpe
        rw [List.take_length] at hs
        refine ⟨hs, [(buffer.length, tgt.length)], rfl, rfl, rfl, ?_⟩
        intro st hst
        rw [List.mem_singleton.mp hst]
        exact ⟨htl, Nat.le_refl _⟩
  obtain ⟨ho, trace, ht1, ht2, ht3, ht4⟩ :=
    key (strlen buffer + 1) 0 [] (Nat.zero_le _) (by rw [strlen_eq_length hb]; omega)
      (List.nil_sublist _) h
  refine ⟨ho, ho.length_le, trace, ht1, ht2, ht3, fun st hst => ?_⟩
  have := ht4 st hst
  rw [strlen_eq_length hb]
  omega

/-- The stripper on the buffer `a"b" #c`, newline, `d`: the comment goes, and the indices
at the heads of the five passes and at the end are those of the trace. -/
theorem strip_only_removes_witness :
    parser_strip_buffer hash_comment_config ['a', '"', 'b', '"', ' ', '#', 'c', '\n', 'd'] =
        Outcome.ok ['a', '"', 'b', '"', ' ', 'd'] ∧
      strip_scan hash_comment_config ['a', '"', 'b', '"', ' ', '#', 'c', '\n', 'd'] 10 0 0 =
        Outcome.ok [(0, 0), (1, 1), (4, 4), (5, 5), (8, 5), (9, 6)] ∧
      (['a', '"', 'b', '"', ' ', 'd'].Sublist
          ['a', '"', 'b', '"', ' ', '#', 'c', '\n', 'd'] ∧
        ['a', '"', 'b', '"', ' ', 'd'].length ≤
          ['a', '"', 'b', '"', ' ', '#', 'c', '\n', 'd'].length ∧
        ∃ trace,
          strip_scan hash_comment_config ['a', '"', 'b', '"', ' ', '#', 'c', '\n', 'd']
              (strlen ['a', '"', 'b', '"', ' ', '#', 'c', '\n', 'd'] + 1) 0 0 =
            Outcome.ok trace ∧
          trace.head? = some (0, 0) ∧
          trace.getLast? = some (['a', '"', 'b', '"', ' ', '#', 'c', '\n', 'd'].length,
            ['a', '"', 'b', '"', ' ', 'd'].length) ∧
          ∀ st ∈ trace, st.2 ≤ st.1 ∧
            st.1 ≤ ['a', '"', 'b', '"', ' ', '#', 'c', '\n', 'd'].length ∧
            st.2 < strlen ['a', '"', 'b', '"', ' ', '#', 'c', '\n', 'd'] + 1) :=
  ⟨by decide, by decide,
    strip_only_removes hash_comment_config ['a', '"', 'b', '"', ' ', '#', 'c', '\n', 'd']
      ['a', '"', 'b', '"', ' ', 'd'] (by decide) (by decide)⟩

end ParserC
